import Mathlib

/-!
Verification of the Sentinel-Copilot-S2 hybrid retrieval core.

This file shallowly embeds the retrieval pipeline of the repository
(`server/rag/bm25.py`, `server/rag/query_expander.py`, `server/rag/chunker.py`,
`server/rag/vector_store.py`, `server/rag/models.py`) into Lean and proves or
refutes the specified properties.

Modelling conventions:
* Python `dict`s are insertion-ordered association lists `List (String × α)`;
  `d[k] = v` is `aset` (update in place, else append), `del d[k]` is `aerase`,
  `d.get(k, default)` is `agetD`.
* Python `float` arithmetic is modelled by `ℚ`; `round(x, n)` by `roundDp n`
  (round half to even, as Python's `round`).
* `math.log` (used only inside BM25 scoring) is an external transcendental
  function; the BM25 search is parameterised by it (`lnq`), and every theorem
  below holds for an arbitrary choice of `lnq`.
* The tokenizer regex of `BM25Index._tokenize` is likewise a parameter `tok`
  of the index operations; invariant theorems hold for every tokenizer.  For
  concrete witnesses we use `tokenizeSimple`, which agrees with the Python
  regex on texts made of ASCII letters, digits and spaces (all concrete texts
  used in witnesses below are of this shape).
* The external ChromaDB ANN store is modelled through its contract from the
  specification (§4.6): per-subject record lists, `add` requiring ids unique
  within the collection, `query` returning ranked `(id, distance)` pairs with
  `distance ∈ [0, 2]`.  Embedding vectors are irrelevant to every claim and
  are omitted from the records.
-/

namespace Sentinel

/-! ## Association lists: the model of Python dicts -/

/-- Lookup of a key in an insertion-ordered association list. -/
def aget? {α : Type} : List (String × α) → String → Option α
  | [], _ => none
  | (k', v) :: t, k => if k' = k then some v else aget? t k

/-- Lookup with a default value, Python's `d.get(k, dflt)`. -/
def agetD {α : Type} (l : List (String × α)) (k : String) (dflt : α) : α :=
  (aget? l k).getD dflt

/-- Python's `d[k] = v`: update in place if present, else append at the end. -/
def aset {α : Type} : List (String × α) → String → α → List (String × α)
  | [], k, v => [(k, v)]
  | (k', v') :: t, k, v => if k' = k then (k, v) :: t else (k', v') :: aset t k v

/-- Python's `del d[k]`: drop the (first) binding of `k`. -/
def aerase {α : Type} : List (String × α) → String → List (String × α)
  | [], _ => []
  | (k', v) :: t, k => if k' = k then t else (k', v) :: aerase t k

/-- Distinct keys, stated through lookups; every genuine Python dict state
satisfies this. -/
def NodupKeys {α : Type} : List (String × α) → Prop
  | [] => True
  | p :: t => aget? t p.1 = none ∧ NodupKeys t

@[simp] theorem nodupKeys_nil {α : Type} : NodupKeys ([] : List (String × α)) := trivial

@[simp] theorem nodupKeys_cons {α : Type} (p : String × α) (t : List (String × α)) :
    NodupKeys (p :: t) ↔ aget? t p.1 = none ∧ NodupKeys t := Iff.rfl

@[simp] theorem aget?_nil {α : Type} (k : String) :
    aget? ([] : List (String × α)) k = none := rfl

theorem aget?_cons {α : Type} (k' k : String) (v : α) (t : List (String × α)) :
    aget? ((k', v) :: t) k = if k' = k then some v else aget? t k := rfl

@[simp] theorem aset_nil {α : Type} (k : String) (v : α) : aset [] k v = [(k, v)] := rfl

theorem aset_cons {α : Type} (k' k : String) (v' v : α) (t : List (String × α)) :
    aset ((k', v') :: t) k v = if k' = k then (k, v) :: t else (k', v') :: aset t k v := rfl

theorem aget?_aset_self {α : Type} (l : List (String × α)) (k : String) (v : α) :
    aget? (aset l k v) k = some v := by
  induction l with
  | nil => simp [aget?]
  | cons p t ih =>
    obtain ⟨k', v'⟩ := p
    by_cases h : k' = k
    · simp [aset_cons, h, aget?]
    · simp [aset_cons, h, aget?, ih]

theorem aget?_aset_ne {α : Type} (l : List (String × α)) (k k' : String) (v : α)
    (h : k ≠ k') : aget? (aset l k v) k' = aget? l k' := by
  induction l with
  | nil => simp [aget?, h]
  | cons p t ih =>
    obtain ⟨pk, pv⟩ := p
    by_cases hp : pk = k
    · subst hp
      simp [aset_cons, aget?_cons, h, Ne.symm h]
    · by_cases hp' : pk = k'
      · subst hp'
        rw [aset_cons, if_neg hp, aget?_cons, if_pos rfl, aget?_cons, if_pos rfl]
      · simp [aset_cons, hp, aget?_cons, hp', ih]

theorem aget?_aerase_ne {α : Type} (l : List (String × α)) (k k' : String)
    (h : k ≠ k') : aget? (aerase l k) k' = aget? l k' := by
  induction l with
  | nil => simp [aerase]
  | cons p t ih =>
    obtain ⟨pk, pv⟩ := p
    by_cases hp : pk = k
    · subst hp
      rw [aerase, if_pos rfl, aget?_cons, if_neg h]
    · simp [aerase, hp, aget?_cons, ih]

theorem aget?_aerase_self {α : Type} (l : List (String × α)) (k : String)
    (h : NodupKeys l) : aget? (aerase l k) k = none := by
  induction l with
  | nil => simp [aerase]
  | cons p t ih =>
    obtain ⟨hnone, hnd⟩ := h
    obtain ⟨pk, pv⟩ := p
    by_cases hp : pk = k
    · subst hp
      simpa [aerase] using hnone
    · simp [aerase, hp, aget?_cons, ih hnd]

theorem nodupKeys_aset {α : Type} (l : List (String × α)) (k : String) (v : α)
    (h : NodupKeys l) : NodupKeys (aset l k v) := by
  induction l with
  | nil => exact ⟨rfl, trivial⟩
  | cons p t ih =>
    obtain ⟨hnone, hnd⟩ := h
    obtain ⟨pk, pv⟩ := p
    by_cases hp : pk = k
    · subst hp
      rw [aset_cons, if_pos rfl, nodupKeys_cons]
      exact ⟨hnone, hnd⟩
    · rw [aset_cons, if_neg hp, nodupKeys_cons]
      refine ⟨?_, ih hnd⟩
      simpa [aget?_aset_ne t k pk v (fun he => hp he.symm)] using hnone

theorem nodupKeys_aerase {α : Type} (l : List (String × α)) (k : String)
    (h : NodupKeys l) : NodupKeys (aerase l k) := by
  induction l with
  | nil => trivial
  | cons p t ih =>
    obtain ⟨hnone, hnd⟩ := h
    obtain ⟨pk, pv⟩ := p
    by_cases hp : pk = k
    · subst hp
      simpa [aerase] using hnd
    · rw [aerase, if_neg hp, nodupKeys_cons]
      refine ⟨?_, ih hnd⟩
      simpa [aget?_aerase_ne t k pk (fun he => hp he.symm)] using hnone

theorem mem_of_aget?_eq_some {α : Type} (l : List (String × α)) (k : String) (v : α)
    (h : aget? l k = some v) : (k, v) ∈ l := by
  induction l with
  | nil => simp [aget?] at h
  | cons p t ih =>
    obtain ⟨pk, pv⟩ := p
    by_cases hp : pk = k
    · rw [aget?_cons, if_pos hp] at h
      subst hp
      simp at h
      simp [h]
    · rw [aget?_cons, if_neg hp] at h
      exact List.mem_cons_of_mem _ (ih h)

theorem aget?_eq_some_of_mem_nodup {α : Type} (l : List (String × α)) (k : String) (v : α)
    (hnd : NodupKeys l) (h : (k, v) ∈ l) : aget? l k = some v := by
  induction l with
  | nil => simp at h
  | cons p t ih =>
    obtain ⟨hnone, hnd'⟩ := hnd
    rcases List.mem_cons.1 h with h1 | h1
    · rw [← h1]
      simp [aget?_cons]
    · obtain ⟨pk, pv⟩ := p
      by_cases hp : pk = k
      · subst hp
        rw [ih hnd' h1] at hnone
        simp at hnone
      · rw [aget?_cons, if_neg hp]
        exact ih hnd' h1

theorem mem_aset_elim {α : Type} (l : List (String × α)) (k : String) (v : α)
    (p : String × α) (h : p ∈ aset l k v) : p = (k, v) ∨ p ∈ l := by
  induction l with
  | nil => simpa using h
  | cons q t ih =>
    obtain ⟨qk, qv⟩ := q
    by_cases hq : qk = k
    · rw [aset_cons, if_pos hq] at h
      rcases List.mem_cons.1 h with h1 | h1
      · exact Or.inl h1
      · exact Or.inr (List.mem_cons_of_mem _ h1)
    · rw [aset_cons, if_neg hq] at h
      rcases List.mem_cons.1 h with h1 | h1
      · exact Or.inr (by simp [h1])
      · rcases ih h1 with h2 | h2
        · exact Or.inl h2
        · exact Or.inr (List.mem_cons_of_mem _ h2)

theorem mem_aerase_elim {α : Type} (l : List (String × α)) (k : String)
    (p : String × α) (h : p ∈ aerase l k) : p ∈ l := by
  induction l with
  | nil => simp [aerase] at h
  | cons q t ih =>
    obtain ⟨qk, qv⟩ := q
    by_cases hq : qk = k
    · rw [aerase, if_pos hq] at h
      exact List.mem_cons_of_mem _ h
    · rw [aerase, if_neg hq] at h
      rcases List.mem_cons.1 h with h1 | h1
      · exact h1 ▸ List.mem_cons_self _ _
      · exact List.mem_cons_of_mem _ (ih h1)

/-- Length of `aset`: unchanged when the key was present, one more otherwise. -/
theorem length_aset {α : Type} (l : List (String × α)) (k : String) (v : α) :
    (aset l k v).length = if (aget? l k).isSome then l.length else l.length + 1 := by
  induction l with
  | nil => simp [aget?]
  | cons p t ih =>
    obtain ⟨pk, pv⟩ := p
    by_cases hp : pk = k
    · simp [aset_cons, hp, aget?_cons]
    · simp [aset_cons, hp, aget?_cons, ih]
      by_cases h2 : (aget? t k).isSome
      · simp [h2]
      · simp [h2]

/-- Length of `aerase`: one less when the key was present. -/
theorem length_aerase {α : Type} (l : List (String × α)) (k : String) :
    (aerase l k).length = if (aget? l k).isSome then l.length - 1 else l.length := by
  induction l with
  | nil => simp [aerase]
  | cons p t ih =>
    obtain ⟨pk, pv⟩ := p
    by_cases hp : pk = k
    · simp [aerase, hp, aget?_cons]
    · rw [aerase, if_neg hp, aget?_cons, if_neg hp]
      simp only [List.length_cons, ih]
      by_cases h2 : (aget? t k).isSome
      · have hlen : 0 < t.length := by
          rcases Option.isSome_iff_exists.1 h2 with ⟨w, hw⟩
          cases t with
          | nil => simp [aget?] at hw
          | cons q u => simp
        simp only [h2, if_true]
        omega
      · simp [h2]

/-! ## Python `round`: round half to even, then scale.

`roundDp n x` models `round(x, n)` on the rational model of Python floats. -/

/-- Round a rational to the nearest integer, halves to the even neighbour. -/
def pyRoundInt (x : ℚ) : ℤ :=
  if x - ⌊x⌋ < 1/2 then ⌊x⌋
  else if 1/2 < x - ⌊x⌋ then ⌊x⌋ + 1
  else if ⌊x⌋ % 2 = 0 then ⌊x⌋ else ⌊x⌋ + 1

/-- Python's `round(x, n)`. -/
def roundDp (n : Nat) (x : ℚ) : ℚ :=
  (pyRoundInt (x * 10 ^ n) : ℚ) / 10 ^ n

theorem pyRoundInt_lb (x : ℚ) : ⌊x⌋ ≤ pyRoundInt x := by
  unfold pyRoundInt
  split_ifs <;> omega

theorem pyRoundInt_ub (x : ℚ) : pyRoundInt x ≤ ⌊x⌋ + 1 := by
  unfold pyRoundInt
  split_ifs <;> omega

theorem pyRoundInt_mono {x y : ℚ} (h : x ≤ y) : pyRoundInt x ≤ pyRoundInt y := by
  have hf : ⌊x⌋ ≤ ⌊y⌋ := Int.floor_le_floor h
  by_cases hc : ⌊x⌋ = ⌊y⌋
  · unfold pyRoundInt
    rw [hc]
    split_ifs <;> first | omega | linarith
  · have hf' : ⌊x⌋ + 1 ≤ ⌊y⌋ := by omega
    calc pyRoundInt x ≤ ⌊x⌋ + 1 := pyRoundInt_ub x
      _ ≤ ⌊y⌋ := hf'
      _ ≤ pyRoundInt y := pyRoundInt_lb y

theorem roundDp_mono (n : Nat) {x y : ℚ} (h : x ≤ y) : roundDp n x ≤ roundDp n y := by
  unfold roundDp
  have hp : (0 : ℚ) < 10 ^ n := by positivity
  have hm := pyRoundInt_mono (mul_le_mul_of_nonneg_right h (le_of_lt hp))
  have hm' : ((pyRoundInt (x * 10 ^ n) : ℚ)) ≤ ((pyRoundInt (y * 10 ^ n) : ℚ)) := by
    exact_mod_cast hm
  exact div_le_div_of_nonneg_right hm' hp.le

/-! ## Stable descending sort by a rational key.

Python's `sorted(..., key=..., reverse=True)` is a stable sort; with
`reverse=True` elements with equal keys keep their original relative order.
`sortByDesc` is a stable insertion sort realising exactly that. -/

/-- Insert `x` after every element whose key is at least `key x` (stability). -/
def insertByDesc {α : Type} (key : α → ℚ) (x : α) : List α → List α
  | [] => [x]
  | y :: t => if key x ≤ key y then y :: insertByDesc key x t else x :: y :: t

/-- Stable sort, descending by `key`. -/
def sortByDesc {α : Type} (key : α → ℚ) (l : List α) : List α :=
  l.foldl (fun acc x => insertByDesc key x acc) []

theorem mem_insertByDesc {α : Type} (key : α → ℚ) (x : α) (l : List α) (z : α) :
    z ∈ insertByDesc key x l ↔ z = x ∨ z ∈ l := by
  induction l with
  | nil => simp [insertByDesc]
  | cons y t ih =>
    by_cases h : key x ≤ key y
    · simp only [insertByDesc, if_pos h, List.mem_cons, ih]
      tauto
    · simp only [insertByDesc, if_neg h, List.mem_cons]

theorem mem_sortByDesc {α : Type} (key : α → ℚ) (l : List α) (z : α) :
    z ∈ sortByDesc key l ↔ z ∈ l := by
  suffices h : ∀ acc, z ∈ l.foldl (fun acc x => insertByDesc key x acc) acc ↔ z ∈ l ∨ z ∈ acc by
    simpa using h []
  induction l with
  | nil => simp
  | cons y t ih =>
    intro acc
    simp only [List.foldl_cons, ih, mem_insertByDesc, List.mem_cons]
    tauto

/-- Descending order of keys along a list. -/
def KeysDesc {α : Type} (key : α → ℚ) (l : List α) : Prop :=
  l.Pairwise (fun a b => key b ≤ key a)

theorem keysDesc_insertByDesc {α : Type} (key : α → ℚ) (x : α) (l : List α)
    (h : KeysDesc key l) : KeysDesc key (insertByDesc key x l) := by
  induction l with
  | nil => simp [insertByDesc, KeysDesc]
  | cons y t ih =>
    rcases (List.pairwise_cons.1 h) with ⟨hy, ht⟩
    by_cases hk : key x ≤ key y
    · rw [insertByDesc, if_pos hk]
      refine List.pairwise_cons.2 ⟨?_, ih ht⟩
      intro z hz
      rcases (mem_insertByDesc key x t z).1 hz with h1 | h1
      · exact h1 ▸ hk
      · exact hy z h1
    · rw [insertByDesc, if_neg hk]
      refine List.pairwise_cons.2 ⟨?_, h⟩
      intro z hz
      rcases List.mem_cons.1 hz with h1 | h1
      · exact h1 ▸ le_of_not_le hk
      · exact le_trans (hy z h1) (le_of_not_le hk)

theorem keysDesc_sortByDesc {α : Type} (key : α → ℚ) (l : List α) :
    KeysDesc key (sortByDesc key l) := by
  suffices h : ∀ acc, KeysDesc key acc → KeysDesc key (l.foldl (fun acc x => insertByDesc key x acc) acc) by
    exact h [] (List.Pairwise.nil)
  induction l with
  | nil => exact fun acc h => h
  | cons y t ih =>
    intro acc hacc
    exact ih _ (keysDesc_insertByDesc key y acc hacc)

theorem length_insertByDesc {α : Type} (key : α → ℚ) (x : α) (l : List α) :
    (insertByDesc key x l).length = l.length + 1 := by
  induction l with
  | nil => rfl
  | cons y t ih =>
    by_cases h : key x ≤ key y
    · simp [insertByDesc, h, ih]
    · simp [insertByDesc, h]

theorem keysDesc_take {α : Type} (key : α → ℚ) (l : List α) (n : Nat)
    (h : KeysDesc key l) : KeysDesc key (l.take n) :=
  List.Pairwise.sublist (List.take_sublist n l) h

theorem mem_take_of_mem {α : Type} {l : List α} {n : Nat} {z : α}
    (h : z ∈ l.take n) : z ∈ l :=
  List.mem_of_mem_take h

theorem keysDesc_filterMap {α β : Type} (key : α → ℚ) (key' : β → ℚ)
    (f : α → Option β) (l : List α)
    (hf : ∀ a b, f a = some b → key' b = key a)
    (h : KeysDesc key l) : KeysDesc key' (l.filterMap f) := by
  induction l with
  | nil => simp [KeysDesc]
  | cons y t ih =>
    rcases (List.pairwise_cons.1 h) with ⟨hy, ht⟩
    rcases hfy : f y with _ | b
    · rw [List.filterMap_cons_none hfy]
      exact ih ht
    · rw [List.filterMap_cons_some hfy]
      refine List.pairwise_cons.2 ⟨?_, ih ht⟩
      intro z hz
      rcases List.mem_filterMap.1 hz with ⟨a, ha, hfa⟩
      rw [hf a z hfa, hf y b hfy]
      exact hy a ha

/-! ## Character and string helpers.

All string manipulation is done on `List Char` (`String.data`) with small
structurally-recursive functions, mirroring the Python string operations in
use: `lower`, `strip`, `split`, slicing, substring test. -/

/-- ASCII whitespace, the characters Python's `str.strip`/`str.split` treat
as whitespace in the inputs of this code base. -/
def isWS (c : Char) : Bool :=
  c.toNat = 32 || (9 ≤ c.toNat && c.toNat ≤ 13)

def isDigitCh (c : Char) : Bool := '0' ≤ c && c ≤ '9'

def isLowerCh (c : Char) : Bool := 'a' ≤ c && c ≤ 'z'

def isUpperCh (c : Char) : Bool := 'A' ≤ c && c ≤ 'Z'

def isAlnumCh (c : Char) : Bool := isLowerCh c || isUpperCh c || isDigitCh c

/-- ASCII lowercasing, Python's `str.lower` on the ASCII texts in use. -/
def lowerChar (c : Char) : Char :=
  if isUpperCh c then Char.ofNat (c.toNat + 32) else c

def pyLower (s : String) : String := String.mk (s.data.map lowerChar)

def stripChars (cs : List Char) : List Char :=
  ((cs.dropWhile (fun c => isWS c)).reverse.dropWhile (fun c => isWS c)).reverse

/-- Python's `str.strip()`. -/
def pyStrip (s : String) : String := String.mk (stripChars s.data)

/-- Python's `s[:n]` (slicing by code points). -/
def strTake (n : Nat) (s : String) : String := String.mk (s.data.take n)

/-- Python's `s[n:]`. -/
def strDrop (n : Nat) (s : String) : String := String.mk (s.data.drop n)

/-- Python's `s[-n:]` for `n > 0`. -/
def strTakeRight (n : Nat) (s : String) : String :=
  String.mk (s.data.drop (s.data.length - n))

/-- Substring test on character lists, Python's `in` on strings. -/
def isInfixB (p : List Char) : List Char → Bool
  | [] => p.isEmpty
  | c :: t => p.isPrefixOf (c :: t) || isInfixB p t

/-- Python's `needle in hay` for strings. -/
def strContains (hay needle : String) : Bool := isInfixB needle.data hay.data

/-- Python's `str.split()` (split on whitespace runs, no empty parts). -/
def splitWSAux : List Char → List Char → List String
  | acc, [] => if acc.isEmpty then [] else [String.mk acc.reverse]
  | acc, c :: t =>
    if isWS c then
      if acc.isEmpty then splitWSAux [] t
      else String.mk acc.reverse :: splitWSAux [] t
    else splitWSAux (c :: acc) t

def pySplitWS (s : String) : List String := splitWSAux [] s.data

/-- Python's `str.split('\n')` (keeps empty parts). -/
def splitNLAux : List Char → List Char → List String
  | acc, [] => [String.mk acc.reverse]
  | acc, c :: t =>
    if c = '\n' then String.mk acc.reverse :: splitNLAux [] t
    else splitNLAux (c :: acc) t

def pySplitNL (s : String) : List String := splitNLAux [] s.data

/-- Python's `sep.join(parts)`. -/
def joinSep (sep : String) : List String → String
  | [] => ""
  | [x] => x
  | x :: xs => x ++ sep ++ joinSep sep xs

/-! ## The BM25 tokenizer.

`BM25Index._tokenize` is
`re.findall(r'\b[a-zA-Z0-9][\w\-\.]*[a-zA-Z0-9]\b|\b\w\b', text.lower())`
followed by the stop-word and length-1 filters.  Embedding the full Python
regex engine is out of scope; `tokenizeSimple` extracts maximal alphanumeric
runs from the lowercased text, which coincides with the regex on texts made
of ASCII letters, digits and whitespace — the shape of every concrete text
used in witnesses and counterexamples below.  All invariant theorems are
proved for an arbitrary tokenizer `tok`, hence in particular for the real
one. -/

/-- Maximal runs of alphanumeric characters. -/
def splitRunsAux : List Char → List Char → List (List Char)
  | acc, [] => if acc.isEmpty then [] else [acc.reverse]
  | acc, c :: t =>
    if isAlnumCh c then splitRunsAux (c :: acc) t
    else if acc.isEmpty then splitRunsAux [] t
    else acc.reverse :: splitRunsAux [] t

def splitRuns (cs : List Char) : List (List Char) := splitRunsAux [] cs

/-- The frozen stop-word list of `BM25Index.STOP_WORDS`. -/
def stopWords : List String :=
  ["the", "a", "an", "and", "or", "but", "in", "on", "at", "to", "for",
   "of", "with", "by", "from", "as", "is", "was", "are", "were", "been",
   "be", "have", "has", "had", "do", "does", "did", "will", "would",
   "could", "should", "may", "might", "must", "shall", "can", "need",
   "this", "that", "these", "those", "it", "its", "they", "them",
   "their", "what", "which", "who", "whom", "when", "where", "why", "how",
   "all", "each", "every", "both", "few", "more", "most", "other",
   "some", "such", "no", "nor", "not", "only", "own", "same", "so",
   "than", "too", "very", "just", "also", "now", "here", "there",
   "about", "into", "over", "after", "below", "between", "under",
   "again", "then", "once", "during", "while", "before", "above",
   "being", "through", "further", "because", "until"]

/-- Model of `BM25Index._tokenize` (see the section comment). -/
def tokenizeSimple (text : String) : List String :=
  ((splitRuns (text.data.map lowerChar)).map (fun r => String.mk r)).filter
    (fun t => t ∉ stopWords && t.length > 1)

/-! ## Chunk metadata.

`VectorStore.add_chunks` attaches this metadata record to every stored chunk
(both in ChromaDB and in the BM25 index).  Optional headers are stored as
`header or ""`.  `importance` is always written as a float by `add_chunks`,
so the string-coercion fallback in `VectorStore.search` is dead in the typed
model. -/

structure ChunkMeta where
  document_id : String
  page : Int
  filename : String
  header : String
  parent_header : String
  chunk_type : String
  importance : ℚ
  sentence_count : Int
deriving DecidableEq, Repr

/-- Metadata of a chunk id that appears in a BM25 result but in no stored
metadata map: Python reads `{}` and then `{}.get('importance', 1.0) = 1.0`. -/
def defaultMeta : ChunkMeta := ⟨"", 0, "", "", "", "", 1, 0⟩

/-! ## BM25 index (`server/rag/bm25.py`). -/

/-- State of `BM25Index`.  `k1` and `b` are the constructor parameters
(defaults `1.5` and `0.75`); the maps are insertion-ordered as Python dicts.
`doc_freqs` values are integers (`defaultdict(int)` with `max(0, · - 1)` on
removal). -/
structure BM25State where
  k1 : ℚ
  b : ℚ
  doc_count : Int
  avgdl : ℚ
  doc_lengths : List (String × Nat)
  doc_freqs : List (String × Int)
  inverted_index : List (String × List (String × Nat))
  doc_texts : List (String × String)
  doc_metadata : List (String × ChunkMeta)
deriving DecidableEq, Repr

/-- `BM25Index()` as constructed by `VectorStore` (default `k1`, `b`). -/
def emptyBM25 : BM25State :=
  ⟨3/2, 3/4, 0, 0, [], [], [], [], []⟩

/-- Sum of the values of `doc_lengths` (`sum(self.doc_lengths.values())`). -/
def sumVals (l : List (String × Nat)) : Nat :=
  (l.map Prod.snd).sum

/-- Python's `collections.Counter(tokens)`: multiplicities keyed in
first-occurrence order. -/
def dedupFirst (ts : List String) : List String :=
  ts.foldl (fun acc t => if t ∈ acc then acc else acc ++ [t]) []

def counter (ts : List String) : List (String × Nat) :=
  (dedupFirst ts).map (fun t => (t, ts.count t))

/-- `BM25Index.add_document`.  The Python loop updates `inverted_index` and
`doc_freqs` in one pass over `Counter(tokens).items()`; since the two updates
touch disjoint fields, they are rendered as two folds over the same counter
list (the `seen_terms` guard is redundant there because counter keys are
distinct). -/
def addDocument (tok : String → List String) (s : BM25State)
    (doc_id text : String) (metadata : ChunkMeta) : BM25State :=
  let tokens := tok text
  let doc_texts := aset s.doc_texts doc_id text
  let doc_metadata := aset s.doc_metadata doc_id metadata
  let doc_lengths := aset s.doc_lengths doc_id tokens.length
  let tcs := counter tokens
  let inverted_index := tcs.foldl
    (fun ii p => aset ii p.1 (aset (agetD ii p.1 []) doc_id p.2)) s.inverted_index
  let doc_freqs := tcs.foldl
    (fun df p => aset df p.1 (agetD df p.1 0 + 1)) s.doc_freqs
  let doc_count := s.doc_count + 1
  { s with
    doc_texts, doc_metadata, doc_lengths, inverted_index, doc_freqs, doc_count,
    avgdl := (sumVals doc_lengths : ℚ) / ((max doc_count 1 : Int) : ℚ) }

/-- Loop body of `BM25Index.remove_document` for one (distinct) token: acting
on the pair (inverted_index, doc_freqs), guarded by
`token in inverted_index and doc_id in inverted_index[token]`. -/
def removeStep (doc_id : String)
    (acc : List (String × List (String × Nat)) × List (String × Int))
    (token : String) : List (String × List (String × Nat)) × List (String × Int) :=
  match aget? acc.1 token with
  | none => acc
  | some postings =>
    if (aget? postings doc_id).isSome then
      let postings' := aerase postings doc_id
      let df' := aset acc.2 token (max 0 (agetD acc.2 token 0 - 1))
      if postings'.isEmpty then (aerase acc.1 token, aerase df' token)
      else (aset acc.1 token postings', df')
    else acc

/-- `BM25Index.remove_document`.  The token loop with its `seen_terms` set
processes each distinct token of the stored text once, in first-occurrence
order. -/
def removeDocument (tok : String → List String) (s : BM25State)
    (doc_id : String) : BM25State :=
  match aget? s.doc_texts doc_id with
  | none => s
  | some text =>
    let uts := dedupFirst (tok text)
    let iidf := uts.foldl (removeStep doc_id) (s.inverted_index, s.doc_freqs)
    let doc_texts := aerase s.doc_texts doc_id
    let doc_lengths := aerase s.doc_lengths doc_id
    let doc_metadata := aerase s.doc_metadata doc_id
    let doc_count := s.doc_count - 1
    { s with
      inverted_index := iidf.1, doc_freqs := iidf.2,
      doc_texts, doc_lengths, doc_metadata, doc_count,
      avgdl := if doc_count > 0
        then (sumVals doc_lengths : ℚ) / ((max doc_count 1 : Int) : ℚ) else 0 }

/-- `BM25Index.search`, parameterised by the natural logarithm `lnq` used in
the idf formula (an external transcendental function; every theorem holds for
an arbitrary `lnq`).  Scores accumulate in a `defaultdict(float)` and the
result is Python's stable `sorted(..., key=score, reverse=True)` truncated to
`limit`. -/
def bm25Search (tok : String → List String) (lnq : ℚ → ℚ) (s : BM25State)
    (query : String) (limit : Nat) : List (String × ℚ) :=
  if s.doc_count = 0 then []
  else
    let qtoks := tok query
    let scores := qtoks.foldl (fun scores term =>
      match aget? s.inverted_index term with
      | none => scores
      | some postings =>
        let df : ℚ := ((agetD s.doc_freqs term 0 : Int) : ℚ)
        let idf := lnq (((s.doc_count : ℚ) - df + 1/2) / (df + 1/2) + 1)
        postings.foldl (fun scores pr =>
          let dl : ℚ := (agetD s.doc_lengths pr.1 0 : Nat)
          let tf : ℚ := (pr.2 : Nat)
          let tfNorm := tf * (s.k1 + 1) / (tf + s.k1 * (1 - s.b + s.b * dl / s.avgdl))
          aset scores pr.1 (agetD scores pr.1 0 + idf * tfNorm)) scores)
      ([] : List (String × ℚ))
    (sortByDesc Prod.snd scores).take limit

/-! Results and witnesses for claim C4. -/

/-- States that can serve in the C4 counterexample: two identical documents
inserted with ids `"b"` then `"a"`. -/
def tieState : BM25State :=
  addDocument tokenizeSimple
    (addDocument tokenizeSimple emptyBM25 "b" "zebra apple" defaultMeta)
    "a" "zebra apple" defaultMeta

/-- C4, counterexample.  Two identically-scored documents come back in
insertion order `["b", "a"]` — not id-ascending order `["a", "b"]` — because
`BM25Index.search` sorts with Python's stable `sorted(..., reverse=True)` and
never compares ids.  The two scores are syntactically the same expression
`idf · tf_norm` (same `tf`, `df`, `dl`), so their equality — and hence this
ordering — is independent of the choice of logarithm; `lnq := id` is used to
make the statement closed. -/
theorem claim_C4_counterexample :
    (bm25Search tokenizeSimple id tieState "zebra" 10).map Prod.fst = ["b", "a"] ∧
    ("a" : String) < "b" := by
  with_unfolding_all decide

/-- C4, amended: for every index state, tokenizer and logarithm,
`BM25Index.search` returns at most `limit` pairs, sorted by score descending
(ties keeping the insertion order of the score accumulation — the stable-sort
order, not id-ascending), and returns the empty list when the index holds no
documents. -/
theorem claim_C4_amended (tok : String → List String) (lnq : ℚ → ℚ)
    (s : BM25State) (query : String) (limit : Nat) :
    (bm25Search tok lnq s query limit).length ≤ limit ∧
    KeysDesc Prod.snd (bm25Search tok lnq s query limit) ∧
    (s.doc_count = 0 → bm25Search tok lnq s query limit = []) := by
  unfold bm25Search
  by_cases h : s.doc_count = 0
  · simp [h, KeysDesc]
  · rw [if_neg h]
    exact ⟨List.length_take_le _ _,
      keysDesc_take _ _ _ (keysDesc_sortByDesc _ _),
      fun h0 => absurd h0 h⟩

/-- Witness for C4 (amended): the empty index returns the empty list, at most
`limit` results, in descending score order. -/
theorem claim_C4_witness :
    (bm25Search tokenizeSimple id emptyBM25 "zebra" 5).length ≤ 5 ∧
    KeysDesc Prod.snd (bm25Search tokenizeSimple id emptyBM25 "zebra" 5) ∧
    bm25Search tokenizeSimple id emptyBM25 "zebra" 5 = [] :=
  ⟨(claim_C4_amended tokenizeSimple id emptyBM25 "zebra" 5).1,
   (claim_C4_amended tokenizeSimple id emptyBM25 "zebra" 5).2.1,
   (claim_C4_amended tokenizeSimple id emptyBM25 "zebra" 5).2.2 (by decide)⟩

/-! ## BM25 index invariants (claim C6).

Operation sequences on one `BM25Index`, from a fresh index. -/

inductive BOp : Type
  | add (doc_id text : String) (metadata : ChunkMeta)
  | remove (doc_id : String)
deriving DecidableEq, Repr

def bstep (tok : String → List String) (s : BM25State) : BOp → BM25State
  | .add i t m => addDocument tok s i t m
  | .remove i => removeDocument tok s i

def brun (tok : String → List String) (ops : List BOp) : BM25State :=
  ops.foldl (bstep tok) emptyBM25

/-- Along the run, every `add_document` call uses an id that is not currently
indexed (the discipline `VectorStore` itself follows: ids are fresh dense ids). -/
def FreshRun (tok : String → List String) : BM25State → List BOp → Prop
  | _, [] => True
  | s, op :: rest =>
    (match op with
     | .add i _ _ => aget? s.doc_texts i = none
     | .remove _ => True) ∧ FreshRun tok (bstep tok s op) rest

/-- Number of indexed documents whose token list contains `t`. -/
def docsWith (tok : String → List String) (dts : List (String × String)) (t : String) : Nat :=
  (dts.filter (fun p => decide (t ∈ tok p.2))).length

/-- The invariants of spec §3 ("BM25 index", bullet "Invariants") for state `s`:
`doc_freqs[t] = |{d : t ∈ tokens(d)}|`, `avgdl = Σ doc_lengths / max(doc_count, 1)`,
`doc_count = |doc_texts|`, and
`term ∈ inverted_index ⇔ term ∈ doc_freqs ⇔ doc_freqs[term] > 0`. -/
def BM25Invariants (tok : String → List String) (s : BM25State) : Prop :=
  (∀ t : String, agetD s.doc_freqs t 0 = (docsWith tok s.doc_texts t : Int)) ∧
  s.avgdl = (sumVals s.doc_lengths : ℚ) / ((max s.doc_count 1 : Int) : ℚ) ∧
  s.doc_count = (s.doc_texts.length : Int) ∧
  (∀ t : String,
    ((aget? s.inverted_index t).isSome ↔ (aget? s.doc_freqs t).isSome) ∧
    ((aget? s.doc_freqs t).isSome ↔ 0 < agetD s.doc_freqs t 0))

/-! Helper lemmas about `dedupFirst` and `counter`. -/

theorem mem_dedupFirst (ts : List String) (t : String) :
    t ∈ dedupFirst ts ↔ t ∈ ts := by
  suffices h : ∀ acc, t ∈ ts.foldl (fun acc u => if u ∈ acc then acc else acc ++ [u]) acc ↔
      t ∈ acc ∨ t ∈ ts by
    simpa [dedupFirst] using h []
  induction ts with
  | nil => simp
  | cons u rest ih =>
    intro acc
    by_cases hu : u ∈ acc
    · simp only [List.foldl_cons, if_pos hu, ih, List.mem_cons]
      constructor
      · rintro (h | h)
        · exact Or.inl h
        · exact Or.inr (Or.inr h)
      · rintro (h | h | h)
        · exact Or.inl h
        · exact Or.inl (h ▸ hu)
        · exact Or.inr h
    · simp only [List.foldl_cons, if_neg hu, ih, List.mem_append, List.mem_singleton,
        List.mem_cons]
      tauto

theorem nodup_dedupFirst (ts : List String) : (dedupFirst ts).Nodup := by
  suffices h : ∀ acc : List String, acc.Nodup →
      (ts.foldl (fun acc u => if u ∈ acc then acc else acc ++ [u]) acc).Nodup by
    exact h [] List.nodup_nil
  induction ts with
  | nil => exact fun acc h => h
  | cons u rest ih =>
    intro acc hacc
    by_cases hu : u ∈ acc
    · simpa [if_pos hu] using ih acc hacc
    · rw [List.foldl_cons, if_neg hu]
      apply ih
      simp [List.nodup_append, hacc, hu]

theorem count_pos_iff_mem (ts : List String) (t : String) :
    0 < ts.count t ↔ t ∈ ts := List.count_pos_iff

theorem aget?_map_self {β : Type} (l : List String) (f : String → β) (k : String) :
    aget? (l.map (fun x => (x, f x))) k = if k ∈ l then some (f k) else none := by
  induction l with
  | nil => simp
  | cons x rest ih =>
    by_cases hx : x = k
    · simp [aget?_cons, hx]
    · simp only [List.map_cons, aget?_cons, if_neg hx, ih, List.mem_cons]
      by_cases hk : k ∈ rest
      · simp [hk, Ne.symm hx]
      · simp [hk, Ne.symm hx]

theorem aget?_counter (ts : List String) (t : String) :
    aget? (counter ts) t = if 0 < ts.count t then some (ts.count t) else none := by
  unfold counter
  rw [aget?_map_self]
  by_cases h : t ∈ ts
  · simp [mem_dedupFirst, h, (count_pos_iff_mem ts t).2 h]
  · simp [mem_dedupFirst, h, fun hc => h ((count_pos_iff_mem ts t).1 hc)]

theorem nodupKeys_map_self {β : Type} (l : List String) (f : String → β)
    (h : l.Nodup) : NodupKeys (l.map (fun x => (x, f x))) := by
  induction l with
  | nil => trivial
  | cons x rest ih =>
    rcases List.nodup_cons.1 h with ⟨hx, hrest⟩
    refine ⟨?_, ih hrest⟩
    rw [aget?_map_self]
    simp [hx]

theorem nodupKeys_counter (ts : List String) : NodupKeys (counter ts) :=
  nodupKeys_map_self _ _ (nodup_dedupFirst ts)

/-! Characterisation of the two update folds inside `addDocument`. -/

theorem iiFold_aget?_neg (d : String) (tcs : List (String × Nat))
    (ii : List (String × List (String × Nat))) (t : String)
    (h : aget? tcs t = none) :
    aget? (tcs.foldl (fun ii p => aset ii p.1 (aset (agetD ii p.1 []) d p.2)) ii) t =
      aget? ii t := by
  induction tcs generalizing ii with
  | nil => rfl
  | cons p rest ih =>
    rw [aget?_cons] at h
    by_cases hp : p.1 = t
    · simp [hp] at h
    · rw [if_neg hp] at h
      rw [List.foldl_cons, ih _ h, aget?_aset_ne _ _ _ _ hp]

theorem iiFold_aget?_pos (d : String) (tcs : List (String × Nat))
    (ii : List (String × List (String × Nat))) (t : String) (c : Nat)
    (hnd : NodupKeys tcs) (h : aget? tcs t = some c) :
    aget? (tcs.foldl (fun ii p => aset ii p.1 (aset (agetD ii p.1 []) d p.2)) ii) t =
      some (aset (agetD ii t []) d c) := by
  induction tcs generalizing ii with
  | nil => simp [aget?] at h
  | cons p rest ih =>
    obtain ⟨hpnone, hnd'⟩ := hnd
    rw [aget?_cons] at h
    by_cases hp : p.1 = t
    · rw [if_pos hp] at h
      rw [List.foldl_cons, iiFold_aget?_neg _ _ _ _ (hp ▸ hpnone)]
      rw [← hp, aget?_aset_self]
      simp at h
      rw [h]
    · rw [if_neg hp] at h
      rw [List.foldl_cons, ih _ hnd' h]
      simp only [agetD, aget?_aset_ne _ _ _ _ hp]

theorem dfFold_aget?_neg (tcs : List (String × Nat)) (df : List (String × Int))
    (t : String) (h : aget? tcs t = none) :
    aget? (tcs.foldl (fun df p => aset df p.1 (agetD df p.1 0 + 1)) df) t = aget? df t := by
  induction tcs generalizing df with
  | nil => rfl
  | cons p rest ih =>
    rw [aget?_cons] at h
    by_cases hp : p.1 = t
    · simp [hp] at h
    · rw [if_neg hp] at h
      rw [List.foldl_cons, ih _ h, aget?_aset_ne _ _ _ _ hp]

theorem dfFold_aget?_pos (tcs : List (String × Nat)) (df : List (String × Int))
    (t : String) (c : Nat) (hnd : NodupKeys tcs) (h : aget? tcs t = some c) :
    aget? (tcs.foldl (fun df p => aset df p.1 (agetD df p.1 0 + 1)) df) t =
      some (agetD df t 0 + 1) := by
  induction tcs generalizing df with
  | nil => simp [aget?] at h
  | cons p rest ih =>
    obtain ⟨hpnone, hnd'⟩ := hnd
    rw [aget?_cons] at h
    by_cases hp : p.1 = t
    · rw [List.foldl_cons, dfFold_aget?_neg _ _ _ (hp ▸ hpnone), ← hp, aget?_aset_self]
    · rw [if_neg hp] at h
      rw [List.foldl_cons, ih _ hnd' h]
      simp only [agetD, aget?_aset_ne _ _ _ _ hp]

theorem nodupKeys_iiFold (d : String) (tcs : List (String × Nat))
    (ii : List (String × List (String × Nat))) (h : NodupKeys ii) :
    NodupKeys (tcs.foldl (fun ii p => aset ii p.1 (aset (agetD ii p.1 []) d p.2)) ii) := by
  induction tcs generalizing ii with
  | nil => exact h
  | cons p rest ih => exact ih _ (nodupKeys_aset _ _ _ h)

theorem nodupKeys_dfFold (tcs : List (String × Nat)) (df : List (String × Int))
    (h : NodupKeys df) :
    NodupKeys (tcs.foldl (fun df p => aset df p.1 (agetD df p.1 0 + 1)) df) := by
  induction tcs generalizing df with
  | nil => exact h
  | cons p rest ih => exact ih _ (nodupKeys_aset _ _ _ h)

/-- Setting a fresh key appends the binding at the end. -/
theorem aset_eq_append {α : Type} (l : List (String × α)) (k : String) (v : α)
    (h : aget? l k = none) : aset l k v = l ++ [(k, v)] := by
  induction l with
  | nil => rfl
  | cons p t ih =>
    rw [aget?_cons] at h
    by_cases hp : p.1 = k
    · simp [hp] at h
    · rw [if_neg hp] at h
      obtain ⟨pk, pv⟩ := p
      rw [aset_cons, if_neg hp, ih h, List.cons_append]

theorem docsWith_append (tok : String → List String) (l : List (String × String))
    (d tx : String) (t : String) :
    docsWith tok (l ++ [(d, tx)]) t =
      docsWith tok l t + (if t ∈ tok tx then 1 else 0) := by
  unfold docsWith
  rw [List.filter_append, List.length_append]
  by_cases h : t ∈ tok tx
  · simp [h]
  · simp [h]

theorem aset_ne_nil {α : Type} (l : List (String × α)) (k : String) (v : α) :
    aset l k v ≠ [] := by
  cases l with
  | nil => simp
  | cons p t =>
    obtain ⟨pk, pv⟩ := p
    rw [aset_cons]
    by_cases h : pk = k
    · simp [h]
    · simp [h]

/-! The coupling invariant `Rep` relating every field of a `BM25State` to the
authoritative document map `doc_texts`. -/

/-- Term frequency recorded for `(t, d)` in the inverted index. -/
def postingAt (s : BM25State) (t d : String) : Option Nat :=
  (aget? s.inverted_index t).bind (fun pl => aget? pl d)

/-- Expected term frequency of `t` in document `d` (from the stored text). -/
def countIn (tok : String → List String) (dts : List (String × String))
    (t d : String) : Option Nat :=
  match aget? dts d with
  | none => none
  | some tx => if 0 < (tok tx).count t then some ((tok tx).count t) else none

structure Rep (tok : String → List String) (s : BM25State) : Prop where
  nd_texts : NodupKeys s.doc_texts
  nd_lengths : NodupKeys s.doc_lengths
  nd_freqs : NodupKeys s.doc_freqs
  nd_ii : NodupKeys s.inverted_index
  nd_postings : ∀ t pl, aget? s.inverted_index t = some pl → NodupKeys pl
  lengths_eq : ∀ d, aget? s.doc_lengths d =
    (aget? s.doc_texts d).map (fun tx => (tok tx).length)
  postings_eq : ∀ t d, postingAt s t d = countIn tok s.doc_texts t d
  postings_ne : ∀ t pl, aget? s.inverted_index t = some pl → pl ≠ []
  freqs_eq : ∀ t, aget? s.doc_freqs t =
    (if 0 < docsWith tok s.doc_texts t then some ((docsWith tok s.doc_texts t : Nat) : Int)
     else none)
  count_eq : s.doc_count = (s.doc_texts.length : Int)
  avgdl_eq : s.avgdl = (sumVals s.doc_lengths : ℚ) / ((max s.doc_count 1 : Int) : ℚ)

theorem rep_empty (tok : String → List String) : Rep tok emptyBM25 := by
  refine ⟨trivial, trivial, trivial, trivial, ?_, ?_, ?_, ?_, ?_, rfl, ?_⟩
  · intro t pl h
    simp [emptyBM25] at h
  · intro d
    simp [emptyBM25, aget?]
  · intro t d
    simp [postingAt, countIn, emptyBM25, aget?]
  · intro t pl h
    simp [emptyBM25] at h
  · intro t
    simp [emptyBM25, aget?, docsWith]
  · simp [emptyBM25, sumVals]

theorem addDocument_doc_texts (tok : String → List String) (s : BM25State)
    (i tx : String) (m : ChunkMeta) :
    (addDocument tok s i tx m).doc_texts = aset s.doc_texts i tx := rfl

theorem addDocument_doc_lengths (tok : String → List String) (s : BM25State)
    (i tx : String) (m : ChunkMeta) :
    (addDocument tok s i tx m).doc_lengths = aset s.doc_lengths i (tok tx).length := rfl

theorem addDocument_inverted_index (tok : String → List String) (s : BM25State)
    (i tx : String) (m : ChunkMeta) :
    (addDocument tok s i tx m).inverted_index =
      (counter (tok tx)).foldl (fun ii p => aset ii p.1 (aset (agetD ii p.1 []) i p.2))
        s.inverted_index := rfl

theorem addDocument_doc_freqs (tok : String → List String) (s : BM25State)
    (i tx : String) (m : ChunkMeta) :
    (addDocument tok s i tx m).doc_freqs =
      (counter (tok tx)).foldl (fun df p => aset df p.1 (agetD df p.1 0 + 1))
        s.doc_freqs := rfl

theorem addDocument_doc_count (tok : String → List String) (s : BM25State)
    (i tx : String) (m : ChunkMeta) :
    (addDocument tok s i tx m).doc_count = s.doc_count + 1 := rfl

theorem addDocument_avgdl (tok : String → List String) (s : BM25State)
    (i tx : String) (m : ChunkMeta) :
    (addDocument tok s i tx m).avgdl =
      (sumVals (aset s.doc_lengths i (tok tx).length) : ℚ) /
        ((max (s.doc_count + 1) 1 : Int) : ℚ) := rfl

theorem rep_add (tok : String → List String) (s : BM25State) (i tx : String)
    (m : ChunkMeta) (hrep : Rep tok s) (hfresh : aget? s.doc_texts i = none) :
    Rep tok (addDocument tok s i tx m) := by
  have htexts : (addDocument tok s i tx m).doc_texts = s.doc_texts ++ [(i, tx)] := by
    rw [addDocument_doc_texts, aset_eq_append _ _ _ hfresh]
  have hcntnd := nodupKeys_counter (tok tx)
  refine ⟨?_, ?_, ?_, ?_, ?_, ?_, ?_, ?_, ?_, ?_, ?_⟩
  · rw [addDocument_doc_texts]
    exact nodupKeys_aset _ _ _ hrep.nd_texts
  · rw [addDocument_doc_lengths]
    exact nodupKeys_aset _ _ _ hrep.nd_lengths
  · rw [addDocument_doc_freqs]
    exact nodupKeys_dfFold _ _ hrep.nd_freqs
  · rw [addDocument_inverted_index]
    exact nodupKeys_iiFold _ _ _ hrep.nd_ii
  · -- nd_postings
    intro t pl h
    rw [addDocument_inverted_index] at h
    rcases hc : aget? (counter (tok tx)) t with _ | c
    · rw [iiFold_aget?_neg _ _ _ _ hc] at h
      exact hrep.nd_postings t pl h
    · rw [iiFold_aget?_pos _ _ _ _ _ hcntnd hc] at h
      have hpl : pl = aset (agetD s.inverted_index t []) i c := by
        simpa using h.symm
      rw [hpl]
      apply nodupKeys_aset
      rcases ho : aget? s.inverted_index t with _ | pl₀
      · simp [agetD, ho]
      · simpa [agetD, ho] using hrep.nd_postings t pl₀ ho
  · -- lengths_eq
    intro d
    rw [addDocument_doc_texts, addDocument_doc_lengths]
    by_cases hd : i = d
    · subst hd
      rw [aget?_aset_self, aget?_aset_self]
      rfl
    · rw [aget?_aset_ne _ _ _ _ hd, aget?_aset_ne _ _ _ _ hd]
      exact hrep.lengths_eq d
  · -- postings_eq
    intro t d
    have hpost : postingAt (addDocument tok s i tx m) t d =
        (aget? ((counter (tok tx)).foldl
          (fun ii p => aset ii p.1 (aset (agetD ii p.1 []) i p.2))
          s.inverted_index) t).bind (fun pl => aget? pl d) := by
      simp only [postingAt, addDocument_inverted_index]
    rcases hc : aget? (counter (tok tx)) t with _ | c
    · -- t does not occur in the new document
      have htc : ¬ 0 < (tok tx).count t := by
        rw [aget?_counter] at hc
        by_cases h0 : 0 < (tok tx).count t
        · simp [h0] at hc
        · exact h0
      rw [hpost, iiFold_aget?_neg _ _ _ _ hc]
      have hold : postingAt s t d = countIn tok s.doc_texts t d := hrep.postings_eq t d
      rw [postingAt] at hold
      rw [hold, htexts]
      by_cases hd : i = d
      · subst hd
        have h1 : aget? (s.doc_texts ++ [(i, tx)]) i = some tx := by
          rw [← aset_eq_append _ _ _ hfresh, aget?_aset_self]
        rw [countIn, countIn, h1, hfresh]
        simp [htc]
      · have h1 : aget? (s.doc_texts ++ [(i, tx)]) d = aget? s.doc_texts d := by
          rw [← aset_eq_append _ _ _ hfresh, aget?_aset_ne _ _ _ _ hd]
        rw [countIn, countIn, h1]
    · -- t occurs in the new document with multiplicity c
      have htc : 0 < (tok tx).count t ∧ c = (tok tx).count t := by
        rw [aget?_counter] at hc
        by_cases h0 : 0 < (tok tx).count t
        · simp [h0] at hc
          exact ⟨h0, hc.symm⟩
        · simp [h0] at hc
      rw [hpost, iiFold_aget?_pos _ _ _ _ _ hcntnd hc]
      simp only [Option.some_bind]
      by_cases hd : i = d
      · subst hd
        have h1 : aget? (s.doc_texts ++ [(i, tx)]) i = some tx := by
          rw [← aset_eq_append _ _ _ hfresh, aget?_aset_self]
        rw [aget?_aset_self, htexts, countIn, h1]
        simp [htc.1, htc.2]
      · rw [aget?_aset_ne _ _ _ _ hd]
        have hold : postingAt s t d = countIn tok s.doc_texts t d := hrep.postings_eq t d
        rw [postingAt] at hold
        have h1 : countIn tok (addDocument tok s i tx m).doc_texts t d =
            countIn tok s.doc_texts t d := by
          rw [htexts, countIn, countIn, ← aset_eq_append _ _ _ hfresh,
            aget?_aset_ne _ _ _ _ hd]
        rw [h1, ← hold]
        rcases ho : aget? s.inverted_index t with _ | pl₀
        · simp [agetD, ho]
        · simp [agetD, ho]
  · -- postings_ne
    intro t pl h
    rw [addDocument_inverted_index] at h
    rcases hc : aget? (counter (tok tx)) t with _ | c
    · rw [iiFold_aget?_neg _ _ _ _ hc] at h
      exact hrep.postings_ne t pl h
    · rw [iiFold_aget?_pos _ _ _ _ _ hcntnd hc] at h
      have hpl : pl = aset (agetD s.inverted_index t []) i c := by
        simpa using h.symm
      rw [hpl]
      exact aset_ne_nil _ _ _
  · -- freqs_eq
    intro t
    rw [addDocument_doc_freqs]
    rcases hc : aget? (counter (tok tx)) t with _ | c
    · have htc : ¬ t ∈ tok tx := by
        rw [aget?_counter] at hc
        intro hmem
        have := (count_pos_iff_mem (tok tx) t).2 hmem
        simp [this] at hc
      rw [dfFold_aget?_neg _ _ _ hc, htexts, docsWith_append, if_neg htc]
      simpa using hrep.freqs_eq t
    · have htc : t ∈ tok tx := by
        rw [aget?_counter] at hc
        by_cases h0 : 0 < (tok tx).count t
        · exact (count_pos_iff_mem (tok tx) t).1 h0
        · simp [h0] at hc
      rw [dfFold_aget?_pos _ _ _ _ hcntnd hc, htexts, docsWith_append, if_pos htc]
      have hgd : agetD s.doc_freqs t 0 = (docsWith tok s.doc_texts t : Int) := by
        rw [agetD, hrep.freqs_eq t]
        by_cases h0 : 0 < docsWith tok s.doc_texts t
        · simp [h0]
        · simp [h0]
          omega
      rw [hgd]
      have hpos : 0 < docsWith tok s.doc_texts t + 1 := Nat.succ_pos _
      rw [if_pos hpos]
      push_cast
      ring_nf
  · -- count_eq
    rw [addDocument_doc_count, htexts, hrep.count_eq]
    simp
  · -- avgdl_eq
    rw [addDocument_avgdl, addDocument_doc_lengths, addDocument_doc_count]

/-! Characterisation of the removal fold inside `removeDocument`. -/

/-- Effect of one `removeStep` at its own token, as a function of the previous
lookups at that token. -/
def stepAtRemove (d : String) (iit : Option (List (String × Nat))) (dft : Option Int) :
    Option (List (String × Nat)) × Option Int :=
  match iit with
  | none => (iit, dft)
  | some pl =>
    if (aget? pl d).isSome then
      if (aerase pl d).isEmpty then (none, none)
      else (some (aerase pl d), some (max 0 (dft.getD 0 - 1)))
    else (iit, dft)

theorem removeStep_frame (d : String)
    (acc : List (String × List (String × Nat)) × List (String × Int))
    (u t : String) (h : u ≠ t) :
    aget? (removeStep d acc u).1 t = aget? acc.1 t ∧
    aget? (removeStep d acc u).2 t = aget? acc.2 t := by
  unfold removeStep
  rcases ho : aget? acc.1 u with _ | pl
  · exact ⟨rfl, rfl⟩
  · by_cases h1 : (aget? pl d).isSome
    · simp only [h1, if_true]
      by_cases h2 : (aerase pl d).isEmpty
      · simp only [h2, if_true]
        exact ⟨aget?_aerase_ne _ _ _ h, by
          rw [aget?_aerase_ne _ _ _ h, aget?_aset_ne _ _ _ _ h]⟩
      · simp only [h2, if_false]
        exact ⟨aget?_aset_ne _ _ _ _ h, aget?_aset_ne _ _ _ _ h⟩
    · simp only [h1, if_false]
      exact ⟨rfl, rfl⟩

theorem removeStep_nodup (d : String)
    (acc : List (String × List (String × Nat)) × List (String × Int)) (u : String)
    (h1 : NodupKeys acc.1) (h2 : NodupKeys acc.2) :
    NodupKeys (removeStep d acc u).1 ∧ NodupKeys (removeStep d acc u).2 := by
  unfold removeStep
  rcases ho : aget? acc.1 u with _ | pl
  · exact ⟨h1, h2⟩
  · by_cases hp : (aget? pl d).isSome
    · simp only [hp, if_true]
      by_cases he : (aerase pl d).isEmpty
      · simp only [he, if_true]
        exact ⟨nodupKeys_aerase _ _ h1, nodupKeys_aerase _ _ (nodupKeys_aset _ _ _ h2)⟩
      · simp only [he, if_false]
        exact ⟨nodupKeys_aset _ _ _ h1, nodupKeys_aset _ _ _ h2⟩
    · simp only [hp, if_false]
      exact ⟨h1, h2⟩

theorem removeFold_nodup (d : String) (uts : List String)
    (acc : List (String × List (String × Nat)) × List (String × Int))
    (h1 : NodupKeys acc.1) (h2 : NodupKeys acc.2) :
    NodupKeys (uts.foldl (removeStep d) acc).1 ∧
    NodupKeys (uts.foldl (removeStep d) acc).2 := by
  induction uts generalizing acc with
  | nil => exact ⟨h1, h2⟩
  | cons u rest ih =>
    rw [List.foldl_cons]
    obtain ⟨g1, g2⟩ := removeStep_nodup d acc u h1 h2
    exact ih _ g1 g2

theorem removeFold_frame (d : String) (uts : List String)
    (acc : List (String × List (String × Nat)) × List (String × Int))
    (t : String) (h : t ∉ uts) :
    aget? (uts.foldl (removeStep d) acc).1 t = aget? acc.1 t ∧
    aget? (uts.foldl (removeStep d) acc).2 t = aget? acc.2 t := by
  induction uts generalizing acc with
  | nil => exact ⟨rfl, rfl⟩
  | cons u rest ih =>
    rw [List.foldl_cons]
    have hu : u ≠ t := fun he => h (he ▸ List.mem_cons_self u rest)
    have hrest : t ∉ rest := fun hr => h (List.mem_cons_of_mem u hr)
    obtain ⟨f1, f2⟩ := removeStep_frame d acc u t hu
    obtain ⟨g1, g2⟩ := ih _ hrest
    exact ⟨g1.trans f1, g2.trans f2⟩

theorem removeFold_at_mem (d : String) (uts : List String)
    (acc : List (String × List (String × Nat)) × List (String × Int))
    (t : String) (hnodup : uts.Nodup) (hmem : t ∈ uts)
    (h1 : NodupKeys acc.1) (h2 : NodupKeys acc.2) :
    (aget? (uts.foldl (removeStep d) acc).1 t,
     aget? (uts.foldl (removeStep d) acc).2 t) =
      stepAtRemove d (aget? acc.1 t) (aget? acc.2 t) := by
  induction uts generalizing acc with
  | nil => simp at hmem
  | cons u rest ih =>
    obtain ⟨hu, hnd'⟩ := List.nodup_cons.1 hnodup
    rw [List.foldl_cons]
    by_cases ht : u = t
    · subst ht
      obtain ⟨f1, f2⟩ := removeFold_frame d rest (removeStep d acc u) u hu
      rw [f1, f2]
      unfold removeStep stepAtRemove
      rcases ho : aget? acc.1 u with _ | pl
      · simp only [ho]
      · simp only [ho]
        by_cases hp : (aget? pl d).isSome
        · rw [if_pos hp, if_pos hp]
          by_cases he : (aerase pl d).isEmpty
          · rw [if_pos he, if_pos he, Prod.mk.injEq]
            exact ⟨aget?_aerase_self _ _ h1,
              aget?_aerase_self _ _ (nodupKeys_aset _ _ _ h2)⟩
          · rw [if_neg he, if_neg he, Prod.mk.injEq]
            exact ⟨aget?_aset_self _ _ _, by rw [aget?_aset_self]; rfl⟩
        · rw [if_neg hp, if_neg hp, Prod.mk.injEq]
          exact ⟨ho, rfl⟩
    · have hmem' : t ∈ rest := by
        rcases List.mem_cons.1 hmem with h | h
        · exact absurd h.symm ht
        · exact h
      obtain ⟨n1, n2⟩ := removeStep_nodup d acc u h1 h2
      obtain ⟨f1, f2⟩ := removeStep_frame d acc u t ht
      rw [ih _ hnd' hmem' n1 n2, f1, f2]

/-! Further helpers for the removal case. -/

theorem eq_nil_of_aget?_none {α : Type} (l : List (String × α))
    (h : ∀ k, aget? l k = none) : l = [] := by
  cases l with
  | nil => rfl
  | cons p t =>
    obtain ⟨pk, pv⟩ := p
    have := h pk
    rw [aget?_cons, if_pos rfl] at this
    cases this

theorem docsWith_cons (tok : String → List String) (p : String × String)
    (rest : List (String × String)) (t : String) :
    docsWith tok (p :: rest) t =
      (if t ∈ tok p.2 then 1 else 0) + docsWith tok rest t := by
  unfold docsWith
  rw [List.filter_cons]
  by_cases h : t ∈ tok p.2
  · simp [h]
    omega
  · simp [h]

theorem docsWith_erase_add (tok : String → List String)
    (l : List (String × String)) (i tx t : String)
    (hnd : NodupKeys l) (h : aget? l i = some tx) :
    docsWith tok l t = docsWith tok (aerase l i) t + (if t ∈ tok tx then 1 else 0) := by
  induction l with
  | nil => simp [aget?] at h
  | cons p rest ih =>
    obtain ⟨hn, hnd'⟩ := hnd
    obtain ⟨pk, pv⟩ := p
    by_cases hp : pk = i
    · subst hp
      rw [aget?_cons, if_pos rfl] at h
      simp only [Option.some.injEq] at h
      subst h
      rw [aerase, if_pos rfl, docsWith_cons]
      ring
    · rw [aget?_cons, if_neg hp] at h
      rw [aerase, if_neg hp, docsWith_cons, docsWith_cons, ih hnd' h]
      ring

theorem docsWith_pos (tok : String → List String) (dts : List (String × String))
    (t dd txd : String) (h : aget? dts dd = some txd) (hm : t ∈ tok txd) :
    0 < docsWith tok dts t := by
  have hmem : (dd, txd) ∈ dts := mem_of_aget?_eq_some _ _ _ h
  have : (dd, txd) ∈ dts.filter (fun p => decide (t ∈ tok p.2)) :=
    List.mem_filter.2 ⟨hmem, by simpa using hm⟩
  unfold docsWith
  exact List.length_pos.2 (fun he => by rw [he] at this; simp at this)

theorem exists_of_docsWith_pos (tok : String → List String)
    (dts : List (String × String)) (t : String) (hnd : NodupKeys dts)
    (h : 0 < docsWith tok dts t) :
    ∃ dd txd, aget? dts dd = some txd ∧ t ∈ tok txd := by
  unfold docsWith at h
  rcases hne : dts.filter (fun p => decide (t ∈ tok p.2)) with _ | ⟨p, rest⟩
  · rw [hne] at h
    simp at h
  · have hp : p ∈ dts.filter (fun p => decide (t ∈ tok p.2)) := by
      rw [hne]
      exact List.mem_cons_self _ _
    rcases List.mem_filter.1 hp with ⟨hmem, hdec⟩
    exact ⟨p.1, p.2, aget?_eq_some_of_mem_nodup _ _ _ hnd hmem, by simpa using hdec⟩

theorem removeDocument_noop (tok : String → List String) (s : BM25State)
    (i : String) (h : aget? s.doc_texts i = none) : removeDocument tok s i = s := by
  unfold removeDocument
  rw [h]

theorem removeDocument_doc_texts (tok : String → List String) (s : BM25State)
    (i tx : String) (h : aget? s.doc_texts i = some tx) :
    (removeDocument tok s i).doc_texts = aerase s.doc_texts i := by
  unfold removeDocument
  rw [h]

theorem removeDocument_doc_lengths (tok : String → List String) (s : BM25State)
    (i tx : String) (h : aget? s.doc_texts i = some tx) :
    (removeDocument tok s i).doc_lengths = aerase s.doc_lengths i := by
  unfold removeDocument
  rw [h]

theorem removeDocument_inverted_index (tok : String → List String) (s : BM25State)
    (i tx : String) (h : aget? s.doc_texts i = some tx) :
    (removeDocument tok s i).inverted_index =
      ((dedupFirst (tok tx)).foldl (removeStep i) (s.inverted_index, s.doc_freqs)).1 := by
  unfold removeDocument
  rw [h]

theorem removeDocument_doc_freqs (tok : String → List String) (s : BM25State)
    (i tx : String) (h : aget? s.doc_texts i = some tx) :
    (removeDocument tok s i).doc_freqs =
      ((dedupFirst (tok tx)).foldl (removeStep i) (s.inverted_index, s.doc_freqs)).2 := by
  unfold removeDocument
  rw [h]

theorem removeDocument_doc_count (tok : String → List String) (s : BM25State)
    (i tx : String) (h : aget? s.doc_texts i = some tx) :
    (removeDocument tok s i).doc_count = s.doc_count - 1 := by
  unfold removeDocument
  rw [h]

theorem removeDocument_avgdl (tok : String → List String) (s : BM25State)
    (i tx : String) (h : aget? s.doc_texts i = some tx) :
    (removeDocument tok s i).avgdl =
      (if s.doc_count - 1 > 0
       then (sumVals (aerase s.doc_lengths i) : ℚ) / ((max (s.doc_count - 1) 1 : Int) : ℚ)
       else 0) := by
  unfold removeDocument
  rw [h]

theorem countIn_some (tok : String → List String) (dts : List (String × String))
    (t d tx : String) (h : aget? dts d = some tx) :
    countIn tok dts t d =
      (if 0 < (tok tx).count t then some ((tok tx).count t) else none) := by
  unfold countIn
  rw [h]

theorem countIn_none (tok : String → List String) (dts : List (String × String))
    (t d : String) (h : aget? dts d = none) : countIn tok dts t d = none := by
  unfold countIn
  rw [h]

theorem countIn_aerase_ne (tok : String → List String) (dts : List (String × String))
    (i d t : String) (hd : i ≠ d) :
    countIn tok (aerase dts i) t d = countIn tok dts t d := by
  unfold countIn
  rw [aget?_aerase_ne _ _ _ hd]

theorem stepAtRemove_eval (d : String) (pl : List (String × Nat)) (c : Nat)
    (dft : Option Int) (hp : aget? pl d = some c) :
    stepAtRemove d (some pl) dft =
      (if (aerase pl d).isEmpty then (none, none)
       else (some (aerase pl d), some (max 0 (dft.getD 0 - 1)))) := by
  have hs : (aget? pl d).isSome := by rw [hp]; rfl
  simp only [stepAtRemove]
  rw [if_pos hs]

theorem rep_remove (tok : String → List String) (s : BM25State) (i : String)
    (hrep : Rep tok s) : Rep tok (removeDocument tok s i) := by
  rcases hget : aget? s.doc_texts i with _ | tx
  · rw [removeDocument_noop tok s i hget]
    exact hrep
  · have hutsnd : (dedupFirst (tok tx)).Nodup := nodup_dedupFirst _
    have hmem_uts : ∀ t, t ∈ dedupFirst (tok tx) ↔ t ∈ tok tx :=
      fun t => mem_dedupFirst _ t
    have hpost : ∀ t, t ∈ tok tx →
        ∃ pl, aget? s.inverted_index t = some pl ∧
          aget? pl i = some ((tok tx).count t) := by
      intro t hmem
      have hc : 0 < (tok tx).count t := (count_pos_iff_mem _ _).2 hmem
      have hpe := hrep.postings_eq t i
      rw [countIn_some tok _ t i tx hget, if_pos hc] at hpe
      rcases ho : aget? s.inverted_index t with _ | pl
      · rw [postingAt, ho] at hpe
        simp at hpe
      · rw [postingAt, ho] at hpe
        simp only [Option.some_bind] at hpe
        exact ⟨pl, rfl, hpe⟩
    have hfold := fun t (hmem : t ∈ dedupFirst (tok tx)) =>
      removeFold_at_mem i (dedupFirst (tok tx)) (s.inverted_index, s.doc_freqs) t
        hutsnd hmem hrep.nd_ii hrep.nd_freqs
    have hframe := fun t (hnm : t ∉ dedupFirst (tok tx)) =>
      removeFold_frame i (dedupFirst (tok tx)) (s.inverted_index, s.doc_freqs) t hnm
    have hposlen : 0 < s.doc_texts.length := by
      cases htx : s.doc_texts with
      | nil => rw [htx] at hget; cases hget
      | cons p rest => simp
    refine ⟨?_, ?_, ?_, ?_, ?_, ?_, ?_, ?_, ?_, ?_, ?_⟩
    · rw [removeDocument_doc_texts _ _ _ _ hget]
      exact nodupKeys_aerase _ _ hrep.nd_texts
    · rw [removeDocument_doc_lengths _ _ _ _ hget]
      exact nodupKeys_aerase _ _ hrep.nd_lengths
    · rw [removeDocument_doc_freqs _ _ _ _ hget]
      exact (removeFold_nodup _ _ _ hrep.nd_ii hrep.nd_freqs).2
    · rw [removeDocument_inverted_index _ _ _ _ hget]
      exact (removeFold_nodup _ _ _ hrep.nd_ii hrep.nd_freqs).1
    · -- nd_postings
      intro t pl' h
      rw [removeDocument_inverted_index _ _ _ _ hget] at h
      by_cases hmem : t ∈ dedupFirst (tok tx)
      · obtain ⟨pl, hpl1, hpl2⟩ := hpost t ((hmem_uts t).1 hmem)
        have hpair := hfold t hmem
        rw [hpl1, stepAtRemove_eval i pl _ _ hpl2] at hpair
        by_cases hemp : (aerase pl i).isEmpty
        · rw [if_pos hemp, Prod.mk.injEq] at hpair
          rw [h] at hpair
          cases hpair.1
        · rw [if_neg hemp, Prod.mk.injEq] at hpair
          have e1 := hpair.1
          rw [h] at e1
          obtain rfl : pl' = aerase pl i := by
            simpa using e1
          exact nodupKeys_aerase _ _ (hrep.nd_postings t pl hpl1)
      · rw [(hframe t hmem).1] at h
        exact hrep.nd_postings t pl' h
    · -- lengths_eq
      intro d
      rw [removeDocument_doc_texts _ _ _ _ hget,
        removeDocument_doc_lengths _ _ _ _ hget]
      by_cases hd : i = d
      · subst hd
        rw [aget?_aerase_self _ _ hrep.nd_lengths,
          aget?_aerase_self _ _ hrep.nd_texts]
        rfl
      · rw [aget?_aerase_ne _ _ _ hd, aget?_aerase_ne _ _ _ hd]
        exact hrep.lengths_eq d
    · -- postings_eq
      intro t d
      simp only [postingAt, removeDocument_inverted_index _ _ _ _ hget,
        removeDocument_doc_texts _ _ _ _ hget]
      by_cases hmem : t ∈ dedupFirst (tok tx)
      · obtain ⟨pl, hpl1, hpl2⟩ := hpost t ((hmem_uts t).1 hmem)
        have hpair := hfold t hmem
        rw [hpl1, stepAtRemove_eval i pl _ _ hpl2] at hpair
        by_cases hemp : (aerase pl i).isEmpty
        · rw [if_pos hemp, Prod.mk.injEq] at hpair
          rw [hpair.1]
          have hplnil : aerase pl i = [] := by
            cases haer : aerase pl i with
            | nil => rfl
            | cons q r => rw [haer] at hemp; simp at hemp
          by_cases hd : i = d
          · subst hd
            rw [countIn_none tok _ t i (aget?_aerase_self _ _ hrep.nd_texts)]
            rfl
          · have hpld : aget? pl d = none := by
              rw [← aget?_aerase_ne pl i d hd, hplnil]
              rfl
            have hpe := hrep.postings_eq t d
            rw [postingAt, hpl1] at hpe
            simp only [Option.some_bind] at hpe
            rw [hpld] at hpe
            rw [countIn_aerase_ne tok _ i d t hd]
            exact hpe
        · rw [if_neg hemp, Prod.mk.injEq] at hpair
          rw [hpair.1]
          simp only [Option.some_bind]
          by_cases hd : i = d
          · subst hd
            rw [aget?_aerase_self _ _ (hrep.nd_postings t pl hpl1),
              countIn_none tok _ t i (aget?_aerase_self _ _ hrep.nd_texts)]
          · rw [aget?_aerase_ne _ _ _ hd]
            have hpe := hrep.postings_eq t d
            rw [postingAt, hpl1] at hpe
            simp only [Option.some_bind] at hpe
            rw [hpe, countIn_aerase_ne tok _ i d t hd]
      · rw [(hframe t hmem).1]
        have hpe := hrep.postings_eq t d
        rw [postingAt] at hpe
        rw [hpe]
        by_cases hd : i = d
        · subst hd
          have hnc : ¬ 0 < (tok tx).count t := by
            intro hc
            exact hmem ((hmem_uts t).2 ((count_pos_iff_mem _ _).1 hc))
          rw [countIn_some tok _ t i tx hget, if_neg hnc,
            countIn_none tok _ t i (aget?_aerase_self _ _ hrep.nd_texts)]
        · rw [countIn_aerase_ne tok _ i d t hd]
    · -- postings_ne
      intro t pl' h
      rw [removeDocument_inverted_index _ _ _ _ hget] at h
      by_cases hmem : t ∈ dedupFirst (tok tx)
      · obtain ⟨pl, hpl1, hpl2⟩ := hpost t ((hmem_uts t).1 hmem)
        have hpair := hfold t hmem
        rw [hpl1, stepAtRemove_eval i pl _ _ hpl2] at hpair
        by_cases hemp : (aerase pl i).isEmpty
        · rw [if_pos hemp, Prod.mk.injEq] at hpair
          rw [h] at hpair
          cases hpair.1
        · rw [if_neg hemp, Prod.mk.injEq] at hpair
          have e1 := hpair.1
          rw [h] at e1
          obtain rfl : pl' = aerase pl i := by simpa using e1
          intro hnil
          rw [hnil] at hemp
          exact hemp rfl
      · rw [(hframe t hmem).1] at h
        exact hrep.postings_ne t pl' h
    · -- freqs_eq
      intro t
      rw [removeDocument_doc_freqs _ _ _ _ hget,
        removeDocument_doc_texts _ _ _ _ hget]
      by_cases hmem : t ∈ dedupFirst (tok tx)
      · have htmem : t ∈ tok tx := (hmem_uts t).1 hmem
        obtain ⟨pl, hpl1, hpl2⟩ := hpost t htmem
        have hpair := hfold t hmem
        rw [hpl1, stepAtRemove_eval i pl _ _ hpl2] at hpair
        have hdw := docsWith_erase_add tok s.doc_texts i tx t hrep.nd_texts hget
        rw [if_pos htmem] at hdw
        have hpos_old : 0 < docsWith tok s.doc_texts t :=
          docsWith_pos tok s.doc_texts t i tx hget htmem
        have hfreq_old := hrep.freqs_eq t
        rw [if_pos hpos_old] at hfreq_old
        by_cases hemp : (aerase pl i).isEmpty
        · rw [if_pos hemp, Prod.mk.injEq] at hpair
          rw [hpair.2]
          have hplnil : aerase pl i = [] := by
            cases haer : aerase pl i with
            | nil => rfl
            | cons q r => rw [haer] at hemp; simp at hemp
          have hz : ¬ 0 < docsWith tok (aerase s.doc_texts i) t := by
            intro hposn
            obtain ⟨dd, txd, hdd, htd⟩ := exists_of_docsWith_pos tok _ t
              (nodupKeys_aerase _ _ hrep.nd_texts) hposn
            have hddne : i ≠ dd := by
              intro he
              rw [← he, aget?_aerase_self _ _ hrep.nd_texts] at hdd
              cases hdd
            have hdd' : aget? s.doc_texts dd = some txd := by
              rw [← aget?_aerase_ne s.doc_texts i dd hddne]
              exact hdd
            have hcd : 0 < (tok txd).count t := (count_pos_iff_mem _ _).2 htd
            have hpe := hrep.postings_eq t dd
            rw [countIn_some tok _ t dd txd hdd', if_pos hcd, postingAt, hpl1] at hpe
            simp only [Option.some_bind] at hpe
            have hnone : aget? pl dd = none := by
              rw [← aget?_aerase_ne pl i dd hddne, hplnil]
              rfl
            rw [hnone] at hpe
            cases hpe
          rw [if_neg hz]
        · rw [if_neg hemp, Prod.mk.injEq] at hpair
          rw [hpair.2, hfreq_old]
          have hplnenil : aerase pl i ≠ [] := by
            intro he
            rw [he] at hemp
            exact hemp rfl
          obtain ⟨q, r, hqr⟩ := List.exists_cons_of_ne_nil hplnenil
          have hq1 : aget? (aerase pl i) q.1 = some q.2 := by
            rw [hqr, aget?_cons, if_pos rfl]
          have hqne : i ≠ q.1 := by
            intro he
            rw [← he, aget?_aerase_self _ _ (hrep.nd_postings t pl hpl1)] at hq1
            cases hq1
          have hpq : aget? pl q.1 = some q.2 := by
            rw [← aget?_aerase_ne pl i q.1 hqne]
            exact hq1
          have hpe := hrep.postings_eq t q.1
          rw [postingAt, hpl1] at hpe
          simp only [Option.some_bind] at hpe
          rw [hpq] at hpe
          rcases hql : aget? s.doc_texts q.1 with _ | txq
          · rw [countIn_none tok _ t q.1 hql] at hpe
            cases hpe
          · rw [countIn_some tok _ t q.1 txq hql] at hpe
            by_cases hcq : 0 < (tok txq).count t
            · have htq : t ∈ tok txq := (count_pos_iff_mem _ _).1 hcq
              have hq1' : aget? (aerase s.doc_texts i) q.1 = some txq := by
                rw [aget?_aerase_ne _ _ _ hqne]
                exact hql
              have hposnew : 0 < docsWith tok (aerase s.doc_texts i) t :=
                docsWith_pos tok _ t q.1 txq hq1' htq
              rw [if_pos hposnew]
              simp only [Option.getD_some, Option.some.injEq]
              omega
            · rw [if_neg hcq] at hpe
              cases hpe
      · rw [(hframe t hmem).2]
        have hnotm : ¬ t ∈ tok tx := fun hm => hmem ((hmem_uts t).2 hm)
        have hdw := docsWith_erase_add tok s.doc_texts i tx t hrep.nd_texts hget
        rw [if_neg hnotm, Nat.add_zero] at hdw
        rw [hrep.freqs_eq t, ← hdw]
    · -- count_eq
      rw [removeDocument_doc_count _ _ _ _ hget,
        removeDocument_doc_texts _ _ _ _ hget, hrep.count_eq, length_aerase]
      have hsome : (aget? s.doc_texts i).isSome := by rw [hget]; rfl
      rw [if_pos hsome]
      omega
    · -- avgdl_eq
      rw [removeDocument_avgdl _ _ _ _ hget,
        removeDocument_doc_count _ _ _ _ hget,
        removeDocument_doc_lengths _ _ _ _ hget]
      by_cases hc : s.doc_count - 1 > 0
      · rw [if_pos hc]
      · rw [if_neg hc]
        have hcount := hrep.count_eq
        have hlen1 : s.doc_texts.length = 1 := by omega
        have htx1 : ∃ p : String × String, s.doc_texts = [p] := by
          cases htx : s.doc_texts with
          | nil => rw [htx] at hposlen; cases hposlen
          | cons p rest =>
            rw [htx] at hlen1
            simp at hlen1
            exact ⟨p, by rw [hlen1]⟩
        obtain ⟨p, hp⟩ := htx1
        have hpi : p.1 = i := by
          by_cases hpc : p.1 = i
          · exact hpc
          · rw [hp, aget?_cons, if_neg hpc] at hget
            cases hget
        have hlnil : aerase s.doc_lengths i = [] := by
          apply eq_nil_of_aget?_none
          intro k
          by_cases hk : i = k
          · rw [← hk]
            exact aget?_aerase_self _ _ hrep.nd_lengths
          · rw [aget?_aerase_ne _ _ _ hk, hrep.lengths_eq k, hp, aget?_cons,
              if_neg (hpi ▸ hk : p.1 ≠ k)]
            rfl
        rw [hlnil]
        simp [sumVals]

@[simp] theorem freshRun_nil (tok : String → List String) (s : BM25State) :
    FreshRun tok s [] := trivial

@[simp] theorem freshRun_cons (tok : String → List String) (s : BM25State)
    (op : BOp) (rest : List BOp) :
    FreshRun tok s (op :: rest) ↔
      (match op with
       | .add i _ _ => aget? s.doc_texts i = none
       | .remove _ => True) ∧ FreshRun tok (bstep tok s op) rest := Iff.rfl

theorem invariants_of_rep (tok : String → List String) (s : BM25State)
    (h : Rep tok s) : BM25Invariants tok s := by
  refine ⟨?_, h.avgdl_eq, h.count_eq, ?_⟩
  · intro t
    rw [agetD, h.freqs_eq t]
    by_cases h0 : 0 < docsWith tok s.doc_texts t
    · simp [h0]
    · simp [h0]
      omega
  · intro t
    refine ⟨⟨?_, ?_⟩, ?_⟩
    · intro hii
      rcases Option.isSome_iff_exists.1 hii with ⟨pl, hpl⟩
      have hne := h.postings_ne t pl hpl
      obtain ⟨q, r, hqr⟩ := List.exists_cons_of_ne_nil hne
      have hq : aget? pl q.1 = some q.2 := by
        rw [hqr, aget?_cons, if_pos rfl]
      have hpe := h.postings_eq t q.1
      rw [postingAt, hpl] at hpe
      simp only [Option.some_bind] at hpe
      rw [hq] at hpe
      rcases hql : aget? s.doc_texts q.1 with _ | txq
      · rw [countIn_none tok _ t q.1 hql] at hpe
        cases hpe
      · rw [countIn_some tok _ t q.1 txq hql] at hpe
        by_cases hcq : 0 < (tok txq).count t
        · have hw := docsWith_pos tok s.doc_texts t q.1 txq hql
            ((count_pos_iff_mem _ _).1 hcq)
          rw [h.freqs_eq t, if_pos hw]
          rfl
        · rw [if_neg hcq] at hpe
          cases hpe
    · intro hdf
      rw [h.freqs_eq t] at hdf
      by_cases h0 : 0 < docsWith tok s.doc_texts t
      · obtain ⟨dd, txd, hdd, htd⟩ := exists_of_docsWith_pos tok _ t h.nd_texts h0
        have hcd : 0 < (tok txd).count t := (count_pos_iff_mem _ _).2 htd
        have hpe := h.postings_eq t dd
        rw [countIn_some tok _ t dd txd hdd, if_pos hcd, postingAt] at hpe
        rcases ho : aget? s.inverted_index t with _ | pl
        · rw [ho] at hpe
          simp at hpe
        · rfl
      · rw [if_neg h0] at hdf
        simp at hdf
    · rw [agetD, h.freqs_eq t]
      by_cases h0 : 0 < docsWith tok s.doc_texts t
      · simp only [h0, if_true, Option.isSome_some, Option.getD_some, true_iff]
        exact_mod_cast h0
      · simp [h0]

theorem rep_brun_aux (tok : String → List String) (ops : List BOp) :
    ∀ s, Rep tok s → FreshRun tok s ops → Rep tok (ops.foldl (bstep tok) s) := by
  induction ops with
  | nil => exact fun s h _ => h
  | cons op rest ih =>
    intro s h hfr
    obtain ⟨h1, h2⟩ := hfr
    rw [List.foldl_cons]
    apply ih _ _ h2
    cases op with
    | add i t m => exact rep_add tok s i t m h h1
    | remove i => exact rep_remove tok s i h

/-! Results and witnesses for claim C6. -/

/-- C6, counterexample.  Adding the same document id twice (a sequence the
claim quantifies over) breaks the invariants: `add_document` increments
`doc_count` and every `doc_freqs[t]` unconditionally, while `doc_texts[id]`
is merely overwritten, so after `add("a"), add("a")` we have `doc_count = 2`
but `|doc_texts| = 1`. -/
theorem claim_C6_counterexample :
    ¬ BM25Invariants tokenizeSimple
      (brun tokenizeSimple
        [BOp.add "a" "zebra" defaultMeta, BOp.add "a" "zebra" defaultMeta]) := by
  intro h
  have hc := h.2.2.1
  have hcount : (brun tokenizeSimple
      [BOp.add "a" "zebra" defaultMeta, BOp.add "a" "zebra" defaultMeta]).doc_count = 2 := by
    with_unfolding_all decide
  have hlen : (brun tokenizeSimple
      [BOp.add "a" "zebra" defaultMeta, BOp.add "a" "zebra" defaultMeta]).doc_texts.length = 1 := by
    with_unfolding_all decide
  rw [hcount, hlen] at hc
  norm_num at hc

/-- C6, amended: after every sequence of `add_document` and `remove_document`
calls in which each `add_document` uses an id not currently indexed (the
discipline all callers in the repository follow), the invariants hold:
`doc_freqs[t] = |{d : t ∈ tokens(d)}|`, `avgdl = Σ doc_lengths / max(doc_count, 1)`,
`doc_count = |doc_texts|`, and a term is a key of `inverted_index` iff it is a
key of `doc_freqs` iff `doc_freqs[term] > 0`.  The theorem holds for every
tokenizer `tok`, in particular for the regex tokenizer of the source. -/
theorem claim_C6_amended (tok : String → List String) (ops : List BOp)
    (hfresh : FreshRun tok emptyBM25 ops) : BM25Invariants tok (brun tok ops) :=
  invariants_of_rep tok _ (rep_brun_aux tok ops emptyBM25 (rep_empty tok) hfresh)

/-- Witness for C6 (amended) on the run `add "a", remove "a", add "b"`. -/
theorem claim_C6_witness :
    FreshRun tokenizeSimple emptyBM25
      [BOp.add "a" "zebra apple" defaultMeta, BOp.remove "a",
       BOp.add "b" "zebra" defaultMeta] ∧
    BM25Invariants tokenizeSimple
      (brun tokenizeSimple
        [BOp.add "a" "zebra apple" defaultMeta, BOp.remove "a",
         BOp.add "b" "zebra" defaultMeta]) := by
  have hfr : FreshRun tokenizeSimple emptyBM25
      [BOp.add "a" "zebra apple" defaultMeta, BOp.remove "a",
       BOp.add "b" "zebra" defaultMeta] := by
    refine ⟨rfl, trivial, ?_, trivial⟩
    with_unfolding_all decide
  exact ⟨hfr, claim_C6_amended tokenizeSimple _ hfr⟩

/-! ## Query expander (`server/rag/query_expander.py`, claim C8). -/

/-- The frozen `QueryExpander.EXPANSIONS` table. -/
def EXPANSIONS : List (String × List String) :=
  [("sql injection", ["sqli", "sql injection", "database injection"]),
   ("sqli", ["sql injection", "sqli", "database injection"]),
   ("xss", ["cross-site scripting", "xss", "script injection"]),
   ("cross-site scripting", ["xss", "cross-site scripting"]),
   ("csrf", ["cross-site request forgery", "csrf", "session riding"]),
   ("idor", ["insecure direct object reference", "idor", "broken access control"]),
   ("ssrf", ["server-side request forgery", "ssrf"]),
   ("rce", ["remote code execution", "rce", "command injection"]),
   ("lfi", ["local file inclusion", "lfi", "path traversal"]),
   ("rfi", ["remote file inclusion", "rfi"]),
   ("dos", ["denial of service", "dos", "ddos"]),
   ("mitm", ["man in the middle", "mitm", "arp spoofing"]),
   ("dns", ["domain name system", "dns", "name resolution"]),
   ("tcp", ["transmission control protocol", "tcp", "tcp/ip"]),
   ("udp", ["user datagram protocol", "udp"]),
   ("http", ["hypertext transfer protocol", "http", "web protocol"]),
   ("https", ["http secure", "https", "tls", "ssl"]),
   ("api", ["application programming interface", "api", "rest api", "endpoint"]),
   ("rest", ["representational state transfer", "rest", "restful"]),
   ("osi", ["open systems interconnection", "osi model", "osi layers"]),
   ("vpn", ["virtual private network", "vpn", "tunnel"]),
   ("ssh", ["secure shell", "ssh", "remote access"]),
   ("gdpr", ["general data protection regulation", "gdpr", "data protection"]),
   ("ctf", ["capture the flag", "ctf", "security challenge"]),
   ("owasp", ["open web application security project", "owasp", "owasp top 10"]),
   ("cidr", ["classless inter-domain routing", "cidr", "subnet"]),
   ("nat", ["network address translation", "nat", "port forwarding"]),
   ("dhcp", ["dynamic host configuration protocol", "dhcp", "ip assignment"]),
   ("arp", ["address resolution protocol", "arp", "mac address resolution"]),
   ("vlan", ["virtual local area network", "vlan", "network segmentation"]),
   ("firewall", ["firewall", "packet filter", "network security"]),
   ("regex", ["regular expression", "regex", "regexp", "pattern matching"]),
   ("orm", ["object relational mapping", "orm", "database abstraction"]),
   ("jwt", ["json web token", "jwt", "authentication token"]),
   ("cors", ["cross-origin resource sharing", "cors"]),
   ("llm", ["large language model", "llm", "language model", "chatgpt"]),
   ("prompt injection", ["prompt injection", "prompt attack", "indirect prompt injection"]),
   ("adversarial ml", ["adversarial machine learning", "adversarial examples", "adversarial attack"]),
   ("adversarial", ["adversarial examples", "adversarial perturbations", "adversarial attack"]),
   ("model poisoning", ["model poisoning", "data poisoning", "backdoor attack"]),
   ("model extraction", ["model extraction", "model stealing", "knowledge distillation attack"]),
   ("ai red team", ["ai red teaming", "llm red teaming", "adversarial testing"]),
   ("jailbreak", ["jailbreak attack", "llm jailbreak", "alignment bypass"]),
   ("membership inference", ["membership inference", "privacy attack", "model inversion"]),
   ("fgsm", ["fast gradient sign method", "fgsm", "adversarial example generation"]),
   ("deepfake", ["deepfake", "synthetic media", "face synthesis"]),
   ("mitre atlas", ["mitre atlas", "adversarial threat landscape", "ai threat matrix"])]

/-- The frozen `QueryExpander.SUBJECT_CONTEXT` table. -/
def SUBJECT_CONTEXT : List (String × List String) :=
  [("networks", ["network", "protocol", "layer", "packet", "routing", "switching"]),
   ("pentesting", ["vulnerability", "exploit", "attack", "security", "payload"]),
   ("backend", ["server", "api", "database", "endpoint", "middleware", "framework"]),
   ("linux", ["command", "terminal", "shell", "filesystem", "process", "permission"]),
   ("ctf", ["flag", "challenge", "crypto", "forensics", "reverse engineering"]),
   ("scripting", ["script", "automation", "function", "variable", "loop", "module"]),
   ("privacy", ["data protection", "regulation", "consent", "processing", "controller"]),
   ("aisec", ["adversarial", "model security", "AI attack", "LLM", "neural network", "machine learning"])]

/-- Insertion into the model of a Python `set` of strings (kept as an
insertion-ordered duplicate-free list; Python's set iteration order is
unspecified, and no property below depends on the order). -/
def setAdd (l : List String) (x : String) : List String :=
  if x ∈ l then l else l ++ [x]

def setUnion (l : List String) (xs : List String) : List String :=
  xs.foldl setAdd l

/-- `QueryExpander.expand`. -/
def expand (query : String) (subject? : Option String) : String :=
  let lowerQuery := pyStrip (pyLower query)
  let terms := EXPANSIONS.foldl
    (fun acc kv => if strContains lowerQuery kv.1 then setUnion acc kv.2 else acc) []
  let terms :=
    match subject? with
    | some subj =>
      if subj ≠ "" then
        match aget? SUBJECT_CONTEXT subj with
        | some ctx => (ctx.take 3).foldl
            (fun acc term => if strContains lowerQuery term then acc else setAdd acc term)
            terms
        | none => terms
      else terms
    | none => terms
  if terms.isEmpty then query
  else query ++ " " ++ joinSep " " (terms.filter (fun t => t ∉ pySplitWS lowerQuery))

/-! Token monotonicity of `expand`. -/

theorem lowerChar_space : lowerChar ' ' = ' ' := rfl

theorem splitRunsAux_nil (acc : List Char) :
    splitRunsAux acc [] = if acc.isEmpty then [] else [acc.reverse] := rfl

theorem splitRunsAux_cons (acc : List Char) (c : Char) (t : List Char) :
    splitRunsAux acc (c :: t) =
      (if isAlnumCh c then splitRunsAux (c :: acc) t
       else if acc.isEmpty then splitRunsAux [] t
       else acc.reverse :: splitRunsAux [] t) := rfl

theorem splitRunsAux_append_space (xs ys : List Char) :
    ∀ acc, splitRunsAux acc (xs ++ ' ' :: ys) = splitRunsAux acc xs ++ splitRuns ys := by
  induction xs with
  | nil =>
    intro acc
    rw [List.nil_append, splitRunsAux_cons, splitRunsAux_nil]
    have hsp : ¬ (isAlnumCh ' ' = true) := by decide
    rw [if_neg hsp]
    by_cases h : acc.isEmpty
    · rw [if_pos h, if_pos h]
      simp [splitRuns]
    · rw [if_neg h, if_neg h]
      simp [splitRuns]
  | cons c t ih =>
    intro acc
    rw [List.cons_append, splitRunsAux_cons, splitRunsAux_cons]
    by_cases hA : isAlnumCh c
    · rw [if_pos hA, if_pos hA, ih]
    · rw [if_neg hA, if_neg hA]
      by_cases h : acc.isEmpty
      · rw [if_pos h, if_pos h, ih]
      · rw [if_neg h, if_neg h, ih, List.cons_append]

theorem tokenizeSimple_append_space (a b : String) :
    tokenizeSimple (a ++ " " ++ b) = tokenizeSimple a ++ tokenizeSimple b := by
  unfold tokenizeSimple
  have hdata : (a ++ " " ++ b).data = a.data ++ ' ' :: b.data := by
    simp [String.data_append]
  rw [hdata, List.map_append, List.map_cons, lowerChar_space]
  rw [show splitRuns (a.data.map lowerChar ++ ' ' :: b.data.map lowerChar) =
      splitRuns (a.data.map lowerChar) ++ splitRuns (b.data.map lowerChar) from
    splitRunsAux_append_space _ _ []]
  rw [List.map_append, List.filter_append]

/-- C8: query expansion is token-monotone.  `expand` returns either the query
itself or `query ++ " " ++ extra`, so every token of the query survives.  The
claim holds for every query and optional subject id. -/
theorem claim_C8_expansion_monotone (q : String) (subj : Option String) :
    ∀ t, t ∈ tokenizeSimple q → t ∈ tokenizeSimple (expand q subj) := by
  intro t ht
  unfold expand
  dsimp only []
  split
  all_goals first
    | exact ht
    | (rw [tokenizeSimple_append_space]; exact List.mem_append_left _ ht)

/-- Witness for C8 at a concrete query. -/
theorem claim_C8_witness :
    "zebra" ∈ tokenizeSimple "zebra attack" ∧
    "zebra" ∈ tokenizeSimple (expand "zebra attack" (some "networks")) :=
  ⟨by decide, claim_C8_expansion_monotone "zebra attack" (some "networks") "zebra" (by decide)⟩

/-! ## Data model: `Chunk` (`server/rag/models.py`). -/

structure Chunk where
  text : String
  page : Int
  filename : String
  header : Option String := none
  parent_header : Option String := none
  chunk_type : String := "paragraph"
  char_start : Nat := 0
  char_end : Nat := 0
  sentence_count : Nat := 0
  importance_score : ℚ := 1
deriving DecidableEq, Repr

/-- Python string truthiness for optional strings: `None` and `""` are falsy. -/
def optTruthy : Option String → Bool
  | some s => !(s = "")
  | none => false

/-- `Chunk.context_prefix`. -/
def Chunk.context_prefix (c : Chunk) : String :=
  let parts : List String :=
    (if optTruthy c.parent_header then [c.parent_header.getD ""] else []) ++
    (if optTruthy c.header && !(c.header == c.parent_header) then [c.header.getD ""] else [])
  if parts.isEmpty then "" else joinSep " > " parts

/-! ## Semantic chunker (`server/rag/chunker.py`, claim C7).

Regex-based helpers are rendered as character-level functions with the same
matching semantics (`re.match` anchored at the start of the stripped line;
greedy quantifiers resolved as analysed per pattern; `re.search` as an
existence check over decompositions). -/

structure SemanticChunker where
  chunk_size : Nat
  chunk_overlap : Nat
  min_chunk_size : Nat
deriving DecidableEq, Repr

/-- `SemanticChunker()` — the `__init__` defaults
`chunk_size=500, chunk_overlap=80, min_chunk_size=50`. -/
def SemanticChunker.default : SemanticChunker := ⟨500, 80, 50⟩

def isSentEndCh (c : Char) : Bool := c = '.' || c = '!' || c = '?'

/-- Matches of `SENTENCE_END = (?<=[.!?])\s+(?=[A-Z])`: maximal whitespace
runs preceded by `.`/`!`/`?` and followed by an upper-case letter.  Fuel-based
scan; one character is consumed per step, so `length + 1` fuel suffices. -/
def sentMatchesCore : Nat → Char → List Char → Nat
  | 0, _, _ => 0
  | _ + 1, _, [] => 0
  | fuel + 1, prev, c :: rest =>
    if isSentEndCh prev && isWS c then
      match rest.dropWhile isWS with
      | a :: after =>
        if isUpperCh a then 1 + sentMatchesCore fuel ' ' (a :: after)
        else sentMatchesCore fuel c rest
      | [] => sentMatchesCore fuel c rest
    else sentMatchesCore fuel c rest

/-- `SemanticChunker._count_sentences`: `len(SENTENCE_END.split(text))`. -/
def countSentences (text : String) : Nat :=
  sentMatchesCore (text.data.length + 1) ' ' text.data + 1

/-- Start offsets of the `SENTENCE_END` matches (`match.start()`). -/
def sentStartsCore : Nat → Nat → Char → List Char → List Nat
  | 0, _, _, _ => []
  | _ + 1, _, _, [] => []
  | fuel + 1, pos, prev, c :: rest =>
    if isSentEndCh prev && isWS c then
      match rest.dropWhile isWS with
      | a :: after =>
        if isUpperCh a then
          pos :: sentStartsCore fuel (pos + 1 + (rest.takeWhile isWS).length) ' ' (a :: after)
        else sentStartsCore fuel (pos + 1) c rest
      | [] => sentStartsCore fuel (pos + 1) c rest
    else sentStartsCore fuel (pos + 1) c rest

def sentenceStarts (cs : List Char) : List Nat :=
  sentStartsCore (cs.length + 1) 0 ' ' cs

/-- `SemanticChunker._split_at_sentence_boundary`. -/
def splitAtSentenceBoundary (cfg : SemanticChunker) (text : String)
    (targetSize : Nat) : String × String :=
  if text.length ≤ targetSize then (text, "")
  else
    let boundaries := [0] ++ sentenceStarts text.data ++ [text.length]
    let best := boundaries.foldl
      (fun (acc : Nat × Option Nat) b =>
        let diff := if b ≥ targetSize then b - targetSize else targetSize - b
        match acc.2 with
        | none => if b > cfg.min_chunk_size then (b, some diff) else acc
        | some md =>
          if diff < md && b > cfg.min_chunk_size then (b, some diff) else acc)
      (targetSize, none)
    (pyStrip (strTake best.1 text), pyStrip (strDrop best.1 text))

def isWordCh (c : Char) : Bool := isAlnumCh c || c = '_'

def isDefClassCh (c : Char) : Bool := isWordCh c || isWS c || c = '-'

def isSepCh (c : Char) : Bool := c = ':' || c = '–' || c = '—'

/-- Tail of a `DEFINITION_PATTERN` match after the leading `[A-Z]`:
`[\w\s\-]+\s*[:–—]\s+(.{20,})`, as existence of a decomposition. -/
def defTailAt (cs : List Char) : Bool :=
  (List.range (cs.length + 1)).any fun m =>
    0 < m && (cs.take m).all isDefClassCh &&
      ((List.range (cs.length - m + 1)).any fun z =>
        ((cs.drop m).take z).all isWS &&
          (match (cs.drop m).drop z with
           | sep :: rest2 =>
             isSepCh sep &&
               ((List.range (rest2.length + 1)).any fun w =>
                 0 < w && (rest2.take w).all isWS &&
                   (let tail := rest2.drop w
                    20 ≤ tail.length && (tail.take 20).all (fun c => !(c = '\n'))))
           | [] => false))

/-- Offsets just after each newline: where `^` can match in MULTILINE mode. -/
def lineStartsAux : Nat → List Char → List Nat
  | _, [] => []
  | pos, c :: rest =>
    if c = '\n' then (pos + 1) :: lineStartsAux (pos + 1) rest
    else lineStartsAux (pos + 1) rest

/-- `DEFINITION_PATTERN.search(chunk_text)`:
`^([A-Z][\w\s\-]+)\s*[:–—]\s+(.{20,})` with `re.MULTILINE`. -/
def hasDefinitionMatch (cs : List Char) : Bool :=
  (0 :: lineStartsAux 0 cs).any fun p =>
    match cs.drop p with
    | c :: rest => isUpperCh c && defTailAt rest
    | [] => false

def techMarkers : List String :=
  ["example", "important", "note", "warning", "definition",
   "algorithm", "protocol", "syntax", "command", "function"]

/-- `SemanticChunker._compute_importance` (a method, but independent of the
three configuration fields). -/
def computeImportance (chunk_text : String) (chunk_type : String)
    (has_header : Bool) : ℚ :=
  let s1 : ℚ := 1
  let s2 := if has_header then s1 * (13/10) else s1
  let s3 := if hasDefinitionMatch chunk_text.data then s2 * (7/5) else s2
  let s4 := if chunk_type = "code" then s3 * (6/5) else s3
  let s5 := if techMarkers.any (fun m => strContains (pyLower chunk_text) m)
    then s4 * (11/10) else s4
  let s6 := if chunk_text.length < 100 then s5 * (7/10) else s5
  roundDp 2 (min s6 2)

/-- `re.sub(r'^[#\d\.\s\-:]+', '', header_text).strip()`. -/
def cleanHeaderText (s : String) : String :=
  pyStrip (String.mk (s.data.dropWhile (fun c =>
    c = '#' || isDigitCh c || c = '.' || isWS c || c = '-' || c = ':')))

/-- `\s+(.+)` on a stripped line: at least one whitespace character, then the
nonempty remainder after the maximal whitespace run (the greedy capture). -/
def afterWsCapture (rest : List Char) : Option (List Char) :=
  let ws := rest.takeWhile isWS
  let rem := rest.drop ws.length
  if ws.isEmpty then none else if rem.isEmpty then none else some rem

/-- Header patterns 1–3: `^#\s+(.+)`, `^##\s+(.+)`, `^#{3,6}\s+(.+)`
(disjoint on the number of leading `#`). -/
def hashHeaderMatch (cs : List Char) : Option (List Char × Nat) :=
  let hashes := cs.takeWhile (fun c => c = '#')
  let rest := cs.drop hashes.length
  match hashes.length with
  | 0 => none
  | 1 => (afterWsCapture rest).map (fun cap => (cap, 1))
  | 2 => (afterWsCapture rest).map (fun cap => (cap, 2))
  | n => if 3 ≤ n && n ≤ 6 then (afterWsCapture rest).map (fun cap => (cap, 3))
         else none

/-- Pattern 4: `^([A-Z][A-Z\s]{2,}):?\s*$` on the stripped line. -/
def allCapsMatch (cs : List Char) : Option (List Char) :=
  let body := if cs.getLast? = some ':' then cs.dropLast else cs
  match body with
  | c :: t =>
    if isUpperCh c && t.all (fun x => isUpperCh x || isWS x) && 2 ≤ t.length
    then some body else none
  | [] => none

/-- Pattern 5: `^(\d+)\.\s+([A-Z].+)`; the returned capture is `groups[-1]`. -/
def numberedMatch (cs : List Char) : Option (List Char) :=
  let digits := cs.takeWhile isDigitCh
  if digits.isEmpty then none
  else
    match cs.drop digits.length with
    | '.' :: rest =>
      match afterWsCapture rest with
      | some cap =>
        match cap with
        | a :: _ => if isUpperCh a && 2 ≤ cap.length then some cap else none
        | [] => none
      | none => none
    | _ => none

/-- Pattern 6: `^(\d+\.\d+)\s+(.+)`. -/
def dottedMatch (cs : List Char) : Option (List Char) :=
  let d1 := cs.takeWhile isDigitCh
  if d1.isEmpty then none
  else
    match cs.drop d1.length with
    | '.' :: rest =>
      let d2 := rest.takeWhile isDigitCh
      if d2.isEmpty then none
      else afterWsCapture (rest.drop d2.length)
    | _ => none

def isRomanCh (c : Char) : Bool :=
  c = 'I' || c = 'V' || c = 'X' || c = 'L' || c = 'C' || c = 'D' || c = 'M'

/-- Pattern 7: `^([IVXLCDM]+)\.\s+(.+)`. -/
def romanMatch (cs : List Char) : Option (List Char) :=
  let rom := cs.takeWhile isRomanCh
  if rom.isEmpty then none
  else
    match cs.drop rom.length with
    | '.' :: rest => afterWsCapture rest
    | _ => none

/-- Patterns 8–9: `^Chapter\s+(\d+)\s*[:\-]?\s*(.*)` and the `Section`
variant; the capture `(.*)` may be empty. -/
def chapterMatch (kw : List Char) (cs : List Char) : Option (List Char) :=
  if kw.isPrefixOf cs then
    let rest := cs.drop kw.length
    let ws1 := rest.takeWhile isWS
    if ws1.isEmpty then none
    else
      let rest1 := rest.drop ws1.length
      let digits := rest1.takeWhile isDigitCh
      if digits.isEmpty then none
      else
        let rest2 := rest1.drop digits.length
        let rest3 := rest2.drop (rest2.takeWhile isWS).length
        let rest4 := match rest3 with
          | c :: t => if c = ':' || c = '-' then t else rest3
          | [] => rest3
        some (rest4.drop (rest4.takeWhile isWS).length)
  else none

/-- `SemanticChunker._detect_header`: the ordered `HEADER_PATTERNS`; the
captured `groups[-1]` is cleaned, and a pattern whose cleaned title is empty
falls through to the next pattern. -/
def detectHeader (line : String) : Option (String × Nat) :=
  let cs := (pyStrip line).data
  let tryPat := fun (cap : Option (List Char)) (level : Nat) =>
    match cap with
    | some c =>
      let cleaned := cleanHeaderText (String.mk c)
      if cleaned = "" then none else some (cleaned, level)
    | none => none
  let candidates : List (Option (String × Nat)) :=
    [(match hashHeaderMatch cs with
      | some capl => tryPat (some capl.1) capl.2
      | none => none),
     tryPat (allCapsMatch cs) 1,
     tryPat (numberedMatch cs) 2,
     tryPat (dottedMatch cs) 3,
     tryPat (romanMatch cs) 2,
     tryPat (chapterMatch "Chapter".data cs) 1,
     tryPat (chapterMatch "Section".data cs) 2]
  candidates.foldl (fun acc c => match acc with | some _ => acc | none => c) none

/-- Pattern `\+[-=]+\+` anchored by `.match` on the stripped line. -/
def plusDashLine (cs : List Char) : Bool :=
  match cs with
  | '+' :: rest =>
    let run := rest.takeWhile (fun c => c = '-' || c = '=')
    !run.isEmpty &&
      (match rest.drop run.length with
       | '+' :: _ => true
       | _ => false)
  | _ => false

/-- `SemanticChunker._is_table_line`: `\|.*\|.*\|` or `\+[-=]+\+`,
`.match`-anchored on the stripped line. -/
def isTableLine (line : String) : Bool :=
  let cs := (pyStrip line).data
  (match cs with
   | '|' :: rest => 2 ≤ rest.count '|'
   | _ => false) || plusDashLine cs

/-- `SemanticChunker._is_code_fence`. -/
def isCodeFence (line : String) : Bool :=
  "```".data.isPrefixOf (pyStrip line).data

/-- The mutable loop state of `chunk_text`. -/
structure ChunkerSt where
  chunks : List Chunk
  headerStack : List (Option String)
  current : List String
  currentSize : Nat
  charPos : Nat
  chunkStart : Nat
  inCode : Bool
  inTable : Bool
deriving Repr

/-- First truthy entry (headers are never stored as `""`, so `Option.isSome`
is Python truthiness here). -/
def firstTruthy : List (Option String) → Option String
  | [] => none
  | some h :: _ => some h
  | none :: t => firstTruthy t

/-- `header_stack[idx] = title; clear deeper levels` for the 3-slot stack. -/
def setHeaderStack (hs : List (Option String)) (idx : Nat) (title : String) :
    List (Option String) :=
  hs.take idx ++ [some title] ++ List.replicate (2 - idx) none

/-- `flush_chunk`: emits a chunk when the trimmed buffer is at least
`min_chunk_size` long; a shorter buffer is left in place (the early `return`
does not clear `current_content`). -/
def flushChunk (cfg : SemanticChunker) (page : Int) (filename : String)
    (chunk_type : String) (st : ChunkerSt) : ChunkerSt :=
  if st.current.isEmpty then st
  else
    let chunkTxt := pyStrip (joinSep "\n" st.current)
    if chunkTxt.length < cfg.min_chunk_size then st
    else
      let header := firstTruthy st.headerStack.reverse
      let parent := firstTruthy st.headerStack
      let displayText := match header with
        | some h => "## " ++ h ++ "\n\n" ++ chunkTxt
        | none => chunkTxt
      let importance := computeImportance chunkTxt chunk_type header.isSome
      { st with
        chunks := st.chunks ++
          [{ text := displayText, page := page, filename := filename,
             header := header,
             parent_header := if parent ≠ header then parent else none,
             chunk_type := chunk_type, char_start := st.chunkStart,
             char_end := st.charPos, sentence_count := countSentences chunkTxt,
             importance_score := importance }],
        current := [], currentSize := 0, chunkStart := st.charPos }

/-- One iteration of the `for line in lines` loop of `chunk_text`. -/
def chunkLineStep (cfg : SemanticChunker) (page : Int) (filename : String)
    (st : ChunkerSt) (line : String) : ChunkerSt :=
  let lineLen := line.length + 1
  let stripped := pyStrip line
  if isCodeFence line then
    (if st.inCode then
      let st1 := { st with current := st.current ++ [line],
                           currentSize := st.currentSize + lineLen, inCode := false }
      let st2 := flushChunk cfg page filename "code" st1
      { st2 with charPos := st2.charPos + lineLen }
    else
      let st1 := flushChunk cfg page filename "paragraph" st
      { st1 with current := st1.current ++ [line],
                 currentSize := st1.currentSize + lineLen, inCode := true,
                 charPos := st1.charPos + lineLen })
  else if st.inCode then
    { st with current := st.current ++ [line],
              currentSize := st.currentSize + lineLen,
              charPos := st.charPos + lineLen }
  else if isTableLine line then
    let st1 := if !st.inTable then
        { (flushChunk cfg page filename "paragraph" st) with inTable := true }
      else st
    { st1 with current := st1.current ++ [line],
               currentSize := st1.currentSize + lineLen,
               charPos := st1.charPos + lineLen }
  else
    let st1 := if st.inTable then
        flushChunk cfg page filename "table" { st with inTable := false }
      else st
    match detectHeader line with
    | some hi =>
      let st2 := flushChunk cfg page filename "paragraph" st1
      let idx := min (hi.2 - 1) 2
      { st2 with headerStack := setHeaderStack st2.headerStack idx hi.1,
                 chunkStart := st2.charPos, charPos := st2.charPos + lineLen }
    | none =>
      if stripped ≠ "" then
        if st1.currentSize + lineLen > cfg.chunk_size && !st1.current.isEmpty then
          let fullText := joinSep "\n" st1.current ++ "\n" ++ line
          let fr := splitAtSentenceBoundary cfg fullText cfg.chunk_size
          let st2 := { st1 with current := [fr.1], currentSize := fr.1.length }
          let st3 := flushChunk cfg page filename "paragraph" st2
          let st4 :=
            if fr.2 ≠ "" then
              let overlapText :=
                if cfg.chunk_overlap > 0 then strTakeRight cfg.chunk_overlap fr.1 else ""
              if overlapText ≠ "" then
                { st3 with current := [overlapText, fr.2],
                           currentSize := overlapText.length + fr.2.length }
              else { st3 with current := [fr.2], currentSize := fr.2.length }
            else st3
          { st4 with charPos := st4.charPos + lineLen }
        else
          { st1 with current := st1.current ++ [line],
                     currentSize := st1.currentSize + lineLen,
                     charPos := st1.charPos + lineLen }
      else { st1 with charPos := st1.charPos + lineLen }

/-- `SemanticChunker.chunk_text`. -/
def chunkText (cfg : SemanticChunker) (text : String) (page : Int)
    (filename : String) : List Chunk :=
  if text = "" || (pyStrip text).length < 30 then []
  else
    let lines := pySplitNL text
    let st0 : ChunkerSt := ⟨[], [none, none, none], [], 0, 0, 0, false, false⟩
    let st := lines.foldl (chunkLineStep cfg page filename) st0
    let stF :=
      if st.inCode then flushChunk cfg page filename "code" st
      else if st.inTable then flushChunk cfg page filename "table" st
      else flushChunk cfg page filename "paragraph" st
    stF.chunks

/-! Results and witnesses for claim C7. -/

/-- C7, counterexample: `SemanticChunker.__init__` defaults `chunk_size` to
`500`, not `600` as claimed (the `600` default lives in `Settings.chunk_size`
of `server/config.py`, which `PDFProcessor` passes explicitly — it is not the
chunker's own default). -/
theorem claim_C7_counterexample :
    SemanticChunker.default.chunk_size = 500 ∧
    ¬ SemanticChunker.default.chunk_size = 600 := by
  decide

/-- C7, amended: `chunk_text` is a pure function of its input text, page and
filename together with exactly the three configuration fields, whose defaults
on argument-less construction are `chunk_size = 500`, `chunk_overlap = 80`,
`min_chunk_size = 50`. -/
theorem claim_C7_amended :
    SemanticChunker.default = ⟨500, 80, 50⟩ ∧
    ∀ (c₁ c₂ : SemanticChunker), c₁.chunk_size = c₂.chunk_size →
      c₁.chunk_overlap = c₂.chunk_overlap → c₁.min_chunk_size = c₂.min_chunk_size →
      ∀ t p f, chunkText c₁ t p f = chunkText c₂ t p f := by
  refine ⟨rfl, ?_⟩
  intro c₁ c₂ h1 h2 h3 t p f
  obtain ⟨a, b, c⟩ := c₁
  obtain ⟨a', b', c'⟩ := c₂
  simp only at h1 h2 h3
  subst h1
  subst h2
  subst h3
  rfl

/-- Witness for C7 (amended) at the default configuration. -/
theorem claim_C7_witness :
    SemanticChunker.default = (⟨500, 80, 50⟩ : SemanticChunker) ∧
    chunkText SemanticChunker.default "" 1 "doc.pdf" =
      chunkText ⟨500, 80, 50⟩ "" 1 "doc.pdf" :=
  ⟨claim_C7_amended.1,
   claim_C7_amended.2 SemanticChunker.default ⟨500, 80, 50⟩ rfl rfl rfl "" 1 "doc.pdf"⟩

/-! ## Vector store (`server/rag/vector_store.py`).

The external pieces appear through their §4.6 contract: the ANN collection
is the per-subject record list (embedding vectors omitted — no claim
concerns them), `add` requires ids unique within the collection, `query`
returns ranked `(id, distance)` pairs.  The embedder and cross-encoder are
external pure functions. -/

structure DenseRecord where
  id : String
  text : String
  meta : ChunkMeta
deriving DecidableEq, Repr

structure Collection where
  records : List DenseRecord
deriving DecidableEq, Repr

structure VSState where
  collections : List (String × Collection)
  bm25Indices : List (String × BM25State)
deriving DecidableEq, Repr

def emptyVS : VSState := ⟨[], []⟩

/-- `_get_collection` / `_get_bm25` caching: get, or create at the end. -/
def ensureKey {α : Type} (l : List (String × α)) (k : String) (dflt : α) :
    List (String × α) :=
  if (aget? l k).isSome then l else l ++ [(k, dflt)]

def colIds (c : Collection) : List String := c.records.map DenseRecord.id

def dashToUnderscore (s : String) : String :=
  String.mk (s.data.map fun c => if c = '-' then '_' else c)

def underscoreToDash (s : String) : String :=
  String.mk (s.data.map fun c => if c = '_' then '-' else c)

/-- `f"sentinel_{subject_id}".replace('-', '_')`. -/
def collectionName (subject_id : String) : String :=
  dashToUnderscore ("sentinel_" ++ subject_id)

/-- Python's `replace('sentinel_', '')`: remove every (non-overlapping,
left-to-right) occurrence of `"sentinel_"`. -/
def stripSentinelAux : List Char → List Char
  | 's' :: 'e' :: 'n' :: 't' :: 'i' :: 'n' :: 'e' :: 'l' :: '_' :: rest =>
    stripSentinelAux rest
  | c :: cs => c :: stripSentinelAux cs
  | [] => []

/-- `col_name.replace('sentinel_', '').replace('_', '-')` — how
`delete_document` and `_rebuild_bm25_indices` recover a subject id from a
collection name. -/
def recoverSubject (col_name : String) : String :=
  underscoreToDash (String.mk (stripSentinelAux col_name.data))

/-- Subject ids on which the collection-name mapping round-trips.  This holds
for ids free of underscores and of the substring `"sentinel-"` (e.g. every
id made of letters, digits and hyphens), and fails e.g. for `"a_b"`. -/
def GoodSubject (subject_id : String) : Prop :=
  recoverSubject (collectionName subject_id) = subject_id

/-- Metadata written by `add_chunks` for one chunk. -/
def chunkMetaOf (document_id : String) (c : Chunk) : ChunkMeta :=
  { document_id := document_id,
    page := c.page,
    filename := c.filename,
    header := c.header.getD "",
    parent_header := c.parent_header.getD "",
    chunk_type := c.chunk_type,
    importance := c.importance_score,
    sentence_count := (c.sentence_count : Int) }

/-- The chunk ids `add_chunks` generates: `f"{document_id}_{i}"`. -/
def mkIds (document_id : String) (n : Nat) : List String :=
  (List.range n).map (fun i => document_id ++ "_" ++ toString i)

/-- `VectorStore.add_chunks`.  ChromaDB's `add` is modelled by its §4.6
contract: ids must be unique within the collection; a violating add raises,
so nothing is stored and the BM25 loop below it never runs (Boolean result
`false`; only the `_get_collection`/`_get_bm25` cache entries remain).  The
context-prefixed `texts_for_embedding` feed only the external embedder and
have no bearing on the stored state, which keeps `texts_for_storage`. -/
def addChunks (tok : String → List String) (s : VSState)
    (subject_id document_id : String) (chunks : List Chunk) : VSState × Bool :=
  if chunks.isEmpty then (s, true)
  else
    let cname := collectionName subject_id
    let collections := ensureKey s.collections cname ⟨[]⟩
    let bmIdx := ensureKey s.bm25Indices subject_id emptyBM25
    let ids := mkIds document_id chunks.length
    let texts := chunks.map Chunk.text
    let metas := chunks.map (chunkMetaOf document_id)
    let col := agetD collections cname ⟨[]⟩
    if ids.any (fun i => i ∈ colIds col) then (⟨collections, bmIdx⟩, false)
    else
      let recs := List.zipWith
        (fun i (tm : String × ChunkMeta) => DenseRecord.mk i tm.1 tm.2)
        ids (texts.zip metas)
      let collections' := aset collections cname ⟨col.records ++ recs⟩
      let bm := agetD bmIdx subject_id emptyBM25
      let bm' := recs.foldl (fun b r => addDocument tok b r.id r.text r.meta) bm
      (⟨collections', aset bmIdx subject_id bm'⟩, true)

/-- `add_chunks` when the BM25 `add_document` loop raises after `j`
successful iterations: the source has no exception handler, so the ChromaDB
records added just before stay while only the first `j` BM25 additions exist
when the error surfaces. -/
def addChunksBM25Interrupted (tok : String → List String) (s : VSState)
    (subject_id document_id : String) (chunks : List Chunk) (j : Nat) : VSState :=
  if chunks.isEmpty then s
  else
    let cname := collectionName subject_id
    let collections := ensureKey s.collections cname ⟨[]⟩
    let bmIdx := ensureKey s.bm25Indices subject_id emptyBM25
    let ids := mkIds document_id chunks.length
    let texts := chunks.map Chunk.text
    let metas := chunks.map (chunkMetaOf document_id)
    let col := agetD collections cname ⟨[]⟩
    if ids.any (fun i => i ∈ colIds col) then ⟨collections, bmIdx⟩
    else
      let recs := List.zipWith
        (fun i (tm : String × ChunkMeta) => DenseRecord.mk i tm.1 tm.2)
        ids (texts.zip metas)
      let collections' := aset collections cname ⟨col.records ++ recs⟩
      let bm := agetD bmIdx subject_id emptyBM25
      let bm' := (recs.take j).foldl (fun b r => addDocument tok b r.id r.text r.meta) bm
      ⟨collections', aset bmIdx subject_id bm'⟩

/-- One iteration of `delete_document`'s loop over the cached collections:
`get(where={document_id: ...})`, dense `delete(ids)`, then `remove_document`
on the BM25 index keyed by the subject recovered from the collection name. -/
def deleteStep (tok : String → List String) (document_id : String)
    (st : VSState) (cname : String) : VSState :=
  let col := agetD st.collections cname ⟨[]⟩
  let ids := (col.records.filter
    (fun r => r.meta.document_id = document_id)).map DenseRecord.id
  if ids.isEmpty then st
  else
    let col' : Collection := ⟨col.records.filter (fun r => r.id ∉ ids)⟩
    let st1 : VSState := ⟨aset st.collections cname col', st.bm25Indices⟩
    let subj := recoverSubject cname
    match aget? st1.bm25Indices subj with
    | some bm =>
      ⟨st1.collections, aset st1.bm25Indices subj (ids.foldl (removeDocument tok) bm)⟩
    | none => st1

/-- `VectorStore.delete_document`: the loop above over every cached
collection name. -/
def deleteDocument (tok : String → List String) (s : VSState)
    (document_id : String) : VSState :=
  (s.collections.map Prod.fst).foldl (deleteStep tok document_id) s

structure Candidate where
  id : String
  text : String
  meta : ChunkMeta
  vector_score : ℚ
  rrf_score : ℚ
  importance : ℚ
  score : ℚ
  rerank_score : Option ℚ := none
deriving DecidableEq, Repr

structure SearchMatch where
  text : String
  meta : ChunkMeta
  score : ℚ
  vector_score : ℚ
  rrf_score : ℚ
deriving DecidableEq, Repr

structure SearchResult where
  /-- The `matches` key of the returned dict (`matches` is a Lean keyword). -/
  matchList : List SearchMatch
  total_searched : Int
  search_method : String
  query_expanded : Bool
deriving DecidableEq, Repr

/-- `enumerate(l, 1)`. -/
def enum1 {α : Type} (l : List α) : List (Nat × α) :=
  ((List.range l.length).map (· + 1)).zip l

/-- `VectorStore._reciprocal_rank_fusion` with the default weights
`vector_weight = 0.6`, `bm25_weight = 0.4` and `RRF_K = 60`. -/
def rrfFusion (vector_results bm25_results : List (String × ℚ)) :
    List (String × ℚ) :=
  let f1 := (enum1 vector_results).foldl
    (fun acc rp => aset acc rp.2.1 (agetD acc rp.2.1 0 + (3/5) / (60 + (rp.1 : ℚ)))) []
  (enum1 bm25_results).foldl
    (fun acc rp => aset acc rp.2.1 (agetD acc rp.2.1 0 + (2/5) / (60 + (rp.1 : ℚ)))) f1

/-- `VectorStore._rerank`, parameterised by the loaded cross-encoder — an
external pure scorer of `(query, text[:512])` pairs — and a flag modelling an
exception inside `predict` (the `except` branch returns the candidates
unchanged, truncated to `top_k`). -/
def rerankModel (ce? : Option (String → String → ℚ)) (predictFails : Bool)
    (query : String) (candidates : List Candidate) (top_k : Nat) : List Candidate :=
  match ce? with
  | none => candidates.take top_k
  | some ce =>
    if candidates.isEmpty then candidates.take top_k
    else if predictFails then candidates.take top_k
    else
      let scored := candidates.map
        (fun c => { c with rerank_score := some (ce query (strTake 512 c.text)) })
      (sortByDesc (fun c => c.rerank_score.getD 0) scored).take top_k

/-- Step 2a of `VectorStore.search`: the `vector_docs` dict built from the
ANN query result (text and metadata come back from the store; under its
contract they are the stored ones, looked up here from the records). -/
def vectorDocsFold (collection : Collection) (annResult : List (String × ℚ)) :
    List (String × (String × ChunkMeta × ℚ)) :=
  annResult.foldl
    (fun acc pr =>
      let rec? := collection.records.find? (fun r => r.id = pr.1)
      let txt := match rec? with | some r => r.text | none => ""
      let meta := match rec? with | some r => r.meta | none => defaultMeta
      aset acc pr.1 (txt, meta, roundDp 4 (1 - pr.2))) []

/-- Step 2b of `VectorStore.search`: BM25-only candidates join `vector_docs`
with `vector_score = 0.0` and text/metadata from the BM25 maps. -/
def addBmDocs (bm : BM25State) (bmRanked : List (String × ℚ))
    (vd : List (String × (String × ChunkMeta × ℚ))) :
    List (String × (String × ChunkMeta × ℚ)) :=
  bmRanked.foldl
    (fun acc pr =>
      if (aget? acc pr.1).isSome then acc
      else aset acc pr.1
        (agetD bm.doc_texts pr.1 "", agetD bm.doc_metadata pr.1 defaultMeta, (0 : ℚ)))
    vd

/-- Step 3 of `VectorStore.search`: fuse, sort by fused score (stable
descending), truncate to the candidate pool and materialise the candidate
dicts. -/
def candidatesOf (collection : Collection) (bm : BM25State)
    (annResult bmRanked : List (String × ℚ)) (candidateCount : Nat) :
    List Candidate :=
  let vectorRanked := annResult.map (fun pr => (pr.1, 1 - pr.2))
  let vectorDocs := addBmDocs bm bmRanked (vectorDocsFold collection annResult)
  let fused := rrfFusion vectorRanked bmRanked
  ((sortByDesc Prod.snd fused).take candidateCount).filterMap
    (fun pr =>
      match aget? vectorDocs pr.1 with
      | none => none
      | some tmv =>
        some { id := pr.1, text := tmv.1, meta := tmv.2.1,
               vector_score := tmv.2.2,
               rrf_score := roundDp 6 pr.2,
               importance := tmv.2.1.importance,
               score := roundDp 6 (pr.2 * tmv.2.1.importance) })

/-- `VectorStore.search`.  External capabilities are parameters: `tok`/`lnq`
for BM25, `annResult` — the ANN store's reply to `query(embed(q'), C)` as
ranked `(id, distance)` pairs (contract: `distance ∈ [0, 2]`, distinct stored
ids, at most `C` entries) — and the optional cross-encoder with its failure
flag. -/
def search (tok : String → List String) (lnq : ℚ → ℚ) (s : VSState)
    (subject_id query : String) (limit : Nat)
    (use_expansion use_reranking : Bool)
    (annResult : List (String × ℚ))
    (ce? : Option (String → String → ℚ)) (predictFails : Bool) : SearchResult :=
  let cname := collectionName subject_id
  let collections := ensureKey s.collections cname ⟨[]⟩
  let bmIdx := ensureKey s.bm25Indices subject_id emptyBM25
  let collection := agetD collections cname ⟨[]⟩
  let bm := agetD bmIdx subject_id emptyBM25
  let total : Int := (collection.records.length : Int)
  if total = 0 then ⟨[], 0, "none", false⟩
  else
    let searchQuery := if use_expansion then expand query (some subject_id) else query
    let candidateCount := min (limit * 4) (min collection.records.length 20)
    let bmRanked := bm25Search tok lnq bm searchQuery candidateCount
    let candidates := candidatesOf collection bm annResult bmRanked candidateCount
    let frm :=
      if use_reranking && ce?.isSome && candidates.length > 1 then
        (rerankModel ce? predictFails query candidates limit, "hybrid+rerank")
      else (candidates.take limit, "hybrid")
    let out := frm.1.map (fun r =>
      let finalScore := match r.rerank_score with
        | some rs => rs
        | none => r.score
      SearchMatch.mk r.text r.meta (roundDp 4 finalScore) r.vector_score r.rrf_score)
    ⟨out, total, frm.2, searchQuery != query⟩

/-! Operation sequences on the vector store, for the cross-index claims. -/

inductive VOp : Type
  | add (subject_id document_id : String) (chunks : List Chunk)
  | del (document_id : String)

def vstep (tok : String → List String) (s : VSState) : VOp → VSState
  | .add subj d cs => (addChunks tok s subj d cs).1
  | .del d => deleteDocument tok s d

def vrun (tok : String → List String) (ops : List VOp) : VSState :=
  ops.foldl (vstep tok) emptyVS

def vopGood : VOp → Prop
  | .add subj _ _ => GoodSubject subj
  | .del _ => True

/-- Ids present in the subject's BM25 index. -/
def bmIds (s : VSState) (subject_id : String) : List String :=
  match aget? s.bm25Indices subject_id with
  | some bm => bm.doc_texts.map Prod.fst
  | none => []

/-- Ids present in the subject's dense collection. -/
def denseIds (s : VSState) (subject_id : String) : List String :=
  colIds (agetD s.collections (collectionName subject_id) ⟨[]⟩)

/-! ## Key-set lemmas for the store maps -/

theorem mem_keys_iff_isSome {α : Type} (l : List (String × α)) (k : String) :
    k ∈ l.map Prod.fst ↔ (aget? l k).isSome := by
  induction l with
  | nil => simp
  | cons p t ih =>
    obtain ⟨pk, pv⟩ := p
    by_cases h : pk = k
    · subst h
      simp [aget?_cons]
    · simp [aget?_cons, h, ih, Ne.symm h]

theorem mem_keys_aset {α : Type} (l : List (String × α)) (k : String) (v : α)
    (k' : String) :
    k' ∈ (aset l k v).map Prod.fst ↔ k' = k ∨ k' ∈ l.map Prod.fst := by
  induction l with
  | nil => simp
  | cons p t ih =>
    obtain ⟨pk, pv⟩ := p
    by_cases h : pk = k
    · subst h
      rw [aset_cons, if_pos rfl]
      simp only [List.map_cons, List.mem_cons]
      tauto
    · rw [aset_cons, if_neg h]
      simp only [List.map_cons, List.mem_cons, ih]
      tauto

theorem aget?_append {α : Type} (l1 l2 : List (String × α)) (k : String) :
    aget? (l1 ++ l2) k =
      match aget? l1 k with
      | some v => some v
      | none => aget? l2 k := by
  induction l1 with
  | nil => simp [aget?]
  | cons p t ih =>
    obtain ⟨pk, pv⟩ := p
    by_cases h : pk = k
    · simp [aget?_cons, h]
    · simp [aget?_cons, h, ih]

theorem aget?_ensureKey_self {α : Type} (l : List (String × α)) (k : String)
    (d : α) : aget? (ensureKey l k d) k = some (agetD l k d) := by
  unfold ensureKey agetD
  cases h : aget? l k with
  | some v =>
    rw [if_pos (by rfl)]
    rw [h]
    rfl
  | none =>
    rw [if_neg (by simp)]
    rw [aget?_append, h]
    simp [aget?_cons]

theorem aget?_ensureKey_ne {α : Type} (l : List (String × α)) (k : String)
    (d : α) (k' : String) (h : k' ≠ k) :
    aget? (ensureKey l k d) k' = aget? l k' := by
  unfold ensureKey
  by_cases hs : (aget? l k).isSome
  · rw [if_pos hs]
  · rw [if_neg hs, aget?_append]
    cases hk' : aget? l k' with
    | some v => rfl
    | none => simp [aget?_cons, Ne.symm h]

theorem agetD_ensureKey_self {α : Type} (l : List (String × α)) (k : String)
    (d : α) : agetD (ensureKey l k d) k d = agetD l k d := by
  unfold agetD
  rw [aget?_ensureKey_self]
  rfl

theorem nodupKeys_append_single {α : Type} : ∀ (l : List (String × α)) (k : String)
    (d : α), NodupKeys l → aget? l k = none → NodupKeys (l ++ [(k, d)])
  | [], k, d, _, _ => ⟨rfl, trivial⟩
  | p :: t, k, d, h, hk => by
    obtain ⟨hp, ht⟩ := h
    rw [aget?_cons] at hk
    by_cases hpk : p.1 = k
    · rw [if_pos hpk] at hk
      exact absurd hk (by simp)
    · rw [if_neg hpk] at hk
      refine ⟨?_, nodupKeys_append_single t k d ht hk⟩
      show aget? (t ++ [(k, d)]) p.1 = none
      rw [aget?_append, hp]
      simp [aget?_cons, Ne.symm hpk]

theorem nodupKeys_ensureKey {α : Type} (l : List (String × α)) (k : String)
    (d : α) (h : NodupKeys l) : NodupKeys (ensureKey l k d) := by
  unfold ensureKey
  by_cases hs : (aget? l k).isSome
  · rwa [if_pos hs]
  · rw [if_neg hs]
    refine nodupKeys_append_single l k d h ?_
    cases hv : aget? l k with
    | none => rfl
    | some v => exact absurd (by rw [hv]; rfl) hs

/-- `bmIds` through the default-lookup the source uses. -/
theorem bmIds_eq_keys (s : VSState) (subj : String) :
    bmIds s subj = (agetD s.bm25Indices subj emptyBM25).doc_texts.map Prod.fst := by
  unfold bmIds agetD
  cases aget? s.bm25Indices subj <;> rfl

theorem bmIds_mk (cols : List (String × Collection))
    (bmx : List (String × BM25State)) (subj : String) :
    bmIds ⟨cols, bmx⟩ subj =
      match aget? bmx subj with
      | some bm => bm.doc_texts.map Prod.fst
      | none => [] := rfl

theorem denseIds_mk (cols : List (String × Collection))
    (bmx : List (String × BM25State)) (subj : String) :
    denseIds ⟨cols, bmx⟩ subj = colIds (agetD cols (collectionName subj) ⟨[]⟩) := rfl

/-- Creating a missing cache entry (with an empty default) never changes
`bmIds`. -/
theorem mem_bmIds_ensure (bmx : List (String × BM25State))
    (cols cols' : List (String × Collection)) (subj subj' c : String) :
    c ∈ bmIds ⟨cols, ensureKey bmx subj emptyBM25⟩ subj' ↔
      c ∈ bmIds ⟨cols', bmx⟩ subj' := by
  rw [bmIds_mk, bmIds_mk]
  by_cases h : subj' = subj
  · subst h
    rw [aget?_ensureKey_self]
    unfold agetD
    cases aget? bmx subj' with
    | some bm => rfl
    | none => simp [emptyBM25]
  · rw [aget?_ensureKey_ne _ _ _ _ h]

/-- Creating a missing collection (with no records) never changes
`denseIds`. -/
theorem mem_denseIds_ensure (cols : List (String × Collection))
    (bmx bmx' : List (String × BM25State)) (cname subj' : String) (c : String) :
    c ∈ denseIds ⟨ensureKey cols cname ⟨[]⟩, bmx⟩ subj' ↔
      c ∈ denseIds ⟨cols, bmx'⟩ subj' := by
  rw [denseIds_mk, denseIds_mk]
  by_cases h : collectionName subj' = cname
  · rw [h, agetD_ensureKey_self]
  · unfold agetD
    rw [aget?_ensureKey_ne _ _ _ _ h]

/-- The records `add_chunks` builds carry exactly the generated ids. -/
theorem map_id_zipWith : ∀ (ids : List String) (l : List (String × ChunkMeta)),
    ids.length ≤ l.length →
    (List.zipWith (fun i (tm : String × ChunkMeta) => DenseRecord.mk i tm.1 tm.2)
      ids l).map DenseRecord.id = ids
  | [], _, _ => rfl
  | i :: it, [], h => absurd h (by simp)
  | i :: it, tm :: tl, h => by
    have ih := map_id_zipWith it tl (by simpa using h)
    simp [List.zipWith_cons_cons, ih]

/-- Keys of the BM25 `doc_texts` map after the `add_document` loop. -/
theorem addFold_texts_keys (tok : String → List String) :
    ∀ (recs : List DenseRecord) (b : BM25State) (c : String),
      (c ∈ ((recs.foldl (fun b r => addDocument tok b r.id r.text r.meta) b).doc_texts.map Prod.fst) ↔
        c ∈ b.doc_texts.map Prod.fst ∨ c ∈ recs.map DenseRecord.id)
  | [], b, c => by simp
  | r :: t, b, c => by
    rw [List.foldl_cons, addFold_texts_keys tok t _ c]
    rw [addDocument_doc_texts, mem_keys_aset]
    simp only [List.map_cons, List.mem_cons]
    tauto

theorem not_mem_take_of_nodup {α : Type} :
    ∀ (l : List α) (j : Nat) (hj : j < l.length), l.Nodup → l.get ⟨j, hj⟩ ∉ l.take j := by
  intro l
  induction l with
  | nil => intro j hj _; exact absurd hj (by simp)
  | cons a t ih =>
    intro j hj hl
    cases j with
    | zero => simp
    | succ j' =>
      rw [List.take_succ_cons]
      intro hmem
      rcases List.mem_cons.1 hmem with he | hm
      · have hget : (a :: t).get ⟨j' + 1, hj⟩ = t.get ⟨j', Nat.lt_of_succ_lt_succ hj⟩ := rfl
        rw [hget] at he
        exact (List.nodup_cons.1 hl).1 (he ▸ List.get_mem t j' (Nat.lt_of_succ_lt_succ hj))
      · exact ih j' (Nat.lt_of_succ_lt_succ hj) (List.nodup_cons.1 hl).2 hm

/-! ## Evaluation helpers for concrete rational results

Deciding equality of two concrete rationals directly recurses deeply in the
elaborator; comparing their `num`/`den` projections is shallow, so concrete
list-of-ℚ equalities are reduced to pair form first. -/

lemma rat_eq_of_pair {a b : ℚ} (h : (a.num, a.den) = (b.num, b.den)) : a = b := by
  obtain ⟨h1, h2⟩ := Prod.mk.injEq .. ▸ h
  exact Rat.ext h1 h2

lemma list_rat_eq_of_pair : ∀ (l l' : List ℚ),
    l.map (fun q => (q.num, q.den)) = l'.map (fun q => (q.num, q.den)) → l = l'
  | [], [], _ => rfl
  | a :: l, a' :: l', h => by
    rw [List.map_cons, List.map_cons, List.cons.injEq] at h
    rw [rat_eq_of_pair h.1, list_rat_eq_of_pair l l' h.2]

/-! ## Claim C10: empty `add_chunks` is a no-op -/

/-- C10: `add_chunks` called with an empty chunk list returns `True` before
touching any state: the collection registry, the dense records and every BM25
index are exactly unchanged — in particular no empty collection or index is
created for a previously unseen subject. -/
theorem claim_C10_empty_add_noop (tok : String → List String) (s : VSState)
    (subject_id document_id : String) :
    addChunks tok s subject_id document_id [] = (s, true) := rfl

/-! ## Claim C1: the cross-index invariant, and the `"a_b"` counterexample -/

def c1Chunk : Chunk := { text := "alpha beta gamma", page := 1, filename := "f.pdf" }

def c1Run : VSState :=
  vrun tokenizeSimple [VOp.add "a_b" "doc" [c1Chunk], VOp.del "doc"]

/-- C1, counterexample: the invariant `bm25(s) = dense(s)` does NOT hold after
every successful `add_chunks`/`delete_document` sequence.  For the subject id
`"a_b"` the collection name is `"sentinel_a_b"`, and `delete_document`
recovers the subject as `"a-b"` (`replace('sentinel_', '').replace('_',
'-')`), so it removes the dense records but looks up a non-existent BM25
index and leaves `"doc_0"` orphaned in the BM25 index of `"a_b"`. -/
theorem claim_C1_counterexample :
    (addChunks tokenizeSimple emptyVS "a_b" "doc" [c1Chunk]).2 = true ∧
    "doc_0" ∈ bmIds c1Run "a_b" ∧ "doc_0" ∉ denseIds c1Run "a_b" := by
  with_unfolding_all decide

/-! ## Claim C2: no compensation on partial failure (counterexample) -/

def c2Chunk : Chunk := { text := "alpha beta gamma", page := 1, filename := "f.pdf" }

/-- The state `add_chunks` leaves behind when the BM25 loop raises immediately
after the dense add (`j = 0` successful BM25 iterations). -/
def c2Interrupted : VSState :=
  addChunksBM25Interrupted tokenizeSimple emptyVS "network-security" "doc" [c2Chunk] 0

/-- C2, counterexample: `add_chunks` has no rollback or compensating delete.
If the BM25 loop fails right after the dense add, the batch's dense ids stay
while no BM25 entry exists, so the failed ingest surfaces with the two
indices not id-equal. -/
theorem claim_C2_counterexample :
    "doc_0" ∈ denseIds c2Interrupted "network-security" ∧
    "doc_0" ∉ bmIds c2Interrupted "network-security" := by
  with_unfolding_all decide

/-- When `add_chunks` returns `False` (a duplicate-id dense add), only the
`_get_collection`/`_get_bm25` cache entries were touched. -/
theorem addChunks_fail_state (tok : String → List String) (s : VSState)
    (subject_id document_id : String) (chunks : List Chunk)
    (h : (addChunks tok s subject_id document_id chunks).2 = false) :
    (addChunks tok s subject_id document_id chunks).1 =
      ⟨ensureKey s.collections (collectionName subject_id) ⟨[]⟩,
       ensureKey s.bm25Indices subject_id emptyBM25⟩ := by
  unfold addChunks at h ⊢
  by_cases he : chunks.isEmpty
  · rw [if_pos he] at h
    exact absurd h (by simp)
  · rw [if_neg he] at h ⊢
    dsimp only [] at h ⊢
    split at h
    next hcond =>
      rw [if_pos hcond]
    next hcond =>
      exact absurd h (by simp)

/-- C2, amended: `add_chunks` has no rollback and no compensating delete,
and every BM25 `add_document` runs strictly after the dense add, so per
batch: (a) a dense-add failure (duplicate id) leaves both indices exactly
as before (id-membership unchanged for every subject), while (b) a BM25
failure after `j` of the batch's chunks leaves all the fresh dense ids
stored with only the first `j` BM25 entries, so the id at position `j` is
dense-only and the cross-index invariant is broken when the error
surfaces. -/
theorem claim_C2_amended (tok : String → List String) (s : VSState)
    (subject_id document_id : String) (chunks : List Chunk) :
    ((addChunks tok s subject_id document_id chunks).2 = false →
      ∀ subj' c,
        (c ∈ bmIds (addChunks tok s subject_id document_id chunks).1 subj' ↔
          c ∈ bmIds s subj') ∧
        (c ∈ denseIds (addChunks tok s subject_id document_id chunks).1 subj' ↔
          c ∈ denseIds s subj')) ∧
    (∀ j, j < chunks.length →
      (mkIds document_id chunks.length).Nodup →
      (∀ i ∈ mkIds document_id chunks.length, i ∉ denseIds s subject_id) →
      (∀ c, c ∈ bmIds s subject_id ↔ c ∈ denseIds s subject_id) →
      ∃ c,
        c ∈ denseIds (addChunksBM25Interrupted tok s subject_id document_id chunks j)
          subject_id ∧
        c ∉ bmIds (addChunksBM25Interrupted tok s subject_id document_id chunks j)
          subject_id) := by
  constructor
  · intro hfail subj' c
    rw [addChunks_fail_state tok s subject_id document_id chunks hfail]
    exact ⟨mem_bmIds_ensure s.bm25Indices _ s.collections subject_id subj' c,
           mem_denseIds_ensure s.collections _ s.bm25Indices _ subj' c⟩
  · intro j hj hnodup hdisj hcross
    have hlen : (mkIds document_id chunks.length).length = chunks.length := by
      simp [mkIds]
    have hjlen : j < (mkIds document_id chunks.length).length := by omega
    have hcolIds :
        colIds (agetD (ensureKey s.collections (collectionName subject_id) ⟨[]⟩)
          (collectionName subject_id) ⟨[]⟩) = denseIds s subject_id := by
      rw [agetD_ensureKey_self]
      rfl
    have hany : (mkIds document_id chunks.length).any
        (fun i => i ∈ colIds (agetD (ensureKey s.collections (collectionName subject_id) ⟨[]⟩)
          (collectionName subject_id) ⟨[]⟩)) = false := by
      rw [List.any_eq_false]
      intro i hi
      rw [hcolIds]
      simpa using hdisj i hi
    have hne : ¬ chunks.isEmpty = true := by
      intro he
      rw [List.isEmpty_iff] at he
      subst he
      simp at hj
    have hrecs : (List.zipWith
        (fun i (tm : String × ChunkMeta) => DenseRecord.mk i tm.1 tm.2)
        (mkIds document_id chunks.length)
        ((chunks.map Chunk.text).zip (chunks.map (chunkMetaOf document_id)))).map
          DenseRecord.id = mkIds document_id chunks.length := by
      refine map_id_zipWith _ _ ?_
      simp [mkIds]
    unfold addChunksBM25Interrupted
    rw [if_neg hne]
    dsimp only []
    rw [if_neg (by rw [hany]; exact Bool.false_ne_true)]
    refine ⟨(mkIds document_id chunks.length).get ⟨j, hjlen⟩, ?_, ?_⟩
    · rw [denseIds_mk]
      unfold agetD
      rw [aget?_aset_self]
      show _ ∈ colIds ⟨_ ++ _⟩
      unfold colIds
      rw [List.map_append, hrecs]
      exact List.mem_append_right _ (List.get_mem _ j hjlen)
    · rw [bmIds_mk]
      rw [aget?_aset_self]
      show ¬ _ ∈ _
      rw [addFold_texts_keys]
      intro hor
      rcases hor with hbm | htake
      · rw [agetD_ensureKey_self] at hbm
        have hmem : (mkIds document_id chunks.length).get ⟨j, hjlen⟩ ∈ bmIds s subject_id := by
          rw [bmIds_eq_keys]
          exact hbm
        exact hdisj _ (List.get_mem _ j hjlen) ((hcross _).1 hmem)
      · rw [List.map_take, hrecs] at htake
        exact not_mem_take_of_nodup _ j hjlen hnodup htake

def c2Dup : VSState := (addChunks tokenizeSimple emptyVS "net" "doc" [c2Chunk]).1

/-- Witness for C2: a duplicate-id second add of `"doc"` fails and changes no
id-membership, and a BM25 interruption at `j = 0` on a fresh store leaves
`"doc_0"` dense-only. -/
theorem claim_C2_witness :
    (addChunks tokenizeSimple c2Dup "net" "doc" [c2Chunk]).2 = false ∧
    ("doc_0" ∈ bmIds (addChunks tokenizeSimple c2Dup "net" "doc" [c2Chunk]).1 "net" ↔
      "doc_0" ∈ bmIds c2Dup "net") ∧
    (∃ c,
      c ∈ denseIds (addChunksBM25Interrupted tokenizeSimple emptyVS "net" "doc" [c2Chunk] 0)
        "net" ∧
      c ∉ bmIds (addChunksBM25Interrupted tokenizeSimple emptyVS "net" "doc" [c2Chunk] 0)
        "net") := by
  have hfail : (addChunks tokenizeSimple c2Dup "net" "doc" [c2Chunk]).2 = false := by
    with_unfolding_all decide
  refine ⟨hfail,
    ((claim_C2_amended tokenizeSimple c2Dup "net" "doc" [c2Chunk]).1 hfail "net" "doc_0").1,
    ?_⟩
  refine (claim_C2_amended tokenizeSimple emptyVS "net" "doc" [c2Chunk]).2 0
    (by decide) (by with_unfolding_all decide) (by with_unfolding_all decide) ?_
  intro c
  exact Iff.rfl

/-! ## Claim C3: ordering of returned scores (counterexample) -/

def c3ChunkLow : Chunk :=
  { text := "alpha beta gamma", page := 1, filename := "f.pdf", importance_score := 1/2 }

def c3ChunkHigh : Chunk :=
  { text := "delta epsilon zeta", page := 1, filename := "f.pdf", importance_score := 2 }

def c3State : VSState :=
  (addChunks tokenizeSimple emptyVS "net" "doc" [c3ChunkLow, c3ChunkHigh]).1

def c3Result : SearchResult :=
  search tokenizeSimple id c3State "net" "q" 5 false false
    [("doc_0", 1/2), ("doc_1", 3/5)] none false

set_option maxRecDepth 2000 in
/-- C3, counterexample: on the unreranked path the matches are ordered by
descending `rrf_score`, but the returned `score` is `rrf · importance`, which
is not monotone in the rrf order: here the rrf scores come back descending
(`0.009836 > 0.009677`) while the final scores are strictly increasing
(`0.0049 < 0.0194`), refuting "scores are monotonically non-increasing". -/
theorem claim_C3_counterexample :
    c3Result.matchList.map SearchMatch.rrf_score = [2459/250000, 9677/1000000] ∧
    c3Result.matchList.map SearchMatch.score = [49/10000, 97/5000] ∧
    ¬ ((97 : ℚ)/5000 ≤ 49/10000) := by
  refine ⟨list_rat_eq_of_pair _ _ ?_, list_rat_eq_of_pair _ _ ?_, ?_⟩ <;>
    with_unfolding_all decide

/-! ## Claim C5: range of `vector_score` (counterexample) -/

def c5Chunk : Chunk := { text := "alpha beta gamma", page := 1, filename := "f.pdf" }

def c5State : VSState :=
  (addChunks tokenizeSimple emptyVS "net" "doc" [c5Chunk]).1

def c5Result : SearchResult :=
  search tokenizeSimple id c5State "net" "q" 5 false false [("doc_0", 3/2)] none false

set_option maxRecDepth 2000 in
/-- C5, counterexample: the ANN contract only bounds distances by `[0, 2]`,
and `similarity = 1 − distance`, so a valid distance of `1.5` yields the
returned `vector_score = −0.5 ∉ [0, 1]`, refuting the claimed range. -/
theorem claim_C5_counterexample :
    ((0 : ℚ) ≤ 3/2 ∧ (3 : ℚ)/2 ≤ 2) ∧
    c5Result.matchList.map SearchMatch.vector_score = [-(1 : ℚ)/2] ∧
    ¬ ((0 : ℚ) ≤ -(1 : ℚ)/2) := by
  refine ⟨⟨?_, ?_⟩, list_rat_eq_of_pair _ _ ?_, ?_⟩ <;> with_unfolding_all decide


/-! ## Provenance of returned matches through the search pipeline -/

/-- Every candidate `_rerank` returns keeps the `vector_score`, `rrf_score`
and `score` of one input candidate (reranking only reorders, truncates and
sets `rerank_score`). -/
theorem mem_rerankModel_fields (ce? : Option (String → String → ℚ))
    (predictFails : Bool) (query : String) (cands : List Candidate) (k : Nat) :
    ∀ r ∈ rerankModel ce? predictFails query cands k,
      ∃ c ∈ cands, r.vector_score = c.vector_score ∧ r.rrf_score = c.rrf_score ∧
        r.score = c.score := by
  intro r hr
  cases ce? with
  | none =>
    rw [show rerankModel none predictFails query cands k = cands.take k from rfl] at hr
    exact ⟨r, mem_take_of_mem hr, rfl, rfl, rfl⟩
  | some ce =>
    rw [show rerankModel (some ce) predictFails query cands k =
      (if cands.isEmpty then cands.take k
       else if predictFails then cands.take k
       else (sortByDesc (fun c => c.rerank_score.getD 0)
         (cands.map (fun c =>
           { c with rerank_score := some (ce query (strTake 512 c.text)) }))).take k)
      from rfl] at hr
    by_cases he : cands.isEmpty
    · rw [if_pos he] at hr
      exact ⟨r, mem_take_of_mem hr, rfl, rfl, rfl⟩
    · rw [if_neg he] at hr
      by_cases hf : predictFails
      · rw [if_pos hf] at hr
        exact ⟨r, mem_take_of_mem hr, rfl, rfl, rfl⟩
      · rw [if_neg hf] at hr
        have hr' := (mem_sortByDesc _ _ r).1 (mem_take_of_mem hr)
        rcases List.mem_map.1 hr' with ⟨c, hc, hrc⟩
        exact ⟨c, hc, by rw [← hrc], by rw [← hrc], by rw [← hrc]⟩

/-- Every returned match carries the `vector_score` and `rrf_score` of one
fused candidate. -/
theorem search_matches_cases (tok : String → List String) (lnq : ℚ → ℚ)
    (s : VSState) (subject_id query : String) (limit : Nat)
    (use_expansion use_reranking : Bool) (annResult : List (String × ℚ))
    (ce? : Option (String → String → ℚ)) (predictFails : Bool) :
    ∀ m ∈ (search tok lnq s subject_id query limit use_expansion use_reranking
        annResult ce? predictFails).matchList,
      ∃ cand ∈ candidatesOf
          (agetD (ensureKey s.collections (collectionName subject_id) ⟨[]⟩)
            (collectionName subject_id) ⟨[]⟩)
          (agetD (ensureKey s.bm25Indices subject_id emptyBM25) subject_id emptyBM25)
          annResult
          (bm25Search tok lnq
            (agetD (ensureKey s.bm25Indices subject_id emptyBM25) subject_id emptyBM25)
            (if use_expansion then expand query (some subject_id) else query)
            (min (limit * 4)
              (min (agetD (ensureKey s.collections (collectionName subject_id) ⟨[]⟩)
                (collectionName subject_id) ⟨[]⟩).records.length 20)))
          (min (limit * 4)
            (min (agetD (ensureKey s.collections (collectionName subject_id) ⟨[]⟩)
              (collectionName subject_id) ⟨[]⟩).records.length 20)),
        m.vector_score = cand.vector_score ∧ m.rrf_score = cand.rrf_score := by
  intro m hm
  unfold search at hm
  dsimp only [] at hm
  set sq := (if use_expansion then expand query (some subject_id) else query) with hsq
  split at hm
  · exact absurd hm (by simp)
  · rcases List.mem_map.1 hm with ⟨r, hr, hmr⟩
    have hfields : m.vector_score = r.vector_score ∧ m.rrf_score = r.rrf_score := by
      rw [← hmr]
      exact ⟨rfl, rfl⟩
    split at hr
    · rcases mem_rerankModel_fields _ _ _ _ _ r hr with ⟨c, hc, h1, h2, _⟩
      exact ⟨c, hc, hfields.1.trans h1, hfields.2.trans h2⟩
    · exact ⟨r, mem_take_of_mem hr, hfields.1, hfields.2⟩

/-- Values stored by the ANN half of `vector_docs` construction. -/
theorem vectorDocsFold_val (collection : Collection) (ann0 : List (String × ℚ)) :
    ∀ (ann : List (String × ℚ)) (acc : List (String × (String × ChunkMeta × ℚ))),
      (∀ pr ∈ ann, pr ∈ ann0) →
      (∀ p ∈ acc, p.2.2.2 = 0 ∨ ∃ pr ∈ ann0, p.2.2.2 = roundDp 4 (1 - pr.2)) →
      ∀ p ∈ ann.foldl
        (fun acc pr =>
          let rec? := collection.records.find? (fun r => r.id = pr.1)
          let txt := match rec? with | some r => r.text | none => ""
          let meta := match rec? with | some r => r.meta | none => defaultMeta
          aset acc pr.1 (txt, meta, roundDp 4 (1 - pr.2))) acc,
        p.2.2.2 = 0 ∨ ∃ pr ∈ ann0, p.2.2.2 = roundDp 4 (1 - pr.2)
  | [], acc, _, hacc, p, hp => hacc p hp
  | pr :: t, acc, hsub, hacc, p, hp => by
    refine vectorDocsFold_val collection ann0 t _
      (fun x hx => hsub x (List.mem_cons_of_mem _ hx)) ?_ p hp
    intro q hq
    rcases mem_aset_elim _ _ _ _ hq with hq | hq
    · right
      refine ⟨pr, hsub pr (List.mem_cons_self _ _), ?_⟩
      rw [hq]
    · exact hacc q hq

/-- Values stored by the BM25-only half of `vector_docs` construction are
`0.0` or inherited. -/
theorem addBmDocs_val (bm : BM25State) (P : ℚ → Prop) (h0 : P 0) :
    ∀ (bmR : List (String × ℚ)) (vd : List (String × (String × ChunkMeta × ℚ))),
      (∀ p ∈ vd, P p.2.2.2) →
      ∀ p ∈ addBmDocs bm bmR vd, P p.2.2.2
  | [], vd, hvd, p, hp => hvd p hp
  | pr :: t, vd, hvd, p, hp => by
    rw [addBmDocs, List.foldl_cons] at hp
    refine addBmDocs_val bm P h0 t _ ?_ p (by rw [addBmDocs]; exact hp)
    intro q hq
    by_cases hs : (aget? vd pr.1).isSome
    · rw [if_pos hs] at hq
      exact hvd q hq
    · rw [if_neg hs] at hq
      rcases mem_aset_elim _ _ _ _ hq with hq | hq
      · rw [hq]
        exact h0
      · exact hvd q hq

/-- Each candidate's `vector_score` is `0.0` or a rounded `1 − distance`. -/
theorem candidatesOf_vector_score (collection : Collection) (bm : BM25State)
    (ann bmR : List (String × ℚ)) (cc : Nat) :
    ∀ cand ∈ candidatesOf collection bm ann bmR cc,
      cand.vector_score = 0 ∨ ∃ pr ∈ ann, cand.vector_score = roundDp 4 (1 - pr.2) := by
  intro cand hcand
  unfold candidatesOf at hcand
  dsimp only [] at hcand
  rcases List.mem_filterMap.1 hcand with ⟨pr, _, hsome⟩
  cases hvd : aget? (addBmDocs bm bmR (vectorDocsFold collection ann)) pr.1 with
  | none => rw [hvd] at hsome; exact absurd hsome (by simp)
  | some tmv =>
    rw [hvd] at hsome
    have hc := Option.some.inj hsome
    have hmem := mem_of_aget?_eq_some _ _ _ hvd
    have hval := addBmDocs_val bm
      (fun v => v = 0 ∨ ∃ pr ∈ ann, v = roundDp 4 (1 - pr.2)) (Or.inl rfl)
      bmR (vectorDocsFold collection ann)
      (by
        intro p hp
        exact vectorDocsFold_val collection ann ann [] (fun x hx => hx)
          (by intro p hp; exact absurd hp (by simp)) p hp)
      (pr.1, tmv) hmem
    rw [← hc]
    exact hval

/-- C5, amended: under the ANN contract `distance ∈ [0, 2]`, every returned
`vector_score` lies in `[-1, 1]` (it is `0.0` for BM25-only candidates, else
`round(1 − distance, 4)`); the claimed range `[0, 1]` needs `distance ≤ 1`,
which the contract does not provide. -/
theorem claim_C5_amended (tok : String → List String) (lnq : ℚ → ℚ)
    (s : VSState) (subject_id query : String) (limit : Nat)
    (use_expansion use_reranking : Bool) (annResult : List (String × ℚ))
    (ce? : Option (String → String → ℚ)) (predictFails : Bool)
    (hdist : ∀ pr ∈ annResult, 0 ≤ pr.2 ∧ pr.2 ≤ 2) :
    ∀ m ∈ (search tok lnq s subject_id query limit use_expansion use_reranking
        annResult ce? predictFails).matchList,
      -1 ≤ m.vector_score ∧ m.vector_score ≤ 1 := by
  intro m hm
  rcases search_matches_cases tok lnq s subject_id query limit use_expansion
    use_reranking annResult ce? predictFails m hm with ⟨cand, hcand, hv, _⟩
  rw [hv]
  rcases candidatesOf_vector_score _ _ _ _ _ cand hcand with h0 | ⟨pr, hpr, heq⟩
  · rw [h0]
    constructor <;> norm_num
  · rw [heq]
    obtain ⟨hd0, hd2⟩ := hdist pr hpr
    have hlo : roundDp 4 (-1) ≤ roundDp 4 (1 - pr.2) := roundDp_mono 4 (by linarith)
    have hhi : roundDp 4 (1 - pr.2) ≤ roundDp 4 1 := roundDp_mono 4 (by linarith)
    have e1 : roundDp 4 (-1) = -1 := rat_eq_of_pair (by with_unfolding_all decide)
    have e2 : roundDp 4 (1 : ℚ) = 1 := rat_eq_of_pair (by with_unfolding_all decide)
    rw [e1] at hlo
    rw [e2] at hhi
    exact ⟨hlo, hhi⟩

/-- Witness for C5: the concrete store of the counterexample with a valid
distance `1.5` satisfies the amended bounds. -/
theorem claim_C5_witness :
    (∀ pr ∈ [(("doc_0" : String), (3/2 : ℚ))], 0 ≤ pr.2 ∧ pr.2 ≤ 2) ∧
    (∀ m ∈ (search tokenizeSimple id c5State "net" "q" 5 false false
        [("doc_0", 3/2)] none false).matchList,
      -1 ≤ m.vector_score ∧ m.vector_score ≤ 1) := by
  have hdist : ∀ pr ∈ [(("doc_0" : String), (3/2 : ℚ))], 0 ≤ pr.2 ∧ pr.2 ≤ 2 := by
    intro pr hpr
    rcases List.mem_singleton.1 hpr with rfl
    constructor <;> norm_num
  exact ⟨hdist, claim_C5_amended tokenizeSimple id c5State "net" "q" 5 false false
    [("doc_0", 3/2)] none false hdist⟩

/-! ## Claim C9: range of the fused rrf scores -/

theorem nodupKeys_iff_mapfst {α : Type} : ∀ (l : List (String × α)),
    NodupKeys l ↔ (l.map Prod.fst).Nodup
  | [] => by simp
  | p :: t => by
    rw [nodupKeys_cons, List.map_cons, List.nodup_cons, nodupKeys_iff_mapfst t]
    have hmem := mem_keys_iff_isSome t p.1
    constructor
    · rintro ⟨h1, h2⟩
      refine ⟨fun hm => ?_, h2⟩
      have hsome := hmem.1 hm
      rw [h1] at hsome
      simp at hsome
    · rintro ⟨h1, h2⟩
      refine ⟨?_, h2⟩
      cases hv : aget? t p.1 with
      | none => rfl
      | some v => exact absurd (hmem.2 (by rw [hv]; rfl)) h1

theorem insertByDesc_perm {α : Type} (key : α → ℚ) (x : α) :
    ∀ (l : List α), (insertByDesc key x l).Perm (x :: l)
  | [] => List.Perm.refl _
  | y :: t => by
    unfold insertByDesc
    by_cases h : key x ≤ key y
    · rw [if_pos h]
      exact ((insertByDesc_perm key x t).cons y).trans (List.Perm.swap x y t)
    · rw [if_neg h]

theorem sortByDesc_perm {α : Type} (key : α → ℚ) (l : List α) :
    (sortByDesc key l).Perm l := by
  suffices h : ∀ acc, ((l.foldl (fun acc x => insertByDesc key x acc) acc)).Perm (l ++ acc) by
    simpa using h []
  induction l with
  | nil => intro acc; simp
  | cons x t ih =>
    intro acc
    rw [List.foldl_cons]
    refine (ih (insertByDesc key x acc)).trans ?_
    refine (List.Perm.append_left t (insertByDesc_perm key x acc)).trans ?_
    exact List.perm_middle

theorem nodupKeys_foldl {β : Type} (f : List (String × ℚ) → β → List (String × ℚ))
    (hf : ∀ acc x, NodupKeys acc → NodupKeys (f acc x)) :
    ∀ (l : List β) (acc : List (String × ℚ)), NodupKeys acc → NodupKeys (l.foldl f acc)
  | [], _, h => h
  | x :: t, acc, h => nodupKeys_foldl f hf t (f acc x) (hf acc x h)

theorem nodup_keys_sort_take (scores : List (String × ℚ)) (limit : Nat)
    (h : NodupKeys scores) :
    (((sortByDesc Prod.snd scores).take limit).map Prod.fst).Nodup := by
  rw [List.map_take]
  refine List.Nodup.sublist (List.take_sublist _ _) ?_
  have hp := (sortByDesc_perm Prod.snd scores).map Prod.fst
  exact hp.nodup_iff.2 ((nodupKeys_iff_mapfst _).1 h)

theorem bm25Search_nodup_keys (tok : String → List String) (lnq : ℚ → ℚ)
    (s : BM25State) (query : String) (limit : Nat) :
    ((bm25Search tok lnq s query limit).map Prod.fst).Nodup := by
  unfold bm25Search
  split
  · simp
  · dsimp only []
    refine nodup_keys_sort_take _ _ ?_
    refine nodupKeys_foldl _ ?_ _ _ trivial
    intro acc term hacc
    cases hii : aget? s.inverted_index term with
    | none => exact hacc
    | some postings =>
      exact nodupKeys_foldl _ (fun acc2 pr hacc2 => nodupKeys_aset _ _ _ hacc2)
        postings acc hacc

theorem bm25Search_length_le (tok : String → List String) (lnq : ℚ → ℚ)
    (s : BM25State) (query : String) (limit : Nat) :
    (bm25Search tok lnq s query limit).length ≤ limit := by
  unfold bm25Search
  split
  · simp
  · dsimp only []
    rw [List.length_take]
    exact min_le_left _ _

theorem mem_enum1 {α : Type} (l : List α) (rp : Nat × α) (h : rp ∈ enum1 l) :
    1 ≤ rp.1 ∧ rp.1 ≤ l.length ∧ rp.2 ∈ l := by
  obtain ⟨h1, h2⟩ := List.of_mem_zip h
  rcases List.mem_map.1 h1 with ⟨i, hi, he⟩
  rw [List.mem_range] at hi
  refine ⟨?_, ?_, h2⟩ <;> omega

theorem pairwise_zip_ne {α : Type} : ∀ (rs : List Nat) (l : List (String × α)),
    (l.map Prod.fst).Nodup →
    (rs.zip l).Pairwise (fun a b => a.2.1 ≠ b.2.1)
  | [], l, _ => by simp
  | r :: rs, [], _ => by simp
  | r :: rs, p :: t, h => by
    rw [List.zip_cons_cons]
    rw [List.map_cons, List.nodup_cons] at h
    refine List.pairwise_cons.2 ⟨?_, pairwise_zip_ne rs t h.2⟩
    intro b hb heq
    exact h.1 (heq ▸ List.mem_map_of_mem Prod.fst (List.of_mem_zip hb).2)

theorem pairwise_enum1_ne {α : Type} (l : List (String × α))
    (h : (l.map Prod.fst).Nodup) :
    (enum1 l).Pairwise (fun a b => a.2.1 ≠ b.2.1) :=
  pairwise_zip_ne _ l h

/-- After the vector half of the fusion fold, every stored value lies in
`[0.6/80, 0.6/61]`. -/
theorem rrfFold1_bounds :
    ∀ (rps : List (Nat × (String × ℚ))) (acc : List (String × ℚ)),
      rps.Pairwise (fun a b => a.2.1 ≠ b.2.1) →
      (∀ rp ∈ rps, 1 ≤ rp.1 ∧ rp.1 ≤ 20) →
      (∀ rp ∈ rps, aget? acc rp.2.1 = none) →
      (∀ k v, (k, v) ∈ acc → 3/400 ≤ v ∧ v ≤ 3/305) →
      ∀ k v, (k, v) ∈ rps.foldl
        (fun acc rp => aset acc rp.2.1 (agetD acc rp.2.1 0 + (3/5) / (60 + (rp.1 : ℚ)))) acc →
        3/400 ≤ v ∧ v ≤ 3/305
  | [], _, _, _, _, hacc, k, v, hm => hacc k v hm
  | rp :: t, acc, hpw, hrank, hfresh, hacc, k, v, hm => by
    rw [List.foldl_cons] at hm
    obtain ⟨hr1, hr20⟩ := hrank rp (List.mem_cons_self _ _)
    have hfr := hfresh rp (List.mem_cons_self _ _)
    have h61 : (61 : ℚ) ≤ 60 + (rp.1 : ℚ) := by
      have hc : (1 : ℚ) ≤ (rp.1 : ℚ) := by exact_mod_cast hr1
      linarith
    have h80 : 60 + (rp.1 : ℚ) ≤ 80 := by
      have hc : (rp.1 : ℚ) ≤ 20 := by exact_mod_cast hr20
      linarith
    have hval : 3/400 ≤ agetD acc rp.2.1 0 + (3/5) / (60 + (rp.1 : ℚ)) ∧
        agetD acc rp.2.1 0 + (3/5) / (60 + (rp.1 : ℚ)) ≤ 3/305 := by
      rw [agetD, hfr]
      simp only [Option.getD_none, zero_add]
      constructor
      · calc (3 : ℚ)/400 = (3/5) / 80 := by norm_num
          _ ≤ (3/5) / (60 + (rp.1 : ℚ)) :=
            div_le_div_of_nonneg_left (by norm_num) (by linarith) h80
      · calc (3 : ℚ)/5 / (60 + (rp.1 : ℚ)) ≤ (3/5) / 61 :=
            div_le_div_of_nonneg_left (by norm_num) (by norm_num) h61
          _ = 3/305 := by norm_num
    refine rrfFold1_bounds t _ (List.pairwise_cons.1 hpw).2
      (fun x hx => hrank x (List.mem_cons_of_mem _ hx)) ?_ ?_ k v hm
    · intro x hx
      rw [aget?_aset_ne _ _ _ _ ((List.pairwise_cons.1 hpw).1 x hx)]
      exact hfresh x (List.mem_cons_of_mem _ hx)
    · intro k' v' hm'
      rcases mem_aset_elim _ _ _ _ hm' with he | hold
      · obtain ⟨hk, hv⟩ := Prod.mk.injEq .. ▸ he
        rw [hv]
        exact hval
      · exact hacc k' v' hold

/-- After the BM25 half of the fusion fold over the vector-half output,
every stored value lies in `[0.4/80, (0.6 + 0.4)/61]`. -/
theorem rrfFold2_bounds :
    ∀ (rps : List (Nat × (String × ℚ))) (acc : List (String × ℚ)),
      rps.Pairwise (fun a b => a.2.1 ≠ b.2.1) →
      (∀ rp ∈ rps, 1 ≤ rp.1 ∧ rp.1 ≤ 20) →
      (∀ rp ∈ rps, aget? acc rp.2.1 = none ∨
        ∃ x, aget? acc rp.2.1 = some x ∧ 3/400 ≤ x ∧ x ≤ 3/305) →
      (∀ k v, (k, v) ∈ acc → 1/200 ≤ v ∧ v ≤ 1/61) →
      ∀ k v, (k, v) ∈ rps.foldl
        (fun acc rp => aset acc rp.2.1 (agetD acc rp.2.1 0 + (2/5) / (60 + (rp.1 : ℚ)))) acc →
        1/200 ≤ v ∧ v ≤ 1/61
  | [], _, _, _, _, hacc, k, v, hm => hacc k v hm
  | rp :: t, acc, hpw, hrank, hopt, hacc, k, v, hm => by
    rw [List.foldl_cons] at hm
    obtain ⟨hr1, hr20⟩ := hrank rp (List.mem_cons_self _ _)
    have h61 : (61 : ℚ) ≤ 60 + (rp.1 : ℚ) := by
      have hc : (1 : ℚ) ≤ (rp.1 : ℚ) := by exact_mod_cast hr1
      linarith
    have h80 : 60 + (rp.1 : ℚ) ≤ 80 := by
      have hc : (rp.1 : ℚ) ≤ 20 := by exact_mod_cast hr20
      linarith
    have hstep_lo : (1 : ℚ)/200 ≤ (2/5) / (60 + (rp.1 : ℚ)) := by
      calc (1 : ℚ)/200 = (2/5) / 80 := by norm_num
        _ ≤ (2/5) / (60 + (rp.1 : ℚ)) :=
          div_le_div_of_nonneg_left (by norm_num) (by linarith) h80
    have hstep_hi : (2 : ℚ)/5 / (60 + (rp.1 : ℚ)) ≤ 2/305 := by
      calc (2 : ℚ)/5 / (60 + (rp.1 : ℚ)) ≤ (2/5) / 61 :=
          div_le_div_of_nonneg_left (by norm_num) (by norm_num) h61
        _ = 2/305 := by norm_num
    have hval : 1/200 ≤ agetD acc rp.2.1 0 + (2/5) / (60 + (rp.1 : ℚ)) ∧
        agetD acc rp.2.1 0 + (2/5) / (60 + (rp.1 : ℚ)) ≤ 1/61 := by
      rcases hopt rp (List.mem_cons_self _ _) with hnone | ⟨x, hx, hx1, hx2⟩
      · rw [agetD, hnone]
        simp only [Option.getD_none, zero_add]
        constructor
        · exact hstep_lo
        · linarith [show (2 : ℚ)/305 ≤ 1/61 from by norm_num]
      · rw [agetD, hx]
        simp only [Option.getD_some]
        constructor
        · linarith [show (1 : ℚ)/200 ≤ 3/400 from by norm_num,
            show (0 : ℚ) < (2/5) / (60 + (rp.1 : ℚ)) from by positivity]
        · linarith [show (3 : ℚ)/305 + 2/305 = 1/61 from by norm_num]
    refine rrfFold2_bounds t _ (List.pairwise_cons.1 hpw).2
      (fun x hx => hrank x (List.mem_cons_of_mem _ hx)) ?_ ?_ k v hm
    · intro x hx
      rw [aget?_aset_ne _ _ _ _ ((List.pairwise_cons.1 hpw).1 x hx)]
      exact hopt x (List.mem_cons_of_mem _ hx)
    · intro k' v' hm'
      rcases mem_aset_elim _ _ _ _ hm' with he | hold
      · obtain ⟨hk, hv⟩ := Prod.mk.injEq .. ▸ he
        rw [hv]
        exact hval
      · exact hacc k' v' hold

/-- Every value of the reciprocal-rank fusion lies in `[0.4/80, 1/61]`, given
distinct ids and at most 20 entries per ranked input. -/
theorem rrfFusion_val_bounds (vr br : List (String × ℚ))
    (hvrN : (vr.map Prod.fst).Nodup) (hvrL : vr.length ≤ 20)
    (hbrN : (br.map Prod.fst).Nodup) (hbrL : br.length ≤ 20) :
    ∀ k v, (k, v) ∈ rrfFusion vr br → 1/200 ≤ v ∧ v ≤ 1/61 := by
  unfold rrfFusion
  dsimp only []
  intro k v hm
  have hf1 : ∀ k v, (k, v) ∈ (enum1 vr).foldl
      (fun acc rp => aset acc rp.2.1 (agetD acc rp.2.1 0 + (3/5) / (60 + (rp.1 : ℚ)))) [] →
      3/400 ≤ v ∧ v ≤ 3/305 := by
    refine rrfFold1_bounds _ [] (pairwise_enum1_ne vr hvrN) ?_ ?_ ?_
    · intro rp hrp
      obtain ⟨h1, h2, _⟩ := mem_enum1 _ _ hrp
      exact ⟨h1, le_trans h2 hvrL⟩
    · intro rp _
      rfl
    · intro k v hm
      exact absurd hm (by simp)
  refine rrfFold2_bounds (enum1 br) _ (pairwise_enum1_ne br hbrN) ?_ ?_ ?_ k v hm
  · intro rp hrp
    obtain ⟨h1, h2, _⟩ := mem_enum1 _ _ hrp
    exact ⟨h1, le_trans h2 hbrL⟩
  · intro rp _
    cases hv : aget? ((enum1 vr).foldl
        (fun acc rp => aset acc rp.2.1 (agetD acc rp.2.1 0 + (3/5) / (60 + (rp.1 : ℚ)))) [])
        rp.2.1 with
    | none => exact Or.inl rfl
    | some x =>
      exact Or.inr ⟨x, rfl, (hf1 rp.2.1 x (mem_of_aget?_eq_some _ _ _ hv)).1,
        (hf1 rp.2.1 x (mem_of_aget?_eq_some _ _ _ hv)).2⟩
  · intro k' v' hm'
    obtain ⟨hl, hh⟩ := hf1 k' v' hm'
    constructor
    · linarith [show (1 : ℚ)/200 ≤ 3/400 from by norm_num]
    · linarith [show (3 : ℚ)/305 ≤ 1/61 from by norm_num]

/-- Every candidate's `rrf_score` is strictly between `0` and `1/60`. -/
theorem candidatesOf_rrf_bounds (collection : Collection) (bm : BM25State)
    (ann bmR : List (String × ℚ)) (cc : Nat)
    (hannN : (ann.map Prod.fst).Nodup) (hannL : ann.length ≤ 20)
    (hbmN : (bmR.map Prod.fst).Nodup) (hbmL : bmR.length ≤ 20) :
    ∀ cand ∈ candidatesOf collection bm ann bmR cc,
      0 < cand.rrf_score ∧ cand.rrf_score < 1/60 := by
  intro cand hcand
  unfold candidatesOf at hcand
  dsimp only [] at hcand
  rcases List.mem_filterMap.1 hcand with ⟨pr, hpr, hsome⟩
  have hfused : pr ∈ rrfFusion (ann.map (fun pr => (pr.1, 1 - pr.2))) bmR :=
    (mem_sortByDesc _ _ pr).1 (mem_take_of_mem hpr)
  have hvrN : ((ann.map (fun pr => (pr.1, 1 - pr.2))).map Prod.fst).Nodup := by
    rw [List.map_map]
    exact hannN
  have hvrL : (ann.map (fun pr => (pr.1, 1 - pr.2))).length ≤ 20 := by
    rw [List.length_map]
    exact hannL
  have hbounds := rrfFusion_val_bounds _ _ hvrN hvrL hbmN hbmL pr.1 pr.2 hfused
  cases hvd : aget? (addBmDocs bm bmR (vectorDocsFold collection ann)) pr.1 with
  | none =>
    rw [hvd] at hsome
    exact absurd hsome (by simp)
  | some tmv =>
    rw [hvd] at hsome
    have hc := Option.some.inj hsome
    have hrrf : cand.rrf_score = roundDp 6 pr.2 := by rw [← hc]
    rw [hrrf]
    constructor
    · have h1 : roundDp 6 (1/200 : ℚ) ≤ roundDp 6 pr.2 := roundDp_mono 6 hbounds.1
      have e1 : roundDp 6 (1/200 : ℚ) = 1/200 := rat_eq_of_pair (by with_unfolding_all decide)
      rw [e1] at h1
      linarith [show (0 : ℚ) < 1/200 from by norm_num]
    · have h2 : roundDp 6 pr.2 ≤ roundDp 6 (1/61 : ℚ) := roundDp_mono 6 hbounds.2
      have e2 : roundDp 6 (1/61 : ℚ) = 16393/1000000 :=
        rat_eq_of_pair (by with_unfolding_all decide)
      rw [e2] at h2
      linarith [show (16393 : ℚ)/1000000 < 1/60 from by norm_num]

/-- C9: every returned chunk's `rrf_score` satisfies
`0 < rrf_score < (0.6 + 0.4)/RRF_K = 1/60`, under the ANN contract (distinct
result ids, at most `candidate_count ≤ 20` results). -/
theorem claim_C9_rrf_bounds (tok : String → List String) (lnq : ℚ → ℚ)
    (s : VSState) (subject_id query : String) (limit : Nat)
    (use_expansion use_reranking : Bool) (annResult : List (String × ℚ))
    (ce? : Option (String → String → ℚ)) (predictFails : Bool)
    (hnd : (annResult.map Prod.fst).Nodup)
    (hlen : annResult.length ≤ min (limit * 4) (min (denseIds s subject_id).length 20)) :
    ∀ m ∈ (search tok lnq s subject_id query limit use_expansion use_reranking
        annResult ce? predictFails).matchList,
      0 < m.rrf_score ∧ m.rrf_score < 1/60 := by
  intro m hm
  rcases search_matches_cases tok lnq s subject_id query limit use_expansion
    use_reranking annResult ce? predictFails m hm with ⟨cand, hcand, _, hrrf⟩
  rw [hrrf]
  refine candidatesOf_rrf_bounds _ _ _ _ _ hnd ?_ ?_ ?_ cand hcand
  · exact le_trans hlen (le_trans (min_le_right _ _) (min_le_right _ _))
  · exact bm25Search_nodup_keys _ _ _ _ _
  · exact le_trans (bm25Search_length_le _ _ _ _ _)
      (le_trans (min_le_right _ _) (min_le_right _ _))

def c9Chunk : Chunk := { text := "alpha beta gamma", page := 1, filename := "f.pdf" }

def c9State : VSState := (addChunks tokenizeSimple emptyVS "net" "doc" [c9Chunk]).1

/-- Witness for C9: a one-document store queried with one valid ANN result. -/
theorem claim_C9_witness :
    (([(("doc_0" : String), (1/2 : ℚ))].map Prod.fst).Nodup) ∧
    ([(("doc_0" : String), (1/2 : ℚ))].length ≤
      min (5 * 4) (min (denseIds c9State "net").length 20)) ∧
    (∀ m ∈ (search tokenizeSimple id c9State "net" "q" 5 false false
        [("doc_0", 1/2)] none false).matchList,
      0 < m.rrf_score ∧ m.rrf_score < 1/60) := by
  have h1 : (([(("doc_0" : String), (1/2 : ℚ))]).map Prod.fst).Nodup := by
    with_unfolding_all decide
  have h2 : [(("doc_0" : String), (1/2 : ℚ))].length ≤
      min (5 * 4) (min (denseIds c9State "net").length 20) := by
    with_unfolding_all decide
  exact ⟨h1, h2, claim_C9_rrf_bounds tokenizeSimple id c9State "net" "q" 5 false false
    [("doc_0", 1/2)] none false h1 h2⟩

/-! ## Claim C3: length bound and ordering of the returned matches -/

theorem rerankModel_length_le (ce? : Option (String → String → ℚ))
    (predictFails : Bool) (query : String) (cands : List Candidate) (k : Nat) :
    (rerankModel ce? predictFails query cands k).length ≤ k := by
  cases ce? with
  | none =>
    rw [show rerankModel none predictFails query cands k = cands.take k from rfl,
      List.length_take]
    exact min_le_left _ _
  | some ce =>
    rw [show rerankModel (some ce) predictFails query cands k =
      (if cands.isEmpty then cands.take k
       else if predictFails then cands.take k
       else (sortByDesc (fun c => c.rerank_score.getD 0)
         (cands.map (fun c =>
           { c with rerank_score := some (ce query (strTake 512 c.text)) }))).take k)
      from rfl]
    split_ifs <;> (rw [List.length_take]; exact min_le_left _ _)

theorem pairwise_of_length_le_one {α : Type} (R : α → α → Prop) :
    ∀ (l : List α), l.length ≤ 1 → l.Pairwise R
  | [], _ => List.Pairwise.nil
  | [a], _ => by simp
  | a :: b :: t, h => absurd h (by simp)

/-- `keysDesc_filterMap` through a monotone transformation of the key. -/
theorem keysDesc_filterMap_mono {α β : Type} (key : α → ℚ) (key' : β → ℚ)
    (g : ℚ → ℚ) (hg : ∀ x y, x ≤ y → g x ≤ g y)
    (f : α → Option β) (l : List α)
    (hf : ∀ a b, f a = some b → key' b = g (key a))
    (h : KeysDesc key l) : KeysDesc key' (l.filterMap f) := by
  induction l with
  | nil => simp [KeysDesc]
  | cons y t ih =>
    rcases (List.pairwise_cons.1 h) with ⟨hy, ht⟩
    rcases hfy : f y with _ | b
    · rw [List.filterMap_cons_none hfy]
      exact ih ht
    · rw [List.filterMap_cons_some hfy]
      refine List.pairwise_cons.2 ⟨?_, ih ht⟩
      intro z hz
      rcases List.mem_filterMap.1 hz with ⟨a, ha, hfa⟩
      rw [hf a z hfa, hf y b hfy]
      exact hg _ _ (hy a ha)

/-- The candidate pool is ordered by non-increasing `rrf_score`. -/
theorem candidatesOf_rrf_sorted (collection : Collection) (bm : BM25State)
    (ann bmR : List (String × ℚ)) (cc : Nat) :
    KeysDesc Candidate.rrf_score (candidatesOf collection bm ann bmR cc) := by
  unfold candidatesOf
  dsimp only []
  refine keysDesc_filterMap_mono Prod.snd Candidate.rrf_score (roundDp 6)
    (fun x y h => roundDp_mono 6 h) _ _ ?_
    (keysDesc_take _ _ _ (keysDesc_sortByDesc _ _))
  intro a b hab
  cases hvd : aget? (addBmDocs bm bmR (vectorDocsFold collection ann)) a.1 with
  | none =>
    rw [hvd] at hab
    exact absurd hab (by simp)
  | some tmv =>
    rw [hvd] at hab
    have hb := Option.some.inj hab
    rw [← hb]

/-- The reranked branch of `search` maps a list sorted by `rerank_score`
into matches sorted by final score. -/
theorem reranked_map_pairwise (ce : String → String → ℚ) (query : String)
    (cands : List Candidate) (limit : Nat) :
    (((sortByDesc (fun c => c.rerank_score.getD 0)
        (cands.map (fun c =>
          { c with rerank_score := some (ce query (strTake 512 c.text)) }))).take limit).map
      (fun r => SearchMatch.mk r.text r.meta
        (roundDp 4 (match r.rerank_score with | some rs => rs | none => r.score))
        r.vector_score r.rrf_score)).Pairwise (fun a b => b.score ≤ a.score) := by
  rw [List.pairwise_map]
  have hsorted : KeysDesc (fun c => c.rerank_score.getD 0)
      ((sortByDesc (fun c => c.rerank_score.getD 0)
        (cands.map (fun c =>
          { c with rerank_score := some (ce query (strTake 512 c.text)) }))).take limit) :=
    keysDesc_take _ _ _ (keysDesc_sortByDesc _ _)
  refine List.Pairwise.imp_of_mem ?_ hsorted
  intro a b ha hb hab
  have hsa : ∃ rs, a.rerank_score = some rs := by
    have hma := (mem_sortByDesc _ _ a).1 (mem_take_of_mem ha)
    rcases List.mem_map.1 hma with ⟨c, _, hc⟩
    exact ⟨ce query (strTake 512 c.text), by rw [← hc]⟩
  have hsb : ∃ rs, b.rerank_score = some rs := by
    have hmb := (mem_sortByDesc _ _ b).1 (mem_take_of_mem hb)
    rcases List.mem_map.1 hmb with ⟨c, _, hc⟩
    exact ⟨ce query (strTake 512 c.text), by rw [← hc]⟩
  obtain ⟨rsa, hrsa⟩ := hsa
  obtain ⟨rsb, hrsb⟩ := hsb
  show roundDp 4 (match b.rerank_score with
    | some rs => rs
    | none => b.score) ≤ roundDp 4 (match a.rerank_score with
    | some rs => rs
    | none => a.score)
  rw [hrsa, hrsb]
  have hab2 : rsb ≤ rsa := by
    dsimp only [] at hab
    rw [hrsa, hrsb] at hab
    simpa using hab
  exact roundDp_mono 4 hab2

/-- C3, amended: `search` returns at most `limit` matches.  On the
successfully reranked path the matches are sorted by non-increasing final
score; on every other path they are sorted by non-increasing `rrf_score`
only — the returned `score = round6(rrf · importance)` there need not be
monotone, as the counterexample shows. -/
theorem claim_C3_amended (tok : String → List String) (lnq : ℚ → ℚ)
    (s : VSState) (subject_id query : String) (limit : Nat)
    (use_expansion use_reranking : Bool) (annResult : List (String × ℚ))
    (ce? : Option (String → String → ℚ)) (predictFails : Bool) :
    ((search tok lnq s subject_id query limit use_expansion use_reranking
        annResult ce? predictFails).matchList.length ≤ limit) ∧
    (use_reranking = true → ce?.isSome = true → predictFails = false →
      (search tok lnq s subject_id query limit use_expansion use_reranking
        annResult ce? predictFails).matchList.Pairwise
        (fun a b => b.score ≤ a.score)) ∧
    ((use_reranking = false ∨ ce? = none ∨ predictFails = true) →
      (search tok lnq s subject_id query limit use_expansion use_reranking
        annResult ce? predictFails).matchList.Pairwise
        (fun a b => b.rrf_score ≤ a.rrf_score)) := by
  refine ⟨?_, ?_, ?_⟩
  · unfold search
    dsimp only []
    set sq := (if use_expansion then expand query (some subject_id) else query) with hsq
    split
    · simp
    · rw [List.length_map]
      split
      · exact rerankModel_length_le _ _ _ _ _
      · rw [List.length_take]
        exact min_le_left _ _
  · intro hur hce hpf
    unfold search
    dsimp only []
    set sq := (if use_expansion then expand query (some subject_id) else query) with hsq
    split
    · simp
    · split
      next hcond =>
        simp only [Bool.and_eq_true, decide_eq_true_eq] at hcond
        obtain ⟨⟨_, _⟩, hlen1⟩ := hcond
        cases ce? with
        | none => simp at hce
        | some ce =>
          subst hpf
          have hne : ¬ (candidatesOf
              (agetD (ensureKey s.collections (collectionName subject_id) ⟨[]⟩)
                (collectionName subject_id) ⟨[]⟩)
              (agetD (ensureKey s.bm25Indices subject_id emptyBM25) subject_id emptyBM25)
              annResult
              (bm25Search tok lnq
                (agetD (ensureKey s.bm25Indices subject_id emptyBM25) subject_id emptyBM25)
                sq
                (min (limit * 4)
                  (min (agetD (ensureKey s.collections (collectionName subject_id) ⟨[]⟩)
                    (collectionName subject_id) ⟨[]⟩).records.length 20)))
              (min (limit * 4)
                (min (agetD (ensureKey s.collections (collectionName subject_id) ⟨[]⟩)
                  (collectionName subject_id) ⟨[]⟩).records.length 20))).isEmpty = true := by
            intro he
            rw [List.isEmpty_iff] at he
            rw [he] at hlen1
            simp at hlen1
          rw [show ∀ (cands : List Candidate), rerankModel (some ce) false query cands limit =
            (if cands.isEmpty then cands.take limit
             else if (false : Bool) then cands.take limit
             else (sortByDesc (fun c => c.rerank_score.getD 0)
               (cands.map (fun c =>
                 { c with rerank_score := some (ce query (strTake 512 c.text)) }))).take limit)
            from fun _ => rfl]
          rw [if_neg hne, if_neg (by simp)]
          exact reranked_map_pairwise ce query _ limit
      next hcond =>
        rw [List.pairwise_map]
        refine pairwise_of_length_le_one _ _ ?_
        rw [List.length_take]
        refine le_trans (min_le_right _ _) ?_
        simp only [Bool.and_eq_true, decide_eq_true_eq, not_and, not_lt] at hcond
        exact hcond ⟨hur, hce⟩
  · intro hdisj
    unfold search
    dsimp only []
    set sq := (if use_expansion then expand query (some subject_id) else query) with hsq
    split
    · simp
    · have hrrf : ∀ (cands : List Candidate) (k : Nat),
          KeysDesc Candidate.rrf_score cands →
          ((cands.take k).map (fun r =>
            SearchMatch.mk r.text r.meta
              (roundDp 4 (match r.rerank_score with
                | some rs => rs
                | none => r.score)) r.vector_score r.rrf_score)).Pairwise
            (fun a b => b.rrf_score ≤ a.rrf_score) := by
        intro cands k hk
        rw [List.pairwise_map]
        exact keysDesc_take _ _ _ hk
      split
      next hcond =>
        simp only [Bool.and_eq_true, decide_eq_true_eq] at hcond
        obtain ⟨⟨hur, hsome⟩, _⟩ := hcond
        cases ce? with
        | none => simp at hsome
        | some ce =>
          rcases hdisj with h | h | h
          · rw [hur] at h
            exact absurd h (by simp)
          · exact absurd h (by simp)
          · subst h
            rw [show ∀ (cands : List Candidate), rerankModel (some ce) true query cands limit =
              (if cands.isEmpty then cands.take limit
               else if (true : Bool) then cands.take limit
               else (sortByDesc (fun c => c.rerank_score.getD 0)
                 (cands.map (fun c =>
                   { c with rerank_score := some (ce query (strTake 512 c.text)) }))).take limit)
              from fun _ => rfl]
            by_cases he : (candidatesOf
                (agetD (ensureKey s.collections (collectionName subject_id) ⟨[]⟩)
                  (collectionName subject_id) ⟨[]⟩)
                (agetD (ensureKey s.bm25Indices subject_id emptyBM25) subject_id emptyBM25)
                annResult
                (bm25Search tok lnq
                  (agetD (ensureKey s.bm25Indices subject_id emptyBM25) subject_id emptyBM25)
                  sq
                  (min (limit * 4)
                    (min (agetD (ensureKey s.collections (collectionName subject_id) ⟨[]⟩)
                      (collectionName subject_id) ⟨[]⟩).records.length 20)))
                (min (limit * 4)
                  (min (agetD (ensureKey s.collections (collectionName subject_id) ⟨[]⟩)
                    (collectionName subject_id) ⟨[]⟩).records.length 20))).isEmpty
            · rw [if_pos he]
              exact hrrf _ _ (candidatesOf_rrf_sorted _ _ _ _ _)
            · rw [if_neg he, if_pos rfl]
              exact hrrf _ _ (candidatesOf_rrf_sorted _ _ _ _ _)
      next hcond =>
        exact hrrf _ _ (candidatesOf_rrf_sorted _ _ _ _ _)

/-- Witness for C3: the counterexample's concrete search instance satisfies
the amended length bound and the unreranked `rrf_score` ordering. -/
theorem claim_C3_witness :
    ((search tokenizeSimple id c3State "net" "q" 5 false false
        [("doc_0", 1/2), ("doc_1", 3/5)] none false).matchList.length ≤ 5) ∧
    (search tokenizeSimple id c3State "net" "q" 5 false false
        [("doc_0", 1/2), ("doc_1", 3/5)] none false).matchList.Pairwise
      (fun a b => b.rrf_score ≤ a.rrf_score) :=
  ⟨(claim_C3_amended tokenizeSimple id c3State "net" "q" 5 false false
      [("doc_0", 1/2), ("doc_1", 3/5)] none false).1,
   (claim_C3_amended tokenizeSimple id c3State "net" "q" 5 false false
      [("doc_0", 1/2), ("doc_1", 3/5)] none false).2.2 (Or.inl rfl)⟩

/-! ## Claim C1: the restricted cross-index invariant -/

/-- Collection names on which `name ∘ recover` round-trips: exactly those
whose recovered subject maps back to the same collection. -/
def GoodName (cname : String) : Prop :=
  collectionName (recoverSubject cname) = cname

theorem goodName_of_goodSubject (subj : String) (h : GoodSubject subj) :
    GoodName (collectionName subj) := by
  unfold GoodName
  rw [h]

theorem goodSubject_of_goodName (cname : String) (h : GoodName cname) :
    GoodSubject (recoverSubject cname) := by
  unfold GoodSubject
  rw [h]

theorem goodSubject_unique {s1 s2 : String} (h1 : GoodSubject s1)
    (h2 : GoodSubject s2) (he : collectionName s1 = collectionName s2) :
    s1 = s2 := by
  have hc := congrArg recoverSubject he
  rwa [h1, h2] at hc

/-- The induction invariant for C1: every cached collection name round-trips,
every BM25 `doc_texts` map has distinct keys, and round-tripping subjects
have id-equal indices. -/
structure VInv (s : VSState) : Prop where
  good_names : ∀ cname ∈ s.collections.map Prod.fst, GoodName cname
  nd_texts : ∀ subj bm, aget? s.bm25Indices subj = some bm → NodupKeys bm.doc_texts
  cross : ∀ subj, GoodSubject subj → ∀ c, c ∈ bmIds s subj ↔ c ∈ denseIds s subj

theorem vinv_empty : VInv emptyVS := by
  refine ⟨?_, ?_, ?_⟩
  · intro cname h
    exact absurd h (by simp [emptyVS])
  · intro subj bm h
    exact absurd h (by simp [emptyVS, aget?])
  · intro subj _ c
    exact Iff.rfl

theorem mem_keys_ensureKey {α : Type} (l : List (String × α)) (k0 : String)
    (d : α) (k : String) (h : k ∈ (ensureKey l k0 d).map Prod.fst) :
    k = k0 ∨ k ∈ l.map Prod.fst := by
  unfold ensureKey at h
  by_cases hs : (aget? l k0).isSome
  · rw [if_pos hs] at h
    exact Or.inr h
  · rw [if_neg hs, List.map_append] at h
    rcases List.mem_append.1 h with h1 | h1
    · exact Or.inr h1
    · simp at h1
      exact Or.inl h1

theorem aget?_ensureKey_cases {α : Type} (l : List (String × α)) (k0 : String)
    (d : α) (k : String) (v : α) (h : aget? (ensureKey l k0 d) k = some v) :
    aget? l k = some v ∨ v = d := by
  unfold ensureKey at h
  by_cases hs : (aget? l k0).isSome
  · rw [if_pos hs] at h
    exact Or.inl h
  · rw [if_neg hs, aget?_append] at h
    cases hv : aget? l k with
    | some w =>
      rw [hv] at h
      have h2 : some w = some v := h
      exact Or.inl h2
    | none =>
      rw [hv] at h
      dsimp only [] at h
      rw [aget?_cons] at h
      by_cases hk : k0 = k
      · rw [if_pos hk] at h
        exact Or.inr (Option.some.inj h).symm
      · rw [if_neg hk] at h
        exact absurd h (by simp)

/-- The `add_document` loop keeps the `doc_texts` keys distinct. -/
theorem addFold_texts_nodup (tok : String → List String) :
    ∀ (recs : List DenseRecord) (b : BM25State), NodupKeys b.doc_texts →
      NodupKeys ((recs.foldl (fun b r => addDocument tok b r.id r.text r.meta) b).doc_texts)
  | [], _, h => h
  | r :: t, b, h => by
    rw [List.foldl_cons]
    refine addFold_texts_nodup tok t _ ?_
    rw [addDocument_doc_texts]
    exact nodupKeys_aset _ _ _ h

theorem removeDoc_texts_nodup (tok : String → List String) (bm : BM25State)
    (i : String) (h : NodupKeys bm.doc_texts) :
    NodupKeys (removeDocument tok bm i).doc_texts := by
  cases hv : aget? bm.doc_texts i with
  | none =>
    rw [removeDocument_noop tok bm i hv]
    exact h
  | some tx =>
    rw [removeDocument_doc_texts tok bm i tx hv]
    exact nodupKeys_aerase _ _ h

theorem removeDoc_texts_keys (tok : String → List String) (bm : BM25State)
    (i : String) (h : NodupKeys bm.doc_texts) (c : String) :
    c ∈ (removeDocument tok bm i).doc_texts.map Prod.fst ↔
      c ∈ bm.doc_texts.map Prod.fst ∧ c ≠ i := by
  cases hv : aget? bm.doc_texts i with
  | none =>
    rw [removeDocument_noop tok bm i hv]
    constructor
    · intro hc
      refine ⟨hc, ?_⟩
      intro he
      subst he
      rw [mem_keys_iff_isSome, hv] at hc
      simp at hc
    · exact And.left
  | some tx =>
    rw [removeDocument_doc_texts tok bm i tx hv]
    by_cases hci : c = i
    · subst hci
      rw [mem_keys_iff_isSome, aget?_aerase_self _ _ h]
      simp
    · rw [mem_keys_iff_isSome, aget?_aerase_ne _ _ _ (fun he => hci he.symm),
        ← mem_keys_iff_isSome]
      simp [hci]

theorem removeFold_texts_nodup (tok : String → List String) :
    ∀ (ids : List String) (bm : BM25State), NodupKeys bm.doc_texts →
      NodupKeys ((ids.foldl (removeDocument tok) bm).doc_texts)
  | [], _, h => h
  | i :: t, bm, h => by
    rw [List.foldl_cons]
    exact removeFold_texts_nodup tok t _ (removeDoc_texts_nodup tok bm i h)

theorem removeFold_texts_keys (tok : String → List String) :
    ∀ (ids : List String) (bm : BM25State), NodupKeys bm.doc_texts → ∀ c,
      (c ∈ ((ids.foldl (removeDocument tok) bm).doc_texts.map Prod.fst) ↔
        c ∈ bm.doc_texts.map Prod.fst ∧ c ∉ ids)
  | [], bm, _, c => by simp
  | i :: t, bm, h, c => by
    rw [List.foldl_cons,
      removeFold_texts_keys tok t _ (removeDoc_texts_nodup tok bm i h) c,
      removeDoc_texts_keys tok bm i h c]
    simp only [List.mem_cons, not_or]
    tauto

theorem mem_colIds_filter (records : List DenseRecord) (ids : List String)
    (c : String) :
    c ∈ (records.filter (fun r => r.id ∉ ids)).map DenseRecord.id ↔
      c ∈ records.map DenseRecord.id ∧ c ∉ ids := by
  constructor
  · intro hc
    rcases List.mem_map.1 hc with ⟨r, hr, hid⟩
    rw [List.mem_filter] at hr
    obtain ⟨hr1, hr2⟩ := hr
    rw [decide_eq_true_eq] at hr2
    exact ⟨hid ▸ List.mem_map_of_mem _ hr1, hid ▸ hr2⟩
  · rintro ⟨hc, hnotin⟩
    rcases List.mem_map.1 hc with ⟨r, hr, hid⟩
    rw [← hid]
    refine List.mem_map_of_mem DenseRecord.id ?_
    rw [List.mem_filter]
    refine ⟨hr, ?_⟩
    rw [decide_eq_true_eq]
    exact hid ▸ hnotin

/-- `add_chunks` with a round-tripping subject id preserves the invariant. -/
theorem vinv_add (tok : String → List String) (s : VSState)
    (subj docId : String) (chunks : List Chunk)
    (hinv : VInv s) (hgood : GoodSubject subj) :
    VInv (addChunks tok s subj docId chunks).1 := by
  unfold addChunks
  by_cases he : chunks.isEmpty
  · rw [if_pos he]
    exact hinv
  · rw [if_neg he]
    dsimp only []
    split
    · refine ⟨?_, ?_, ?_⟩
      · intro cname hc
        rcases mem_keys_ensureKey _ _ _ _ hc with h1 | h1
        · exact h1 ▸ goodName_of_goodSubject subj hgood
        · exact hinv.good_names cname h1
      · intro subj2 bm h2
        rcases aget?_ensureKey_cases _ _ _ _ _ h2 with h3 | h3
        · exact hinv.nd_texts subj2 bm h3
        · rw [h3]
          exact trivial
      · intro subj2 hg2 c
        rw [mem_bmIds_ensure s.bm25Indices _ s.collections subj subj2 c,
          mem_denseIds_ensure s.collections _ s.bm25Indices _ subj2 c]
        exact hinv.cross subj2 hg2 c
    · refine ⟨?_, ?_, ?_⟩
      · intro cname hc
        rcases (mem_keys_aset _ _ _ _).1 hc with h1 | h1
        · exact h1 ▸ goodName_of_goodSubject subj hgood
        · rcases mem_keys_ensureKey _ _ _ _ h1 with h2 | h2
          · exact h2 ▸ goodName_of_goodSubject subj hgood
          · exact hinv.good_names cname h2
      · intro subj2 bm h2
        by_cases hs2 : subj2 = subj
        · subst hs2
          rw [aget?_aset_self] at h2
          rw [← Option.some.inj h2]
          refine addFold_texts_nodup tok _ _ ?_
          rw [agetD_ensureKey_self]
          unfold agetD
          cases hv : aget? s.bm25Indices subj2 with
          | none => exact trivial
          | some bm0 => exact hinv.nd_texts subj2 bm0 hv
        · rw [aget?_aset_ne _ _ _ _ (fun h => hs2 h.symm)] at h2
          rcases aget?_ensureKey_cases _ _ _ _ _ h2 with h3 | h3
          · exact hinv.nd_texts subj2 bm h3
          · rw [h3]
            exact trivial
      · intro subj2 hg2 c
        by_cases hs2 : subj2 = subj
        · subst hs2
          have hbm2 : ∀ (cols : List (String × Collection))
              (bmx : List (String × BM25State)) (bm2 : BM25State),
              bmIds ⟨cols, aset bmx subj2 bm2⟩ subj2 = bm2.doc_texts.map Prod.fst := by
            intro cols bmx bm2
            rw [bmIds_mk, aget?_aset_self]
          have hdn2 : ∀ (cols : List (String × Collection))
              (bmx : List (String × BM25State)) (col2 : Collection),
              denseIds ⟨aset cols (collectionName subj2) col2, bmx⟩ subj2 = colIds col2 := by
            intro cols bmx col2
            rw [denseIds_mk]
            unfold agetD
            rw [aget?_aset_self]
            rfl
          rw [hbm2, hdn2, addFold_texts_keys]
          unfold colIds
          rw [List.map_append, List.mem_append]
          rw [agetD_ensureKey_self, agetD_ensureKey_self]
          have hkeys : (agetD s.bm25Indices subj2 emptyBM25).doc_texts.map Prod.fst =
              bmIds s subj2 := (bmIds_eq_keys s subj2).symm
          rw [hkeys]
          exact or_congr (hinv.cross subj2 hg2 c) Iff.rfl
        · have hcn : collectionName subj2 ≠ collectionName subj :=
            fun h => hs2 (goodSubject_unique hg2 hgood h)
          rw [bmIds_mk, aget?_aset_ne _ _ _ _ (fun h => hs2 h.symm),
            denseIds_mk]
          unfold agetD
          rw [aget?_aset_ne _ _ _ _ (fun h => hcn h.symm),
            aget?_ensureKey_ne _ _ _ _ (fun h => hs2 h),
            aget?_ensureKey_ne _ _ _ _ (fun h => hcn h)]
          exact hinv.cross subj2 hg2 c

/-- One `delete_document` iteration at a round-tripping collection name
preserves the invariant. -/
theorem vinv_delStep (tok : String → List String) (docId : String)
    (st : VSState) (cname : String) (hst : VInv st) (hg : GoodName cname) :
    VInv (deleteStep tok docId st cname) := by
  have hsubj : GoodSubject (recoverSubject cname) := goodSubject_of_goodName cname hg
  unfold deleteStep
  dsimp only []
  split
  · exact hst
  next hne =>
    split
    next bm hbm =>
      refine ⟨?_, ?_, ?_⟩
      · intro cname2 hc
        rcases (mem_keys_aset _ _ _ _).1 hc with h1 | h1
        · exact h1 ▸ hg
        · exact hst.good_names cname2 h1
      · intro subj2 bm2 h2
        by_cases hs2 : subj2 = recoverSubject cname
        · subst hs2
          rw [aget?_aset_self] at h2
          rw [← Option.some.inj h2]
          exact removeFold_texts_nodup tok _ _ (hst.nd_texts _ bm hbm)
        · rw [aget?_aset_ne _ _ _ _ (fun h => hs2 h.symm)] at h2
          exact hst.nd_texts subj2 bm2 h2
      · intro subj2 hg2 c
        by_cases hc : collectionName subj2 = cname
        · have hs2 : subj2 = recoverSubject cname :=
            goodSubject_unique hg2 hsubj (by rw [hc, hg])
          subst hs2
          have hbm2 : ∀ (cols : List (String × Collection))
              (bmx : List (String × BM25State)) (bm2 : BM25State),
              bmIds ⟨cols, aset bmx (recoverSubject cname) bm2⟩ (recoverSubject cname) =
                bm2.doc_texts.map Prod.fst := by
            intro cols bmx bm2
            rw [bmIds_mk, aget?_aset_self]
          rw [hbm2, denseIds_mk, hc]
          unfold agetD
          rw [aget?_aset_self]
          rw [removeFold_texts_keys tok _ bm (hst.nd_texts _ bm hbm) c]
          show _ ↔ c ∈ colIds ⟨_⟩
          unfold colIds
          rw [mem_colIds_filter]
          have hkeys : bm.doc_texts.map Prod.fst = bmIds st (recoverSubject cname) := by
            rw [bmIds_eq_keys]
            unfold agetD
            rw [hbm]
            rfl
          rw [hkeys]
          have hdense : denseIds st (recoverSubject cname) =
              ((aget? st.collections cname).getD ⟨[]⟩).records.map DenseRecord.id := by
            unfold denseIds colIds agetD
            rw [hc]
          refine and_congr ?_ Iff.rfl
          rw [← hdense]
          exact hst.cross _ hg2 c
        · have hs2 : subj2 ≠ recoverSubject cname := by
            intro he
            exact hc (by rw [he, hg])
          rw [bmIds_mk, aget?_aset_ne _ _ _ _ (fun h => hs2 h.symm), denseIds_mk]
          unfold agetD
          rw [aget?_aset_ne _ _ _ _ (fun h => hc h.symm)]
          exact hst.cross subj2 hg2 c
    next hnone =>
      exfalso
      rcases hid : (agetD st.collections cname ⟨[]⟩).records.filter
          (fun r => r.meta.document_id = docId) with _ | ⟨r, rest⟩
      · rw [hid] at hne
        simp at hne
      · have hrmem : r ∈ (agetD st.collections cname ⟨[]⟩).records := by
          have : r ∈ (agetD st.collections cname ⟨[]⟩).records.filter
              (fun r => r.meta.document_id = docId) := by
            rw [hid]
            exact List.mem_cons_self _ _
          exact List.mem_of_mem_filter this
        have hdense : r.id ∈ denseIds st (recoverSubject cname) := by
          show r.id ∈ colIds (agetD st.collections (collectionName (recoverSubject cname)) ⟨[]⟩)
          rw [hg]
          exact List.mem_map_of_mem DenseRecord.id hrmem
        have hbmm := (hst.cross _ hsubj r.id).2 hdense
        rw [bmIds_eq_keys] at hbmm
        unfold agetD at hbmm
        rw [hnone] at hbmm
        simp [emptyBM25] at hbmm

theorem vinv_delFold (tok : String → List String) (docId : String) :
    ∀ (cnames : List String) (st : VSState), VInv st →
      (∀ cn ∈ cnames, GoodName cn) →
      VInv (cnames.foldl (deleteStep tok docId) st)
  | [], _, h, _ => h
  | cn :: t, st, h, hgs =>
    vinv_delFold tok docId t _
      (vinv_delStep tok docId st cn h (hgs cn (List.mem_cons_self _ _)))
      (fun x hx => hgs x (List.mem_cons_of_mem _ hx))

theorem vinv_del (tok : String → List String) (s : VSState) (docId : String)
    (hinv : VInv s) : VInv (deleteDocument tok s docId) := by
  unfold deleteDocument
  exact vinv_delFold tok docId _ s hinv hinv.good_names

theorem vinv_vrun_aux (tok : String → List String) :
    ∀ (ops : List VOp) (s : VSState), VInv s → (∀ op ∈ ops, vopGood op) →
      VInv (ops.foldl (vstep tok) s)
  | [], _, h, _ => h
  | op :: t, s, h, hg => by
    rw [List.foldl_cons]
    refine vinv_vrun_aux tok t _ ?_ (fun x hx => hg x (List.mem_cons_of_mem _ hx))
    cases op with
    | add subj d cs => exact vinv_add tok s subj d cs h (hg _ (List.mem_cons_self _ _))
    | del d => exact vinv_del tok s d h

/-- C1, amended: after every sequence of `add_chunks` / `delete_document`
operations whose subject ids round-trip through the collection-name mapping
(no underscores in disguise), every such subject's BM25 index and dense
collection hold exactly the same chunk ids.  The restriction is necessary:
the counterexample shows the invariant fails for the subject id `"a_b"`. -/
theorem claim_C1_amended (tok : String → List String) (ops : List VOp)
    (hops : ∀ op ∈ ops, vopGood op) (subj : String) (hgood : GoodSubject subj)
    (c : String) :
    c ∈ bmIds (vrun tok ops) subj ↔ c ∈ denseIds (vrun tok ops) subj := by
  unfold vrun
  exact (vinv_vrun_aux tok ops emptyVS vinv_empty hops).cross subj hgood c

/-- Witness for C1: a round-tripping subject id (`"net-sec"`) keeps the two
indices id-equal through an add and a delete. -/
theorem claim_C1_witness :
    GoodSubject "net-sec" ∧
    (∀ op ∈ [VOp.add "net-sec" "doc" [c1Chunk], VOp.del "doc"], vopGood op) ∧
    ("doc_0" ∈ bmIds (vrun tokenizeSimple
        [VOp.add "net-sec" "doc" [c1Chunk], VOp.del "doc"]) "net-sec" ↔
      "doc_0" ∈ denseIds (vrun tokenizeSimple
        [VOp.add "net-sec" "doc" [c1Chunk], VOp.del "doc"]) "net-sec") := by
  have hg : GoodSubject "net-sec" := by
    show recoverSubject (collectionName "net-sec") = "net-sec"
    with_unfolding_all decide
  have hops : ∀ op ∈ [VOp.add "net-sec" "doc" [c1Chunk], VOp.del "doc"], vopGood op := by
    intro op hop
    rcases List.mem_cons.1 hop with rfl | hop
    · exact hg
    · rcases List.mem_cons.1 hop with rfl | hop
      · exact trivial
      · exact absurd hop (by simp)
  exact ⟨hg, hops,
    claim_C1_amended tokenizeSimple _ hops "net-sec" hg "doc_0"⟩

end Sentinel
